import Mathlib

/-!
The reactor core of libplusplus (VECTOR, NETSERVICE, NETWORK), its socket and address
classes (NETSERVER, NETCLIENT, IPV4ADDRESS), the configuration file reader (CONFIGFILE) and
the query builder of DATABASE.

A shallow embedding of `vector.cc`, `netservice.cc`, `network.cc`, `netserver.cc`,
`netclient.cc`, `ipv4address.cc`, `configfile.cc` and `DATABASE::build_query` of `database.cc`.

* Objects live in a heap indexed by addresses (`Ptr`); address `0` is the null pointer.
* Descriptors are `Int`s. In `VECTOR` the two `int` counters are unbounded (`Nat`) and the
  allocator never fails; `Machine.VECTOR` is the same class with `int` counters of 32 bits
  and the allocator's answers as a parameter. The two agree while at most 1342177279
  elements are added and every block asked for is returned (`steps_ofIdeal`).
* An `fd_set` holds the descriptors from 0 to `FD_SETSIZE - 1`; `FD_SET` on any other
  descriptor leaves the set as it is.
* The operating system (select, recv with MSG_PEEK) and the application handlers
  (`incoming()`, pure virtual in the library) are parameters of `NETWORK.run`.
* The socket calls (socket, bind, listen, connect, accept, send, recv, vfprintf) answer as the
  record `OS` says; the methods that make them also return the list of calls made. The
  C library's text conversions (`inet_aton`, `inet_ntoa`, `htons`, `ntohs`) are modelled after
  their documented behaviour, and the resolver `gethostbyname` is a parameter.
* Recursion through the heap (`NETSERVICE::close`) and loops whose bound is re-read from
  the heap on every iteration are driven by a fuel argument. The result `none` stands for
  "no result": the fuel ran out, or the code used an address at which no object lives.
* C strings are lists of characters; a `char*` into the buffer of a CONFIGFILE is an offset
  into it, and the string it points to ends before the next NUL. The loops of `configfile.cc`
  are driven by fuel. `strtol`, `strchr`, `strncasecmp`, `tolower`, `memset`, `strcat` and
  `snprintf` with `%u` are modelled after their documented behaviour; the width of `long` is
  a parameter, `int` has 32 bits where a value is converted to it.
* The output of `build_query` is the memory from `output` on, the caller's buffer and what
  lies behind it, together with the list of the indices stored to. The virtual `escape` of
  the database driver and the `va_list` are parameters.
-/

namespace LibPlusPlus

/-! ## vector.cc -/

/-- Object addresses; `0` is the null pointer. -/
abbrev Ptr := Nat

/-- The class VECTOR of vector.h: `elements` is the allocated block of cells (one `caddr_t`
per cell), `maxElements` the number of cells the block was sized for and `numElements` the
number of cells in use. The counters are unbounded here; `Machine.VECTOR` has them as `int`s
of 32 bits. -/
structure VECTOR where
  elements : List Ptr
  maxElements : Nat
  numElements : Nat
deriving DecidableEq, Repr

/-- The C library call `realloc (block, n cells)`: the block has exactly `n` cells afterwards,
the old contents are kept up to the smaller of the two sizes; fresh cells read as `0`. -/
def realloc (block : List Ptr) (n : Nat) : List Ptr :=
  (block ++ List.replicate (n - block.length) 0).take n

namespace VECTOR

/-- The constructor `VECTOR::VECTOR()`: ten cells, none in use. -/
def init : VECTOR :=
  { elements := List.replicate 10 0, maxElements := 10, numElements := 0 }

/-- The method `VECTOR::count()`. -/
def count (v : VECTOR) : Nat := v.numElements

/-- The method `VECTOR::elementAt (no)`: the cell at position `no`, unchecked. -/
def elementAt (v : VECTOR) (no : Nat) : Ptr := v.elements.getD no 0

/-- The method `VECTOR::addElement (e)`. -/
def addElement (v : VECTOR) (e : Ptr) : VECTOR :=
  let v1 : VECTOR :=
    if v.numElements + 1 ≥ v.maxElements then
      { v with maxElements := v.maxElements * 2,
               elements := realloc v.elements (v.maxElements * 2) }
    else v
  { v1 with elements := v1.elements.set v1.numElements e,
            numElements := v1.numElements + 1 }

/-- The scan of `VECTOR::removeElement`: `for (i; i < numElements; i++)` with `k` iterations
left (`k = numElements - i`). On the first cell equal to `e` the last used cell is copied over
it (unless it is the last one itself), `numElements` is decremented and the scan returns. -/
def removeFrom (v : VECTOR) (e : Ptr) : Nat → Nat → VECTOR
  | _, 0 => v
  | i, k + 1 =>
    if v.elements.getD i 0 = e then
      { v with
        elements :=
          if i ≠ v.numElements - 1 then
            v.elements.set i (v.elements.getD (v.numElements - 1) 0)
          else v.elements,
        numElements := v.numElements - 1 }
    else removeFrom v e (i + 1) k

/-- The method `VECTOR::removeElement (e)`. -/
def removeElement (v : VECTOR) (e : Ptr) : VECTOR :=
  v.removeFrom e 0 v.numElements

/-- The elements a scan `for (i = 0; i < count(); i++) elementAt (i)` visits, in order. -/
def contents (v : VECTOR) : List Ptr := v.elements.take v.numElements

/-- Storage invariant: the block has `maxElements` cells and the cells in use fit in it. -/
def Sound (v : VECTOR) : Prop :=
  v.elements.length = v.maxElements ∧ v.numElements < v.maxElements

instance (v : VECTOR) : Decidable v.Sound := by
  unfold Sound; exact inferInstance

end VECTOR

/-- The last element of a list moved to its front. -/
def lastFirst (b : List Ptr) : List Ptr :=
  match b.getLast? with
  | none => []
  | some z => z :: b.dropLast

/-- Removal by value with swap-with-last on the list of used cells: the first occurrence of
`e` is replaced by the last element, and the list gets one shorter. -/
def eraseSwap : List Ptr → Ptr → List Ptr
  | [], _ => []
  | x :: xs, e => if x = e then lastFirst xs else x :: eraseSwap xs e

/-! ## network.cc: registration -/

/-- The class NETWORK: the list of registered services. -/
structure NETWORK where
  services : VECTOR
deriving DecidableEq, Repr

namespace NETWORK

/-- The constructor `NETWORK::NETWORK()`. -/
def init : NETWORK := { services := VECTOR.init }

/-- The method `NETWORK::addService (service)`. -/
def addService (n : NETWORK) (service : Ptr) : NETWORK :=
  { n with services := n.services.addElement service }

/-- The method `NETWORK::removeService (service)`. -/
def removeService (n : NETWORK) (service : Ptr) : NETWORK :=
  { n with services := n.services.removeElement service }

end NETWORK

/-- One registration call on a NETWORK. -/
inductive NetOp where
  | add (service : Ptr)
  | remove (service : Ptr)
deriving DecidableEq, Repr

namespace NETWORK

/-- Perform one registration call. -/
def step (n : NETWORK) : NetOp → NETWORK
  | .add s => n.addService s
  | .remove s => n.removeService s

/-- Perform a sequence of registration calls, first call first. -/
def steps (n : NETWORK) : List NetOp → NETWORK
  | [] => n
  | op :: ops => steps (n.step op) ops

end NETWORK

/-- Number of `addService` calls in a sequence. -/
def numAdds : List NetOp → Nat
  | [] => 0
  | .add _ :: ops => numAdds ops + 1
  | .remove _ :: ops => numAdds ops

/-- Number of `removeService` calls of a sequence, run from state `n`, whose argument was in
the service list at the time of the call. -/
def completedRemoves (n : NETWORK) : List NetOp → Nat
  | [] => 0
  | .add s :: ops => completedRemoves (n.addService s) ops
  | .remove s :: ops =>
    (if s ∈ n.services.contents then 1 else 0) + completedRemoves (n.removeService s) ops

/-- A sequence of registration calls, run from state `n`, never registers a service that is
in the list at the time of the call. -/
def FreshAdds (n : NETWORK) : List NetOp → Prop
  | [] => True
  | .add s :: ops => s ∉ n.services.contents ∧ FreshAdds (n.addService s) ops
  | .remove s :: ops => FreshAdds (n.removeService s) ops

instance decFreshAdds : (n : NETWORK) → (ops : List NetOp) → Decidable (FreshAdds n ops)
  | _, [] => isTrue trivial
  | n, .add s :: ops => @instDecidableAnd _ _ _ (decFreshAdds (n.addService s) ops)
  | n, .remove s :: ops => decFreshAdds (n.removeService s) ops

/-! ## netservice.cc -/

/-- The constant `NETSERVICE_SERVER` of network.h. -/
def NETSERVICE_SERVER : Int := 0

/-- The constant `NETSERVICE_CLIENT` of network.h. -/
def NETSERVICE_CLIENT : Int := 1

/-- The fields of a NETSERVICE object. `filp` is the `FILE*` (`none` is NULL, `some d` a stream
opened over descriptor `d`), `clients` the vector behind `VECTOR* clients`, `parent` and
`clientAddress` are addresses (`0` is NULL) and `type` is the value the object's virtual
`getType()` returns. -/
structure NETSERVICE where
  fd : Int
  filp : Option Int
  clients : VECTOR
  parent : Ptr
  clientAddress : Ptr
  type : Int
deriving DecidableEq, Repr

/-- What the library does to the outside world, in order. -/
inductive Event where
  /-- The call `s->peek()`. -/
  | peek (s : Ptr)
  /-- The call `s->incoming()`. -/
  | incoming (s : Ptr)
  /-- In `s->close()`: `fflush (filp); fclose (filp)` on the stream over descriptor `d`. -/
  | fclose (s : Ptr) (d : Int)
  /-- In `s->close()`: `::shutdown (fd)` and `::close (fd)` on descriptor `d`. -/
  | closeFD (s : Ptr) (d : Int)
  /-- The statement `delete clientAddress` on the address object `a`. -/
  | deleteAddress (a : Ptr)
  /-- The statement `delete s`: the destructor has run and the object is gone. -/
  | delete (s : Ptr)
deriving DecidableEq, Repr

/-- The heap of NETSERVICE objects: `none` at an address where no object lives. -/
abbrev Heap := Ptr → Option NETSERVICE

/-- The state the library works on: the reactor, the service objects and the event log. -/
structure World where
  net : NETWORK
  heap : Heap
  trace : List Event

namespace World

/-- Store the object `s` at address `p`. -/
def store (w : World) (p : Ptr) (s : NETSERVICE) : World :=
  { w with heap := fun q => if q = p then some s else w.heap q }

/-- Release the object at address `p`. -/
def free (w : World) (p : Ptr) : World :=
  { w with heap := fun q => if q = p then none else w.heap q }

/-- Append an event to the log. -/
def log (w : World) (e : Event) : World :=
  { w with trace := w.trace ++ [e] }

end World

namespace NETSERVICE

/-- The constructor `NETSERVICE::NETSERVICE()`, for an object whose `getType()` is `type`. -/
def init (type : Int) : NETSERVICE :=
  { fd := -1, filp := none, clients := VECTOR.init, parent := 0, clientAddress := 0,
    type := type }

/-- The method `NETSERVICE::setFD (no)` on the object at `this`; `none` when no object lives
there. -/
def setFD (this : Ptr) (no : Int) (w : World) : Option World :=
  match w.heap this with
  | none => none
  | some s =>
    some (w.store this
      (if no ≠ -1 then { s with fd := no, filp := some no } else { s with fd := no }))

/-- The method `NETSERVICE::removeClient (client)` on the object at `this`. -/
def removeClient (this : Ptr) (client : Ptr) (w : World) : Option World :=
  match w.heap this with
  | none => none
  | some s => some (w.store this { s with clients := s.clients.removeElement client })

/-- The method `NETSERVICE::addClient (client)` on the object at `this`. -/
def addClient (this : Ptr) (client : Ptr) (w : World) : Option World :=
  match w.heap this with
  | none => none
  | some s => some (w.store this { s with clients := s.clients.addElement client })

/-- The method `NETSERVICE::peek()` on the object at `this`: the result and the world after the
call. `recvPeek d` is what `::recv (d, &buf, 1, MSG_PEEK)` returns. -/
def peek (recvPeek : Int → Int) (this : Ptr) (w : World) : Option (Int × World) :=
  match w.heap this with
  | none => none
  | some s =>
    if s.fd = -1 then some (0, w.log (.peek this))
    else
      let i := recvPeek s.fd
      some (if i = -1 then 0 else i, w.log (.peek this))

/-- The release of the descriptor in `NETSERVICE::close()`: `fflush` and `fclose` on the stream
when `filp` is not NULL, otherwise `::shutdown` and `::close` on the descriptor. -/
def releaseEvent (this : Ptr) (s : NETSERVICE) : Event :=
  match s.filp with
  | some d => .fclose this d
  | none => .closeFD this s.fd

mutual

/-- The method `NETSERVICE::close()` on the object at `this`. -/
def close : Nat → Ptr → World → Option World
  | 0, _, _ => none
  | fuel + 1, this, w =>
    match w.heap this with
    | none => none
    | some s =>
      let w1 : World :=
        if s.fd ≠ -1 then
          (w.log (releaseEvent this s)).store this { s with fd := -1 }
        else w
      let w2 : Option World :=
        if s.parent ≠ 0 then removeClient s.parent this w1 else some w1
      match w2 with
      | none => none
      | some w2 => closeLoop fuel this 0 w2
termination_by structural fuel => fuel

/-- The loop `for (int i = 0; i < clients->count(); i++)` of `NETSERVICE::close()`, from index
`i` on: `c->close(); clients->removeElement (c); delete c;`. -/
def closeLoop : Nat → Ptr → Nat → World → Option World
  | 0, _, _, _ => none
  | fuel + 1, this, i, w =>
    match w.heap this with
    | none => none
    | some s =>
      if i < s.clients.count then
        let c := s.clients.elementAt i
        match close fuel c w with
        | none => none
        | some w1 =>
          match w1.heap this with
          | none => none
          | some s1 =>
            let w2 := w1.store this { s1 with clients := s1.clients.removeElement c }
            match destroy fuel c w2 with
            | none => none
            | some w3 => closeLoop fuel this (i + 1) w3
      else some w
termination_by structural fuel => fuel

/-- The statement `delete p` for a NETSERVICE at `this`: the destructor
`NETSERVICE::~NETSERVICE()` (delete the client address, `close()`, delete the clients vector),
then the object is released. -/
def destroy : Nat → Ptr → World → Option World
  | 0, _, _ => none
  | fuel + 1, this, w =>
    match w.heap this with
    | none => none
    | some s =>
      let w1 : World := if s.clientAddress ≠ 0 then w.log (.deleteAddress s.clientAddress) else w
      match close fuel this w1 with
      | none => none
      | some w2 => some ((w2.free this).log (.delete this))
termination_by structural fuel => fuel

end

end NETSERVICE

/-! ## network.cc: the dispatch cycle -/

/-- The constant `FD_SETSIZE` of `sys/select.h`: an `fd_set` has one bit for each descriptor
from 0 to `FD_SETSIZE - 1`. -/
def FD_SETSIZE : Int := 1024

/-- The macro `FD_SET (fd, &fds)`, on the list of the descriptors whose bit is set, in the
order in which they were set. For a descriptor that the `fd_set` has no bit for, the store
goes to memory outside the set and the set stays as it was. -/
def FD_SET (fd : Int) (fds : List Int) : List Int :=
  if 0 ≤ fd ∧ fd < FD_SETSIZE then fds ++ [fd] else fds

namespace NETWORK

/-- The inner loop of the first half of `NETWORK::run()`: `FD_SET` for every client of one
service whose descriptor is not `-1`. -/
def fdSetClients (h : Heap) : List Ptr → List Int → Option (List Int)
  | [], fds => some fds
  | subservice :: rest, fds =>
    match h subservice with
    | none => none
    | some sub => fdSetClients h rest (if sub.fd ≠ -1 then FD_SET sub.fd fds else fds)

/-- The outer loop of the first half of `NETWORK::run()`: `FD_SET` for every service whose
descriptor is not `-1`, then the service's clients. -/
def fdSetServices (h : Heap) : List Ptr → List Int → Option (List Int)
  | [], fds => some fds
  | service :: rest, fds =>
    match h service with
    | none => none
    | some s =>
      match fdSetClients h s.clients.contents (if s.fd ≠ -1 then FD_SET s.fd fds else fds) with
      | none => none
      | some fds1 => fdSetServices h rest fds1

/-- The descriptor set `fds` that `NETWORK::run()` hands to `select`, in `FD_SET` order. -/
def fdSet (w : World) : Option (List Int) :=
  fdSetServices w.heap w.net.services.contents []

/-- The loop over `service->getClients()` in the second half of `NETWORK::run()`, from index
`j` on. `ready` is the descriptor set `select` left behind. -/
def scanClients (incoming : Ptr → World → World) (recvPeek : Int → Int) (ready : List Int) :
    Nat → Ptr → Nat → World → Option World
  | 0, _, _, _ => none
  | fuel + 1, service, j, w =>
    match w.heap service with
    | none => none
    | some s =>
      if j < s.clients.count then
        let subservice := s.clients.elementAt j
        match w.heap subservice with
        | none => none
        | some sub =>
          if sub.fd ≠ -1 then
            if sub.fd ∈ ready then
              match NETSERVICE.peek recvPeek subservice w with
              | none => none
              | some (r, w1) =>
                if r ≠ 0 then
                  scanClients incoming recvPeek ready fuel service (j + 1)
                    (incoming subservice (w1.log (.incoming subservice)))
                else
                  match NETSERVICE.destroy fuel subservice w1 with
                  | none => none
                  | some w2 =>
                    match NETSERVICE.removeClient service subservice w2 with
                    | none => none
                    | some w3 => scanClients incoming recvPeek ready fuel service j w3
            else scanClients incoming recvPeek ready fuel service (j + 1) w
          else scanClients incoming recvPeek ready fuel service (j + 1) w
      else some w
termination_by structural fuel => fuel

/-- The body of the loop over `services` in the second half of `NETWORK::run()` for the
element `service` just fetched: the ready branch, then the scan of the service's clients
unless `service` was set to NULL. -/
def dispatchService (incoming : Ptr → World → World) (recvPeek : Int → Int) (ready : List Int)
    (fuel : Nat) (service : Ptr) (w : World) : Option World :=
  match w.heap service with
  | none => none
  | some s =>
    if s.fd ≠ -1 then
      -- `service` after the ready branch (`0` once it was set to NULL), and the world
      let r : Option (Ptr × World) :=
        if s.fd ∈ ready then
          if s.type = NETSERVICE_SERVER then
            some (service, incoming service (w.log (.incoming service)))
          else
            match NETSERVICE.peek recvPeek service w with
            | none => none
            | some (r, w1) =>
              if r ≠ 0 then
                some (service, incoming service (w1.log (.incoming service)))
              else
                match NETSERVICE.setFD service (-1) w1 with
                | none => none
                | some w2 =>
                  some (0, { w2 with net :=
                    { w2.net with services := w2.net.services.removeElement service } })
        else some (service, w)
      match r with
      | none => none
      | some (service1, w1) =>
        if service1 ≠ 0 then scanClients incoming recvPeek ready fuel service1 0 w1
        else some w1
    else some w

/-- The loop over `services` in the second half of `NETWORK::run()`, from index `i` on. -/
def dispatch (incoming : Ptr → World → World) (recvPeek : Int → Int) (ready : List Int) :
    Nat → Nat → World → Option World
  | 0, _, _ => none
  | fuel + 1, i, w =>
    if i < w.net.services.count then
      match dispatchService incoming recvPeek ready fuel (w.net.services.elementAt i) w with
      | none => none
      | some w1 => dispatch incoming recvPeek ready fuel (i + 1) w1
    else some w
termination_by structural fuel => fuel

/-- The method `NETWORK::run()`. `select fds` is what `select (fdmax + 1, &fds, NULL, NULL, NULL)`
does to the descriptor set: `none` when it returns a negative value, otherwise the set it
leaves in `fds`. -/
def run (incoming : Ptr → World → World) (select : List Int → Option (List Int))
    (recvPeek : Int → Int) (fuel : Nat) (w : World) : Option World :=
  match fdSet w with
  | none => none
  | some fds =>
    match select fds with
    | none => some w
    | some ready => dispatch incoming recvPeek ready fuel 0 w

end NETWORK

/-! ## Describing the dispatch cycle -/

/-- The events of `close()` on the object `sc` at `c`: the release of its descriptor when it
has one. -/
def closeEvents (c : Ptr) (sc : NETSERVICE) : List Event :=
  if sc.fd ≠ -1 then [NETSERVICE.releaseEvent c sc] else []

/-- The events of `delete c` for an object `sc` at `c` that owns no clients: the release of its
client address, the events of `close()` and the release of the object. -/
def destroyEvents (c : Ptr) (sc : NETSERVICE) : List Event :=
  (if sc.clientAddress ≠ 0 then [Event.deleteAddress sc.clientAddress] else []) ++
  (closeEvents c sc ++ [Event.delete c])

/-- The world after the client `c` (object `sc`) of the service at `P` (object `sP`) was
destroyed: the object at `c` is gone, `c` is removed from the clients of `P` and the events of
the destruction are logged. -/
def World.dropClient (w : World) (P c : Ptr) (sP sc : NETSERVICE) : World :=
  { net := w.net,
    heap := fun q =>
      if q = c then none
      else if q = P then some { sP with clients := sP.clients.removeElement c }
      else w.heap q,
    trace := w.trace ++ destroyEvents c sc }

/-- The value `NETSERVICE::peek()` returns on a bound descriptor `d`. -/
def peekValue (recvPeek : Int → Int) (d : Int) : Int :=
  if recvPeek d = -1 then 0 else recvPeek d

/-- The client at `c` is bound, reported ready and its probe finds no data, so the scan of its
parent's clients destroys it. -/
def doomed (recvPeek : Int → Int) (ready : List Int) (h : Heap) (c : Ptr) : Bool :=
  match h c with
  | none => false
  | some sc =>
    decide (sc.fd ≠ -1) && (decide (sc.fd ∈ ready) && decide (peekValue recvPeek sc.fd = 0))

/-- What the scan of a parent's clients does for the client at `c`. -/
def clientEvents (recvPeek : Int → Int) (ready : List Int) (h : Heap) (c : Ptr) : List Event :=
  match h c with
  | none => []
  | some sc =>
    if sc.fd ≠ -1 ∧ sc.fd ∈ ready then
      Event.peek c ::
        (if peekValue recvPeek sc.fd ≠ 0 then [Event.incoming c] else destroyEvents c sc)
    else []

/-- The clients the scan leaves in the collection, in their final order, when it starts with
the not yet visited clients `u` (at most `n` of them). -/
def scanKeep (recvPeek : Int → Int) (ready : List Int) (h : Heap) : Nat → List Ptr → List Ptr
  | 0, _ => []
  | _ + 1, [] => []
  | n + 1, c :: b =>
    if doomed recvPeek ready h c then scanKeep recvPeek ready h n (lastFirst b)
    else c :: scanKeep recvPeek ready h n b

/-- The events of the scan over the not yet visited clients `u` (at most `n` of them). -/
def scanTrace (recvPeek : Int → Int) (ready : List Int) (h : Heap) : Nat → List Ptr → List Event
  | 0, _ => []
  | _ + 1, [] => []
  | n + 1, c :: b =>
    clientEvents recvPeek ready h c ++
      (if doomed recvPeek ready h c then scanTrace recvPeek ready h n (lastFirst b)
       else scanTrace recvPeek ready h n b)

/-- The service object an event is about (`none` for the release of an address object). -/
def Event.subject : Event → Option Ptr
  | .peek s => some s
  | .incoming s => some s
  | .fclose s _ => some s
  | .closeFD s _ => some s
  | .deleteAddress _ => none
  | .delete s => some s

/-- A two-level service tree: the null address holds no object, the registered services are
distinct live objects, and the clients of each registered service are distinct live objects
that are not registered themselves, have that service as parent and own no clients. -/
structure World.Tree (w : World) : Prop where
  null : w.heap 0 = none
  sound : w.net.services.Sound
  nodup : w.net.services.contents.Nodup
  top : ∀ p ∈ w.net.services.contents, ∃ s, w.heap p = some s ∧ s.clients.Sound ∧
    s.clients.contents.Nodup ∧
    ∀ c ∈ s.clients.contents, c ∉ w.net.services.contents ∧
      ∃ sc, w.heap c = some sc ∧ sc.parent = p ∧ sc.clients.numElements = 0

/-- The registered service at `p` is bound, reported ready, not Server-kind and its probe
finds no data, so its visit unbinds and unregisters it. -/
def dropped (recvPeek : Int → Int) (ready : List Int) (h : Heap) (p : Ptr) : Bool :=
  match h p with
  | none => false
  | some s =>
    decide (s.fd ≠ -1) && (decide (s.fd ∈ ready) &&
      (decide (s.type ≠ NETSERVICE_SERVER) && decide (peekValue recvPeek s.fd = 0)))

/-- The events of the ready branch for a bound registered service that is kept. -/
def serviceEvents (ready : List Int) (p : Ptr) (s : NETSERVICE) : List Event :=
  if s.fd ∈ ready then
    if s.type = NETSERVICE_SERVER then [Event.incoming p]
    else [Event.peek p, Event.incoming p]
  else []

/-- The world after the visit of the registered service at `Q` (object `sQ`) unbound and
unregistered it. -/
def World.dropService (w : World) (Q : Ptr) (sQ : NETSERVICE) : World :=
  { net := { w.net with services := w.net.services.removeElement Q },
    heap := fun q => if q = Q then some { sQ with fd := -1 } else w.heap q,
    trace := w.trace ++ [Event.peek Q] }

/-- What one pass of the body of the dispatch loop over the registered service at `Q` (object
`sQ`, index `i`) does to a world `w`, giving `w'`. -/
structure Visit (recvPeek : Int → Int) (ready : List Int) (w : World) (i : Nat) (Q : Ptr)
    (sQ : NETSERVICE) (w' : World) : Prop where
  tree : w'.Tree
  frame : ∀ q, q ≠ Q → q ∉ sQ.clients.contents → w'.heap q = w.heap q
  events : ∃ evs, w'.trace = w.trace ++ evs ∧
    ∀ e ∈ evs, ∀ q, e.subject = some q → q = Q ∨ q ∈ sQ.clients.contents
  count_le : w'.net.services.count ≤ w.net.services.count
  subset : ∀ q ∈ w'.net.services.contents, q ∈ w.net.services.contents
  fanout : ∀ q s', w'.heap q = some s' →
    ∃ s, w.heap q = some s ∧ s'.clients.numElements ≤ s.clients.numElements
  stable : w'.net.services.contents.take i = w.net.services.contents.take i
  kept : dropped recvPeek ready w.heap Q = false → w'.net = w.net
  gone : dropped recvPeek ready w.heap Q = true → w' = w.dropService Q sQ
  scan : sQ.fd ≠ -1 → dropped recvPeek ready w.heap Q = false →
    ∃ cl, w'.heap Q = some { sQ with clients := cl } ∧
      cl.contents =
        scanKeep recvPeek ready w.heap sQ.clients.contents.length sQ.clients.contents ∧
      w'.trace = w.trace ++ (serviceEvents ready Q sQ ++
        scanTrace recvPeek ready w.heap sQ.clients.contents.length sQ.clients.contents) ∧
      ∀ q, q ≠ Q →
        w'.heap q =
          if q ∈ sQ.clients.contents ∧ doomed recvPeek ready w.heap q = true then none
          else w.heap q

/-- No event of the list is about one of the listed services. -/
def Clean (evs : List Event) (ds : List Ptr) : Prop :=
  ∀ e ∈ evs, ∀ d ∈ ds, e.subject ≠ some d

/-- A decision procedure for `World.Tree`. -/
def World.treeCheck (w : World) : Bool :=
  (w.heap 0).isNone && (decide w.net.services.Sound &&
    (decide w.net.services.contents.Nodup &&
      w.net.services.contents.all (fun p =>
        match w.heap p with
        | none => false
        | some s =>
          decide s.clients.Sound && (decide s.clients.contents.Nodup &&
            s.clients.contents.all (fun c =>
              decide (c ∉ w.net.services.contents) &&
                match w.heap c with
                | none => false
                | some sc => decide (sc.parent = p) && decide (sc.clients.numElements = 0))))))

/-- Descriptor 4 has no data pending, every other descriptor has. -/
def quietOn4 : Int → Int := fun d => if d = 4 then 0 else 1

/-! ## Building concrete states -/

/-- The vector obtained from a new VECTOR by adding the given elements in order. -/
def VECTOR.ofList (l : List Ptr) : VECTOR := l.foldl VECTOR.addElement VECTOR.init

/-- The heap holding exactly the listed objects. -/
def Heap.ofList (objs : List (Ptr × NETSERVICE)) : Heap := fun p => objs.lookup p

/-- The world in which the listed services were registered in order with a new NETWORK, the
heap holds exactly the listed objects and nothing has happened yet. -/
def World.ofList (services : List Ptr) (objs : List (Ptr × NETSERVICE)) : World :=
  { net := { services := VECTOR.ofList services }, heap := Heap.ofList objs, trace := [] }

/-- A bound service object: descriptor `fd` with its stream, the given clients and parent. -/
def NETSERVICE.bound (type : Int) (fd : Int) (clients : List Ptr) (parent : Ptr) : NETSERVICE :=
  { fd := fd, filp := some fd, clients := VECTOR.ofList clients, parent := parent,
    clientAddress := 0, type := type }

/-- A client accepted by the server at `parent` (what `NETSERVER::accept` sets up): bound to
`fd`, with the remote address object `addr`. -/
def NETSERVICE.accepted (fd : Int) (parent : Ptr) (addr : Ptr) : NETSERVICE :=
  { fd := fd, filp := some fd, clients := VECTOR.init, parent := parent,
    clientAddress := addr, type := NETSERVICE_CLIENT }

/-- A handler that leaves the reactor and the service objects alone. -/
def idle : Ptr → World → World := fun _ w => w

/-- A `select` that reports every monitored descriptor ready. -/
def allReady : List Int → Option (List Int) := fun fds => some fds

/-- What a test reads off a world: the event log, the registered services, and for the given
addresses the object's descriptor and clients (`none` where no object lives). -/
def World.view (w : World) (ps : List Ptr) :
    List Event × List Ptr × List (Option (Int × List Ptr)) :=
  (w.trace, w.net.services.contents,
    ps.map (fun p => (w.heap p).map (fun s => (s.fd, s.clients.contents))))

/-- Two registered Client-kind services, `1` on descriptor 3 and `2` on descriptor 4. -/
def twoClients : World :=
  World.ofList [1, 2]
    [(1, NETSERVICE.bound NETSERVICE_CLIENT 3 [] 0), (2, NETSERVICE.bound NETSERVICE_CLIENT 4 [] 0)]

/-- A registered Client-kind service `1` on descriptor 3 followed by a registered Server-kind
service `2` on descriptor 4. -/
def clientThenServer : World :=
  World.ofList [1, 2]
    [(1, NETSERVICE.bound NETSERVICE_CLIENT 3 [] 0), (2, NETSERVICE.bound NETSERVICE_SERVER 4 [] 0)]

/-- A registered Server-kind service `1` on descriptor 3 that owns the accepted clients `2`
(descriptor 4, address object 12) and `3` (descriptor 5, address object 13). -/
def serverTwoChildren : World :=
  World.ofList [1]
    [(1, NETSERVICE.bound NETSERVICE_SERVER 3 [2, 3] 0),
     (2, NETSERVICE.accepted 4 1 12),
     (3, NETSERVICE.accepted 5 1 13)]

/-- A registered Client-kind service `1` on descriptor 3 that owns the client `2` on
descriptor 4. -/
def clientWithChild : World :=
  World.ofList [1]
    [(1, NETSERVICE.bound NETSERVICE_CLIENT 3 [2] 0),
     (2, NETSERVICE.bound NETSERVICE_CLIENT 4 [] 1)]

/-- A registered Server-kind service `1` without a descriptor that still owns the accepted
client `2` on descriptor 5. -/
def unboundWithChild : World :=
  World.ofList [1]
    [(1, { NETSERVICE.bound NETSERVICE_SERVER (-1) [2] 0 with filp := none }),
     (2, NETSERVICE.accepted 5 1 12)]

/-- The bound descriptors among the listed services (objects that do not exist contribute
nothing). -/
def boundFds (h : Heap) : List Ptr → List Int
  | [] => []
  | p :: rest =>
    match h p with
    | none => boundFds h rest
    | some s => if s.fd ≠ -1 then s.fd :: boundFds h rest else boundFds h rest

/-- The readiness set in the words of the specification: every top-level service with a bound
descriptor, plus every bound descriptor among each such service's owned children. -/
def readinessSetSpec (h : Heap) : List Ptr → List Int
  | [] => []
  | p :: rest =>
    match h p with
    | none => readinessSetSpec h rest
    | some s =>
      if s.fd ≠ -1 then s.fd :: (boundFds h s.clients.contents ++ readinessSetSpec h rest)
      else readinessSetSpec h rest

/-! ## netservice.cc, netserver.cc, netclient.cc: the socket calls -/

/-- The calls into the operating system and the C library that the socket-level methods make,
in the order they are made. -/
inductive SysCall where
  /-- The call `::recv (d, buf, len, 0)`. -/
  | recv (d : Int) (len : Int)
  /-- The call `::send (d, buf, len, 0)`. -/
  | send (d : Int) (len : Int)
  /-- The call `vfprintf (filp, fmt, ap)` on the stream `filp`. -/
  | vfprintf (filp : Option Int)
  /-- The call `socket (AF_INET, SOCK_STREAM, 0)`. -/
  | socket
  /-- The call `setsockopt (d, SOL_SOCKET, SO_REUSEADDR, ...)`. -/
  | setsockopt (d : Int)
  /-- The call `bind (d, ...)` to the port `no`. -/
  | bind (d : Int) (no : Int)
  /-- The call `listen (d, 5)`. -/
  | listen (d : Int)
  /-- The call `::connect (d, ...)` to the address object `addr`. -/
  | connect (d : Int) (addr : Ptr)
  /-- The call `::accept (d, ...)`. -/
  | accept (d : Int)
  /-- The call `fcntl (d, F_SETFD, FD_CLOEXEC)`. -/
  | fcntl (d : Int)
  /-- The call `::close (d)`. -/
  | close (d : Int)
deriving DecidableEq, Repr

/-- What the operating system and the C library answer: each field is the value the call of
that name returns for the given arguments. -/
structure OS where
  recv : Int → Int → Int
  send : Int → Int → Int
  vfprintf : Option Int → Int
  socket : Int
  bind : Int → Int → Int
  listen : Int → Int
  connect : Int → Ptr → Int
  accept : Int → Int

namespace NETSERVICE

/-- The method `NETSERVICE::setParent (p)` on the object at `this`. -/
def setParent (this : Ptr) (p : Ptr) (w : World) : Option World :=
  match w.heap this with
  | none => none
  | some s => some (w.store this { s with parent := p })

/-- The method `NETSERVICE::setClientAddress (addr)` on the object at `this`. -/
def setClientAddress (this : Ptr) (addr : Ptr) (w : World) : Option World :=
  match w.heap this with
  | none => none
  | some s => some (w.store this { s with clientAddress := addr })

/-- The method `NETSERVICE::recv (buf, len)` on the object at `this`: the result, the world
after the call and the calls made. -/
def recv (os : OS) (this : Ptr) (len : Int) (w : World) : Option (Int × World × List SysCall) :=
  match w.heap this with
  | none => none
  | some s =>
    if s.fd = -1 then some (0, w, [])
    else
      let i := os.recv s.fd len
      some (if i = -1 then 0 else i, w, [.recv s.fd len])

/-- The method `NETSERVICE::send (buf, len)` on the object at `this`: the result, the world
after the call and the calls made. -/
def send (os : OS) (this : Ptr) (len : Int) (w : World) : Option (Int × World × List SysCall) :=
  match w.heap this with
  | none => none
  | some s =>
    if s.fd = -1 then some (0, w, [])
    else
      let i := os.send s.fd len
      some (if i = -1 then 0 else i, w, [.send s.fd len])

/-- The method `NETSERVICE::sendf (fmt, ...)` on the object at `this`: the result, the world
after the call and the calls made. -/
def sendf (os : OS) (this : Ptr) (w : World) : Option (Int × World × List SysCall) :=
  match w.heap this with
  | none => none
  | some s =>
    if s.fd = -1 then some (0, w, [])
    else
      let ret := os.vfprintf s.filp
      some (ret, w, [.vfprintf s.filp])

end NETSERVICE

namespace NETSERVER

/-- The method `NETSERVER::create (no)` on the object at `this`: the result, the world after
the call and the calls made. -/
def create (os : OS) (this : Ptr) (no : Int) (w : World) :
    Option (Int × World × List SysCall) :=
  let lfd := os.socket
  if lfd < 0 then some (0, w, [.socket])
  else if os.bind lfd no < 0 then
    some (0, w, [.socket, .setsockopt lfd, .bind lfd no, .close lfd])
  else if os.listen lfd < 0 then
    some (0, w, [.socket, .setsockopt lfd, .bind lfd no, .listen lfd, .close lfd])
  else
    match NETSERVICE.setFD this lfd w with
    | none => none
    | some w1 => some (1, w1, [.socket, .setsockopt lfd, .bind lfd no, .listen lfd])

/-- The method `NETSERVER::accept (client)` on the object at `this`: the result, the world
after the call and the calls made. `addr` is the address object `new IPV4ADDRESS()` returns and
`fuel` bounds the work of `delete client`. -/
def accept (os : OS) (addr : Ptr) (fuel : Nat) (this : Ptr) (client : Ptr) (w : World) :
    Option (Int × World × List SysCall) :=
  match w.heap this with
  | none => none
  | some s =>
    let client_fd := os.accept s.fd
    if client_fd < 0 then
      match NETSERVICE.destroy fuel client (w.log (.deleteAddress addr)) with
      | none => none
      | some w1 => some (0, w1, [.accept s.fd])
    else
      match NETSERVICE.setFD client client_fd w with
      | none => none
      | some w1 =>
        match NETSERVICE.setParent client this w1 with
        | none => none
        | some w2 =>
          match NETSERVICE.setClientAddress client addr w2 with
          | none => none
          | some w3 =>
            match NETSERVICE.addClient this client w3 with
            | none => none
            | some w4 => some (1, w4, [.accept s.fd, .fcntl client_fd])

end NETSERVER

namespace NETCLIENT

/-- The method `NETCLIENT::connect (addr)` on the object at `this`: the result, the world
after the call and the calls made. -/
def connect (os : OS) (this : Ptr) (addr : Ptr) (w : World) :
    Option (Int × World × List SysCall) :=
  let lfd := os.socket
  if lfd < 0 then some (0, w, [.socket])
  else if os.connect lfd addr < 0 then some (0, w, [.socket, .connect lfd addr, .close lfd])
  else
    match NETSERVICE.setFD this lfd w with
    | none => none
    | some w1 => some (1, w1, [.socket, .connect lfd addr, .fcntl lfd])

end NETCLIENT

/-- An operating system on which every call fails: the socket calls return `-1` and the
formatted write a negative count. -/
def failingOS : OS :=
  { recv := fun _ _ => -1, send := fun _ _ => -1, vfprintf := fun _ => -1, socket := -1,
    bind := fun _ _ => -1, listen := fun _ => -1, connect := fun _ _ => -1,
    accept := fun _ => -1 }

/-- An operating system on which every call succeeds: transfers move the whole buffer, the
formatted write reports 5 bytes, and the new descriptor is 7 (`socket`) or 8 (`accept`). -/
def workingOS : OS :=
  { recv := fun _ len => len, send := fun _ len => len, vfprintf := fun _ => 5, socket := 7,
    bind := fun _ _ => 0, listen := fun _ => 0, connect := fun _ _ => 0, accept := fun _ => 8 }

/-- A registered Server-kind service `1` on descriptor 3 that owns the accepted client `2`,
and a newly constructed client `5` that nobody owns yet. -/
def serverWithPlaceholder : World :=
  World.ofList [1]
    [(1, NETSERVICE.bound NETSERVICE_SERVER 3 [2] 0),
     (2, NETSERVICE.accepted 4 1 12),
     (5, NETSERVICE.init NETSERVICE_CLIENT)]

/-- A newly constructed Server-kind service `1` and a newly constructed Client-kind service
`2`, neither registered. -/
def newServices : World :=
  World.ofList []
    [(1, NETSERVICE.init NETSERVICE_SERVER), (2, NETSERVICE.init NETSERVICE_CLIENT)]

/-! ## ipv4address.cc and the address classes of network.h -/

/-- The value of the character `c` as a digit, as `strtoul` reads digits: `0`..`9`, then
letters for the values from ten on. -/
def digitValue (c : Char) : Option Nat :=
  if 48 ≤ c.toNat ∧ c.toNat ≤ 57 then some (c.toNat - 48)
  else if 97 ≤ c.toNat ∧ c.toNat ≤ 122 then some (c.toNat - 87)
  else if 65 ≤ c.toNat ∧ c.toNat ≤ 90 then some (c.toNat - 55)
  else none

/-- The digits of base `base` at the front of the text, read onto the value `acc`: the value
and the text left over. -/
def readDigits (base : Nat) : List Char → Nat → Nat × List Char
  | [], acc => (acc, [])
  | c :: cs, acc =>
    match digitValue c with
    | none => (acc, c :: cs)
    | some v => if v < base then readDigits base cs (acc * base + v) else (acc, c :: cs)

/-- The C library's `strtoul (cp, &endp, 0)` on a text that starts with a digit: hexadecimal
after `0x` or `0X`, octal after another leading `0`, decimal otherwise. The value and the text
from `endp` on. -/
def strtoul0 : List Char → Nat × List Char
  | [] => (0, [])
  | c :: cs =>
    if c = '0' then
      match cs with
      | [] => (0, [])
      | x :: rest =>
        if x = 'x' ∨ x = 'X' then
          match rest with
          | [] => (0, x :: rest)
          | h :: _ =>
            match digitValue h with
            | none => (0, x :: rest)
            | some v => if v < 16 then readDigits 16 rest 0 else (0, x :: rest)
        else readDigits 8 (x :: rest) 0
    else readDigits 10 (c :: cs) 0

/-- The C library's `isspace` on an ASCII character. -/
def isspace (c : Char) : Bool :=
  c.toNat = 32 ∨ (9 ≤ c.toNat ∧ c.toNat ≤ 13)

/-- The loop of the C library's `inet_aton`: `parts` are the bytes read so far, each followed
by a dot. The result is the address with its four bytes in network order, read as one number
(`a.b.c.d` is `((a * 256 + b) * 256 + c) * 256 + d`), or `none` where `inet_aton` returns 0. -/
def inet_atonLoop : Nat → List Char → List Nat → Option Nat
  | 0, _, _ => none
  | fuel + 1, cp, parts =>
    match cp with
    | [] => none
    | c :: _ =>
      if 48 ≤ c.toNat ∧ c.toNat ≤ 57 then
        let r := strtoul0 cp
        if r.1 > 0xffffffff then none
        else
          match r.2 with
          | [] =>
            if r.1 > 256 ^ (4 - parts.length) - 1 then none
            else some (parts.foldl (fun acc p => acc * 256 + p) 0 * 256 ^ (4 - parts.length) + r.1)
          | e :: rest =>
            if e = '.' then
              if parts.length > 2 ∨ r.1 > 0xff then none
              else inet_atonLoop fuel rest (parts ++ [r.1])
            else if isspace e then
              if r.1 > 256 ^ (4 - parts.length) - 1 then none
              else
                some (parts.foldl (fun acc p => acc * 256 + p) 0 * 256 ^ (4 - parts.length) + r.1)
            else none
      else none

/-- The C library's `inet_aton (cp, &addr)`: one to four parts separated by dots, the last one
filling the bytes that are left. -/
def inet_aton (cp : List Char) : Option Nat := inet_atonLoop 4 cp []

/-- The C library's `inet_ntoa (in)`: the four bytes of the address in decimal, separated by
dots. -/
def inet_ntoa (v : Nat) : List Char :=
  Nat.toDigits 10 (v / 16777216 % 256) ++ '.' :: (Nat.toDigits 10 (v / 65536 % 256) ++
    '.' :: (Nat.toDigits 10 (v / 256 % 256) ++ '.' :: Nat.toDigits 10 (v % 256)))

/-- The C library's `htons (hostshort)`: the argument is converted to 16 bits, and its two
bytes change places on a little-endian host. -/
def htons (littleEndian : Bool) (hostshort : Int) : Nat :=
  let v := (hostshort % 65536).toNat
  if littleEndian then v % 256 * 256 + v / 256 else v

/-- The C library's `ntohs (netshort)`. -/
def ntohs (littleEndian : Bool) (netshort : Nat) : Nat :=
  let v := netshort % 65536
  if littleEndian then v % 256 * 256 + v / 256 else v

/-- The fields of the `struct sockaddr_in` inside an IPV4ADDRESS that the class works on:
`sin_addr` is the address with its four bytes in network order, read as one number, and
`sin_port` the 16-bit port field as the host reads it. -/
structure IPV4ADDRESS where
  sin_addr : Nat
  sin_port : Nat
deriving DecidableEq, Repr

namespace IPV4ADDRESS

/-- The constructor `IPV4ADDRESS::IPV4ADDRESS()` on top of `NETADDRESS::NETADDRESS()`, which
wipes the address. -/
def init : IPV4ADDRESS := { sin_addr := 0, sin_port := 0 }

/-- The method `IPV4ADDRESS::setAddr (addr)`: the result, the object after the call and the
names handed to `gethostbyname`. `gethostbyname name` is the first address of the host entry,
or `none` when the call returns NULL. -/
def setAddr (gethostbyname : List Char → Option Nat) (this : IPV4ADDRESS) (addr : List Char) :
    Int × IPV4ADDRESS × List (List Char) :=
  match inet_aton addr with
  | some v => (1, { this with sin_addr := v }, [])
  | none =>
    match gethostbyname addr with
    | none => (0, this, [addr])
    | some v => (1, { this with sin_addr := v }, [addr])

/-- The method `IPV4ADDRESS::getAddr()`. -/
def getAddr (this : IPV4ADDRESS) : List Char := inet_ntoa this.sin_addr

/-- The method `IPV4ADDRESS::setPort (port)`. -/
def setPort (littleEndian : Bool) (this : IPV4ADDRESS) (port : Int) : IPV4ADDRESS :=
  { this with sin_port := htons littleEndian port }

/-- The method `IPV4ADDRESS::getPort()`. -/
def getPort (littleEndian : Bool) (this : IPV4ADDRESS) : Int :=
  ntohs littleEndian this.sin_port

/-- The method `IPV4ADDRESS::compareAddr (addr)`. -/
def compareAddr (this : IPV4ADDRESS) (addr : List Char) : Int :=
  match inet_aton addr with
  | none => 0
  | some v => if v = this.sin_addr then 1 else 0

end IPV4ADDRESS

/-- The inline method `NETADDRESS::compareAddr (addr)` of network.h. -/
def NETADDRESS.compareAddr (_addr : List Char) : Int := 0

/-- The method `compareAddr` of an IPXADDRESS: the class declares none, so it is the inherited
`NETADDRESS::compareAddr`. -/
def IPXADDRESS.compareAddr (addr : List Char) : Int := NETADDRESS.compareAddr addr

/-- The canonical dotted-decimal text of the address `a.b.c.d`: each number in decimal
without leading zeros. -/
def dottedDecimal (a b c d : Nat) : List Char :=
  Nat.toDigits 10 a ++ '.' :: (Nat.toDigits 10 b ++ '.' :: (Nat.toDigits 10 c ++
    '.' :: Nat.toDigits 10 d))

/-- A resolver that knows no host. -/
def noHosts : List Char → Option Nat := fun _ => none

/-- The groups of characters that the dots of a text separate. -/
def dotGroups : List Char → List (List Char)
  | [] => [[]]
  | ch :: rest =>
    if ch = '.' then [] :: dotGroups rest
    else
      match dotGroups rest with
      | [] => [[ch]]
      | g :: gs => (ch :: g) :: gs

/-- A dotted IPv4 literal in the words of the specification: four groups of decimal digits
with a dot between them, each group a number from 0 to 255. -/
def isDottedLiteral (text : List Char) : Bool :=
  decide ((dotGroups text).length = 4) &&
    (dotGroups text).all (fun g =>
      decide (g ≠ []) && (g.all (fun ch => decide (48 ≤ ch.toNat ∧ ch.toNat ≤ 57)) &&
        decide ((readDigits 10 g 0).1 < 256)))

/-- An IPV4ADDRESS that holds the address 127.0.0.1. -/
def localhost : IPV4ADDRESS := { sin_addr := 2130706433, sin_port := 0 }

/-! ## Sequences of VECTOR calls -/

/-- One call on a VECTOR: `addElement (e)` or `removeElement (e)`. -/
inductive VecOp where
  | add (e : Ptr)
  | remove (e : Ptr)
deriving DecidableEq, Repr

/-- The vector after one call. -/
def VECTOR.step (v : VECTOR) : VecOp → VECTOR
  | .add e => v.addElement e
  | .remove e => v.removeElement e

/-- The vector after a sequence of calls on a new VECTOR. -/
def VECTOR.steps (ops : List VecOp) : VECTOR := ops.foldl VECTOR.step VECTOR.init

/-- The elements that remain after the calls so far, in the order in which they were added,
in the words of the specification: an added element goes to the end, a removed element (its
earliest copy) leaves and the others keep their order. -/
def insertionOrderFrom (l : List Ptr) (ops : List VecOp) : List Ptr :=
  ops.foldl (fun l op => match op with
    | .add e => l ++ [e]
    | .remove e => l.erase e) l

/-- The remaining elements in insertion order after a sequence of calls on a new VECTOR. -/
def insertionOrder (ops : List VecOp) : List Ptr := insertionOrderFrom [] ops

/-- Every `removeElement` call of the sequence, made on the elements `l` and what follows,
names an element that is absent or stands only in the last place. -/
def removesLast : List Ptr → List VecOp → Prop
  | _, [] => True
  | l, .add e :: ops => removesLast (l ++ [e]) ops
  | l, .remove e :: ops => e ∉ l.dropLast ∧ removesLast (l.erase e) ops

/-! ## Ownership among services -/

/-- The object at `c` is in no living service's child collection. -/
def Unowned (h : Heap) (c : Ptr) : Prop :=
  ∀ S sS, h S = some sS → c ∉ sS.clients.contents

/-- The ownership invariant of a heap: nothing lives at NULL, every child collection is a
sound vector without repetition, and every service stored in the child collection of a living
service lives and has that service as its parent. -/
structure Owned (h : Heap) : Prop where
  null : h 0 = none
  sound : ∀ S sS, h S = some sS → sS.clients.Sound
  nodup : ∀ S sS, h S = some sS → sS.clients.contents.Nodup
  parent : ∀ S sS, h S = some sS → ∀ c ∈ sS.clients.contents,
    ∃ sc, h c = some sc ∧ sc.parent = S

/-- From `h` to `k` no object was created, no parent link changed and no child collection
gained an element. -/
def Shrinks (h k : Heap) : Prop :=
  ∀ q s1, k q = some s1 → ∃ s, h q = some s ∧ s1.parent = s.parent ∧
    ∀ x ∈ s1.clients.contents, x ∈ s.clients.contents

/-- One call the application makes on the library between or inside dispatch cycles: the
construction of a service at a free address, a registration call on the reactor, `create`,
`connect`, `accept` with a placeholder that is in no child collection, `close`, or the
`delete` of a service. -/
inductive Call (w : World) : World → Prop where
  | construct (p : Ptr) (type : Int) (hp : p ≠ 0) (hfree : w.heap p = none) :
      Call w (w.store p (NETSERVICE.init type))
  | addService (service : Ptr) :
      Call w { w with net := w.net.addService service }
  | removeService (service : Ptr) :
      Call w { w with net := w.net.removeService service }
  | create (os : OS) (this : Ptr) (no : Int) (r : Int) (w1 : World) (calls : List SysCall)
      (h : NETSERVER.create os this no w = some (r, w1, calls)) : Call w w1
  | connect (os : OS) (this : Ptr) (addr : Ptr) (r : Int) (w1 : World) (calls : List SysCall)
      (h : NETCLIENT.connect os this addr w = some (r, w1, calls)) : Call w w1
  | accept (os : OS) (addr : Ptr) (fuel : Nat) (this client : Ptr) (r : Int) (w1 : World)
      (calls : List SysCall) (hplace : Unowned w.heap client)
      (h : NETSERVER.accept os addr fuel this client w = some (r, w1, calls)) : Call w w1
  | close (fuel : Nat) (this : Ptr) (w1 : World)
      (h : NETSERVICE.close fuel this w = some w1) : Call w w1
  | delete (fuel : Nat) (this : Ptr) (w1 : World)
      (h : NETSERVICE.destroy fuel this w = some w1) : Call w w1

/-- A handler that does nothing but make calls of the kinds above. -/
def Handler (incoming : Ptr → World → World) : Prop :=
  ∀ p w, Relation.ReflTransGen Call w (incoming p w)

/-- The worlds the library can be in: at the start nothing lives and the reactor is new; then
the application makes calls and runs dispatch cycles whose handlers make calls. -/
inductive Reachable : World → Prop where
  | start : Reachable { net := NETWORK.init, heap := fun _ => none, trace := [] }
  | call (w w1 : World) (hw : Reachable w) (h : Call w w1) : Reachable w1
  | cycle (w w1 : World) (incoming : Ptr → World → World)
      (select : List Int → Option (List Int)) (recvPeek : Int → Int) (fuel : Nat)
      (hw : Reachable w) (hh : Handler incoming)
      (h : NETWORK.run incoming select recvPeek fuel w = some w1) : Reachable w1

/-- The world after the calls of a small server: a Server-kind service is constructed at
address 1 and bound with `create`, a placeholder is constructed at address 5 and handed to
`accept`. -/
def adoptedWorld : World :=
  let w0 : World := { net := NETWORK.init, heap := fun _ => none, trace := [] }
  let w1 := w0.store 1 (NETSERVICE.init NETSERVICE_SERVER)
  match NETSERVER.create workingOS 1 8080 w1 with
  | none => w1
  | some (_, w2, _) =>
    let w3 := w2.store 5 (NETSERVICE.init NETSERVICE_CLIENT)
    match NETSERVER.accept workingOS 15 3 1 5 w3 with
    | none => w3
    | some (_, w4, _) => w4

/-- Two Server-kind services, `1` on descriptor 3 and `2` on descriptor 4, and a newly
constructed client `5`. -/
def twoServersWithPlaceholder : World :=
  World.ofList []
    [(1, NETSERVICE.bound NETSERVICE_SERVER 3 [] 0),
     (2, NETSERVICE.bound NETSERVICE_SERVER 4 [] 0),
     (5, NETSERVICE.init NETSERVICE_CLIENT)]

/-! ## A concrete vector -/

/-- A vector whose nine used cells hold 1 to 9: one cell of its ten is still free. -/
def nineElements : VECTOR := VECTOR.ofList [1, 2, 3, 4, 5, 6, 7, 8, 9]

/-! ## database.cc: DATABASE::build_query -/

/-- The constant `DATABASE_MAX_QUERY_LEN` of database.h. -/
def DATABASE_MAX_QUERY_LEN : Nat := 65535

/-- The terminator of a C string. -/
def NUL : Char := Char.ofNat 0

/-- The single quote character. -/
def QUOTE : Char := Char.ofNat 39

/-- The C string that starts with the given characters: it ends before the first NUL. -/
def cstr (l : List Char) : List Char := l.takeWhile (fun ch => ch ≠ NUL)

/-- One argument of the `va_list`: a `char*` (the C string it points to) or an `int`. -/
inductive QueryArg where
  | str (s : List Char)
  | num (i : Int)
deriving DecidableEq, Repr

/-- The memory that starts at `output` (the caller's buffer and what lies behind it), and the
indices written so far, in order. -/
structure Output where
  mem : List Char
  written : List Nat
deriving DecidableEq, Repr

namespace Output

/-- The store `output[i] = ch`; `none` when the address is outside the memory. -/
def poke (o : Output) (i : Nat) (ch : Char) : Option Output :=
  if i < o.mem.length then some { mem := o.mem.set i ch, written := o.written ++ [i] }
  else none

/-- The stores of the characters `l` at `i`, `i + 1`, and so on. -/
def pokeAll : List Char → Nat → Output → Option Output
  | [], _, o => some o
  | ch :: rest, i, o =>
    match o.poke i ch with
    | none => none
    | some o1 => pokeAll rest (i + 1) o1

/-- The C library call `memset (output, 0, outlen)`. -/
def memset (o : Output) (outlen : Nat) : Option Output :=
  pokeAll (List.replicate outlen NUL) 0 o

/-- The C library call `strcat (output + dst, src)`: `src` and its terminator are stored from
the end of the C string at `output + dst` on; `none` when that string has no end inside the
memory. -/
def strcat (o : Output) (dst : Nat) (src : List Char) : Option Output :=
  if NUL ∈ o.mem.drop dst then pokeAll (src ++ [NUL]) (dst + (o.mem.drop dst).indexOf NUL) o
  else none

end Output

/-- The text `snprintf (realtmp, sizeof (realtmp), "%u", i)` produces for the `int` value `i`:
the decimal digits of `i` read as an unsigned 32-bit number. -/
def formatUnsigned (i : Int) : List Char := Nat.toDigits 10 (i % 4294967296).toNat

/-- The loop `while (*ptr)` of `DATABASE::build_query` over the rest of the query, with the
arguments not yet fetched and the current `query_len`: the result and the output. `escape` is
the driver's virtual `escape`, as the C string it leaves in `realtmp`; `none` when an argument
is missing or of the other kind, `realtmp` is overrun, or a store goes outside the memory. -/
def build_queryLoop (escape : List Char → List Char) (outlen : Nat) :
    List Char → List QueryArg → Nat → Output → Option (Int × Output)
  | [], _, query_len, o =>
    match o.poke query_len NUL with
    | none => none
    | some o1 => some (1, o1)
  | ch :: ptr, va, query_len, o =>
    if ch = '?' then
      match va with
      | QueryArg.str tmp_ptr :: va1 =>
        if (cstr (escape tmp_ptr)).length > DATABASE_MAX_QUERY_LEN then none
        else if query_len + (cstr (escape tmp_ptr)).length ≥ outlen then some (0, o)
        else
          match o.poke query_len QUOTE with
          | none => none
          | some o1 =>
            match o1.strcat (query_len + 1) (cstr (escape tmp_ptr)) with
            | none => none
            | some o2 =>
              match o2.poke (query_len + 1 + (cstr (escape tmp_ptr)).length) QUOTE with
              | none => none
              | some o3 =>
                build_queryLoop escape outlen ptr va1
                  (query_len + 1 + (cstr (escape tmp_ptr)).length + 1) o3
      | _ => none
    else if ch = '#' then
      match va with
      | QueryArg.num i :: va1 =>
        if query_len + (formatUnsigned i).length + 3 ≥ outlen then some (0, o)
        else
          match o.poke query_len QUOTE with
          | none => none
          | some o1 =>
            match o1.strcat (query_len + 1) (formatUnsigned i) with
            | none => none
            | some o2 =>
              match o2.poke (query_len + 1 + (formatUnsigned i).length) QUOTE with
              | none => none
              | some o3 =>
                build_queryLoop escape outlen ptr va1
                  (query_len + 1 + (formatUnsigned i).length + 1) o3
      | _ => none
    else if ch = '@' then
      match va with
      | QueryArg.num i :: va1 =>
        if query_len + (formatUnsigned i).length ≥ outlen then some (0, o)
        else
          match o.strcat query_len (formatUnsigned i) with
          | none => none
          | some o1 =>
            build_queryLoop escape outlen ptr va1 (query_len + (formatUnsigned i).length) o1
      | _ => none
    else
      if query_len ≥ outlen then some (0, o)
      else
        match o.poke query_len ch with
        | none => none
        | some o1 => build_queryLoop escape outlen ptr va (query_len + 1) o1

/-- The method `DATABASE::build_query (output, outlen, query, va)`, on the memory `mem` that
starts at `output`. -/
def build_query (escape : List Char → List Char) (mem : List Char) (outlen : Nat)
    (query : List Char) (va : List QueryArg) : Option (Int × Output) :=
  match Output.memset { mem := mem, written := [] } outlen with
  | none => none
  | some o => build_queryLoop escape outlen (cstr query) va 0 o

/-- The expanded query: the arguments are consumed from left to right, every `?` becomes the
escaped string argument in single quotes, every `#` the text `formatUnsigned` of the number
argument in single quotes, every `@` that text without quotes, and every other character is
copied. `none` when an argument is missing or of the other kind. -/
def expandQuery (escape : List Char → List Char) : List Char → List QueryArg →
    Option (List Char)
  | [], _ => some []
  | ch :: rest, va =>
    if ch = '?' then
      match va with
      | QueryArg.str s :: va1 =>
        (expandQuery escape rest va1).map
          (fun t => QUOTE :: (cstr (escape s) ++ QUOTE :: t))
      | _ => none
    else if ch = '#' then
      match va with
      | QueryArg.num i :: va1 =>
        (expandQuery escape rest va1).map
          (fun t => QUOTE :: (formatUnsigned i ++ QUOTE :: t))
      | _ => none
    else if ch = '@' then
      match va with
      | QueryArg.num i :: va1 =>
        (expandQuery escape rest va1).map (fun t => formatUnsigned i ++ t)
      | _ => none
    else (expandQuery escape rest va).map (fun t => ch :: t)

/-- An `escape` that doubles every single quote, as SQL drivers do. -/
def doubleQuotes (s : List Char) : List Char :=
  s.flatMap (fun ch => if ch = QUOTE then [QUOTE, QUOTE] else [ch])

/-- Eight bytes of memory holding the letter `x`: a caller's buffer of four bytes and four
more bytes behind it. -/
def eightBytes : List Char := List.replicate 8 'x'

/-- The output of a small query built into sixteen bytes of memory with `outlen` 14. -/
def smallQuery : Option (Int × Output) :=
  build_query doubleQuotes (List.replicate 16 'x') 14 "n=? i=@".toList
    [.str "a".toList, .num 7]

/-! ## configfile.cc -/

/-- The constant `CONFIGFILE_OK` of configfile.h. -/
def CONFIGFILE_OK : Int := 0

/-- The constant `CONFIGFILE_ERROR_NOSECTION` of configfile.h ("no such section"). -/
def CONFIGFILE_ERROR_NOSECTION : Int := 5

/-- The constant `CONFIGFILE_ERROR_NOVALUE` of configfile.h ("no such value"). -/
def CONFIGFILE_ERROR_NOVALUE : Int := 6

/-- The constant `CONFIGFILE_ERROR_INVALIDVALUE` of configfile.h ("invalid value"). -/
def CONFIGFILE_ERROR_INVALIDVALUE : Int := 7

/-- The C library call `strchr (s, ch)` on a C string, for a character other than NUL: the
index of the first `ch`, or `none` for NULL. -/
def strchr (s : List Char) (ch : Char) : Option Nat :=
  if ch ∈ s then some (s.indexOf ch) else none

/-- The C library call `tolower` in the C locale. -/
def tolower (ch : Char) : Char :=
  if 65 ≤ ch.toNat ∧ ch.toNat ≤ 90 then Char.ofNat (ch.toNat + 32) else ch

/-- The C library call `strncasecmp (a, b, n)` on two C strings: 0 when the first `n`
characters (fewer where a string ends earlier) agree up to case, otherwise 1 (the sign of the
difference is not modelled). -/
def strncasecmp (a b : List Char) (n : Nat) : Int :=
  if (a.take n).map tolower = (b.take n).map tolower then 0 else 1

/-- The test `(*ptr == ' ') || (*ptr == '\t')`. -/
def isBlank (ch : Char) : Bool := ch = ' ' ∨ ch = Char.ofNat 9

/-- The fields `buf` and `buf_length` of a CONFIGFILE. -/
structure CONFIGFILE where
  buf : List Char
  buf_length : Nat
deriving DecidableEq, Repr

namespace CONFIGFILE

/-- The object after a successful `CONFIGFILE::reload()` of a file with the given contents:
the contents with every newline replaced by NUL, and a NUL behind them. -/
def reload (contents : List Char) : CONFIGFILE :=
  { buf := contents.map (fun ch => if ch = Char.ofNat 10 then NUL else ch) ++ [NUL],
    buf_length := contents.length }

/-- The C string at `buf + p`. -/
def str (c : CONFIGFILE) (p : Nat) : List Char := cstr (c.buf.drop p)

/-- The loop of `CONFIGFILE::scan_section` at `ofs`; `offset` is the value of `*offset` on
entry. The result, `*name` and `*offset` (`*name` is `none` where the call leaves it
alone). -/
def scan_sectionLoop (c : CONFIGFILE) (offset : Nat) : Nat → Nat →
    Option (Int × Option Nat × Nat)
  | 0, _ => none
  | fuel + 1, ofs =>
    if ofs ≥ c.buf_length then some (CONFIGFILE_ERROR_NOSECTION, none, offset)
    else
      let temp_line := c.str ofs
      let found : Bool :=
        if temp_line.head? = some '[' then
          match strchr temp_line ']' with
          | some ptr => temp_line.drop (ptr + 1) = []
          | none => false
        else false
      if found then some (CONFIGFILE_OK, some (ofs + 1), ofs + temp_line.length + 1)
      else scan_sectionLoop c offset fuel (ofs + temp_line.length + 1)

/-- The method `CONFIGFILE::scan_section (name, offset)`. -/
def scan_section (c : CONFIGFILE) (fuel : Nat) (offset : Nat) :
    Option (Int × Option Nat × Nat) :=
  scan_sectionLoop c offset fuel offset

/-- The loop of `CONFIGFILE::scan_value` at `ofs`; `offset` is the value of `*offset` on
entry. The result, `*name` and `*value` (`none` where the call leaves them alone) and
`*offset`. -/
def scan_valueLoop (c : CONFIGFILE) (offset : Nat) : Nat → Nat →
    Option (Int × Option (Nat × Nat) × Nat)
  | 0, _ => none
  | fuel + 1, ofs =>
    if ofs ≥ c.buf_length then some (CONFIGFILE_ERROR_NOVALUE, none, offset)
    else
      let line := c.str ofs
      let ofs1 := ofs + line.length + 1
      let ptr := ofs + (line.takeWhile isBlank).length
      if (c.str ptr).head? = some '[' then some (CONFIGFILE_ERROR_NOVALUE, none, offset)
      else if (c.str ptr).head? ≠ some '#' then
        match strchr (c.str ptr) '=' with
        | some k =>
          let ptr2 := ptr + k + 1
          some (CONFIGFILE_OK,
            some (ptr, ptr2 + ((c.str ptr2).takeWhile isBlank).length), ofs1)
        | none => scan_valueLoop c offset fuel ofs1
      else scan_valueLoop c offset fuel ofs1

/-- The method `CONFIGFILE::scan_value (name, value, offset)`. -/
def scan_value (c : CONFIGFILE) (fuel : Nat) (offset : Nat) :
    Option (Int × Option (Nat × Nat) × Nat) :=
  scan_valueLoop c offset fuel offset

/-- The loop of `CONFIGFILE::find_section`, with `j` the length to compare and `offset` the
current `*offset`: the result and `*offset`. `F` is the fuel handed to `scan_section`. -/
def find_sectionLoop (c : CONFIGFILE) (F : Nat) (sectionName : List Char) (j : Nat) :
    Nat → Nat → Option (Int × Nat)
  | 0, _ => none
  | fuel + 1, offset =>
    match c.scan_section F offset with
    | none => none
    | some (i, name, offset1) =>
      if i ≠ CONFIGFILE_OK then some (i, offset1)
      else
        match name with
        | none => none
        | some ptr =>
          if strchr (c.str ptr) ']' = some j ∧ strncasecmp (c.str ptr) sectionName j = 0 then
            some (CONFIGFILE_OK, offset1)
          else find_sectionLoop c F sectionName j fuel offset1

/-- The method `CONFIGFILE::find_section (section, offset)`. -/
def find_section (c : CONFIGFILE) (F : Nat) (sectionName : List Char) (offset : Nat) :
    Option (Int × Nat) :=
  find_sectionLoop c F sectionName
    (if strchr sectionName ']' ≠ none then sectionName.length - 1 else sectionName.length)
    F offset

/-- The inner loop of `CONFIGFILE::get_string`: values are scanned from `offset` on until one
has the name asked for (result `CONFIGFILE_OK` and `*dest`) or `scan_value` fails (its result).
The last component is `offset` at that point. -/
def get_stringValues (c : CONFIGFILE) (F : Nat) (name : List Char) :
    Nat → Nat → Option (Int × Option Nat × Nat)
  | 0, _ => none
  | fuel + 1, offset =>
    match c.scan_value F offset with
    | none => none
    | some (i, found, offset1) =>
      if i ≠ CONFIGFILE_OK then some (i, none, offset1)
      else
        match found with
        | none => none
        | some (x_name, x_val) =>
          let len :=
            ((c.str x_name).takeWhile
              (fun ch => ch ≠ ' ' ∧ ch ≠ Char.ofNat 9 ∧ ch ≠ '=')).length
          if strncasecmp (c.str x_name) name name.length = 0 ∧ len = name.length then
            some (CONFIGFILE_OK, some x_val, offset1)
          else get_stringValues c F name fuel offset1

/-- The outer loop of `CONFIGFILE::get_string` with the current `offset`: the result and
`*dest`. -/
def get_stringLoop (c : CONFIGFILE) (F : Nat) (sectionName name : List Char) :
    Nat → Nat → Option (Int × Option Nat)
  | 0, _ => none
  | fuel + 1, offset =>
    match c.find_section F sectionName offset with
    | none => none
    | some (i, offset1) =>
      if i ≠ CONFIGFILE_OK then
        some (if offset1 = 0 then CONFIGFILE_ERROR_NOSECTION else CONFIGFILE_ERROR_NOVALUE,
          none)
      else
        match get_stringValues c F name F offset1 with
        | none => none
        | some (i2, dest, offset2) =>
          if i2 = CONFIGFILE_OK then some (CONFIGFILE_OK, dest)
          else if i2 ≠ CONFIGFILE_ERROR_NOVALUE then some (i2, none)
          else get_stringLoop c F sectionName name fuel offset2

/-- The method `CONFIGFILE::get_string (section, name, dest)`: the result and `*dest` (`none`
where the call leaves it alone). Every loop may run `F` times. -/
def get_string (c : CONFIGFILE) (F : Nat) (sectionName name : List Char) :
    Option (Int × Option Nat) :=
  get_stringLoop c F sectionName name F 0

end CONFIGFILE

/-- The C library call `strtol (s, &endp, 0)` for a `long` of `bits` bits: white space is
skipped, a sign is read, then the digits as `strtoul0` reads them; the value is clamped to the
range of `long`. The value and the text from `endp` on, which is all of `s` when there is no
digit to read. -/
def strtol (bits : Nat) (s : List Char) : Int × List Char :=
  let t := s.dropWhile isspace
  let negative : Bool := t.head? = some '-'
  let u := if t.head? = some '-' ∨ t.head? = some '+' then t.drop 1 else t
  match u with
  | [] => (0, s)
  | d :: _ =>
    if 48 ≤ d.toNat ∧ d.toNat ≤ 57 then
      let r := strtoul0 u
      let v : Int := if negative then - (r.1 : Int) else (r.1 : Int)
      (max (- (2 : Int) ^ (bits - 1)) (min v ((2 : Int) ^ (bits - 1) - 1)), r.2)
    else (0, s)

/-- The conversion of a `long` to `int` (32 bits, two's complement). -/
def toInt32 (x : Int) : Int := (x + 2147483648) % 4294967296 - 2147483648

namespace CONFIGFILE

/-- The method `CONFIGFILE::get_value (section, name, value)`: the result and `*value`, which
holds `value` on entry. `bits` is the width of `long`. -/
def get_value (c : CONFIGFILE) (F : Nat) (bits : Nat) (sectionName name : List Char)
    (value : Int) : Option (Int × Int) :=
  match c.get_string F sectionName name with
  | none => none
  | some (i, dest) =>
    if i ≠ CONFIGFILE_OK then some (i, value)
    else
      match dest with
      | none => none
      | some ptr =>
        if c.str ptr = [] ∨ (strtol bits (c.str ptr)).2 ≠ [] then
          some (CONFIGFILE_ERROR_INVALIDVALUE, value)
        else some (CONFIGFILE_OK, toInt32 (strtol bits (c.str ptr)).1)

end CONFIGFILE

/-! ## Describing a configuration buffer line by line -/

namespace CONFIGFILE

/-- The lines `scan_section` and `scan_value` walk over from the line start `ofs` on (at most
`fuel` of them): each is the C string at its start, and the next one starts behind its NUL. -/
def linesFrom (c : CONFIGFILE) : Nat → Nat → List (List Char)
  | 0, _ => []
  | fuel + 1, ofs =>
    if ofs ≥ c.buf_length then []
    else c.str ofs :: linesFrom c fuel (ofs + (c.str ofs).length + 1)

/-- The lines of the buffer. -/
def lines (c : CONFIGFILE) : List (List Char) := c.linesFrom c.buf_length 0

/-- The lines from the line start `ofs` on are `ls`. -/
def Walk (c : CONFIGFILE) : Nat → List (List Char) → Prop
  | ofs, [] => c.buf_length ≤ ofs
  | ofs, l :: ls => ofs < c.buf_length ∧ c.str ofs = l ∧ Walk c (ofs + l.length + 1) ls

end CONFIGFILE

/-- The line is a section header for `scan_section`: it starts with `[` and its first `]` is
its last character. -/
def isHeader (line : List Char) : Bool :=
  if line.head? = some '[' then
    match strchr line ']' with
    | some ptr => line.drop (ptr + 1) = []
    | none => false
  else false

/-- The number of characters of the section name that `find_section` compares: all of them,
or one less when the name holds a `]`. -/
def sectionLength (sectionName : List Char) : Nat :=
  if strchr sectionName ']' ≠ none then sectionName.length - 1 else sectionName.length

/-- The line is a section header whose name `find_section` takes for `sectionName`. -/
def headerMatches (sectionName : List Char) (line : List Char) : Bool :=
  isHeader line &&
    decide (strchr (line.drop 1) ']' = some (sectionLength sectionName) ∧
      strncasecmp (line.drop 1) sectionName (sectionLength sectionName) = 0)

/-- The line begins, after leading spaces and tabs, with `[`: `scan_value` stops there. -/
def isBreak (line : List Char) : Bool :=
  (line.dropWhile isBlank).head? = some '['

/-- The line holds a value for `scan_value`: after leading spaces and tabs it begins neither
with `[` nor with `#`, and it holds a `=`. -/
def isValueLine (line : List Char) : Bool :=
  decide ((line.dropWhile isBlank).head? ≠ some '[') &&
    (decide ((line.dropWhile isBlank).head? ≠ some '#') &&
      decide ('=' ∈ line.dropWhile isBlank))

/-- The name on a value line: from the first character that is no space or tab up to the first
space, tab or `=`. -/
def lineName (line : List Char) : List Char :=
  (line.dropWhile isBlank).takeWhile (fun ch => ch ≠ ' ' ∧ ch ≠ Char.ofNat 9 ∧ ch ≠ '=')

/-- The value on a value line: the text behind the first `=`, without leading spaces and
tabs. -/
def lineValue (line : List Char) : List Char :=
  ((line.dropWhile isBlank).drop ((line.dropWhile isBlank).indexOf '=' + 1)).dropWhile isBlank

/-- The line is a value line whose name is `name` up to case, in full length. -/
def answers (name : List Char) (line : List Char) : Bool :=
  isValueLine line && decide ((lineName line).map tolower = name.map tolower)

/-- Whether a line behind the lines `pre` belongs to a section that `find_section` takes for
`sectionName`, when `inside` says so for the first of them: a matching header line opens such a
section, any other line that begins with `[` after leading spaces and tabs closes it. -/
def insideAfter (sectionName : List Char) (inside : Bool) (pre : List (List Char)) : Bool :=
  pre.foldl (fun b l => if headerMatches sectionName l then true
    else if isBreak l then false else b) inside

/-- The value of the first line of `ls` that lies in a matching section and answers to
`name`. -/
def lookupFrom (sectionName name : List Char) : Bool → List (List Char) → Option (List Char)
  | _, [] => none
  | inside, l :: ls =>
    if headerMatches sectionName l then lookupFrom sectionName name true ls
    else if isBreak l then lookupFrom sectionName name false ls
    else if inside && answers name l then some (lineValue l)
    else lookupFrom sectionName name inside ls

/-! ## Concrete configuration files -/

/-- A configuration file whose only section is `other`. -/
def otherSection : CONFIGFILE := CONFIGFILE.reload "[other]\na=1\n".toList

/-- A configuration file without any section. -/
def noSection : CONFIGFILE := CONFIGFILE.reload "a=1\n".toList

/-- A configuration file with a section `main` that holds the value `q = 1`. -/
def mainSection : CONFIGFILE := CONFIGFILE.reload "[main]\nq = 1\n".toList

/-- A configuration file in which a line with a blank before its `[` follows the header of
the first of two sections `main`. -/
def indentedBracket : CONFIGFILE :=
  CONFIGFILE.reload "[main]\n [x\nq=1\n[main]\nq=2\n".toList

/-- A configuration file with a number beyond the range of `int`. -/
def bigNumber : CONFIGFILE := CONFIGFILE.reload "[main]\nbig=99999999999\n".toList

/-! ## The probes of a dispatch cycle -/

namespace Machine

/-- The fields of a VECTOR as the machine holds them: `elements` is the block the pointer
refers to, `none` for the NULL pointer that a failed allocation returns, and the counters are
`int`s of 32 bits. -/
structure VECTOR where
  elements : Option (List Ptr)
  maxElements : Int
  numElements : Int
deriving DecidableEq, Repr

/-- Cell `i` lies inside the block. -/
def inside (block : Option (List Ptr)) (i : Int) : Bool :=
  match block with
  | none => false
  | some b => decide (0 ≤ i ∧ i < b.length)

/-- The read `*((caddr_t*) elements + i)`: the cell when it lies inside the block (`0`
stands for what a read outside the block finds). -/
def read (block : Option (List Ptr)) (i : Int) : Ptr :=
  match block with
  | none => 0
  | some b => if 0 ≤ i then b.getD i.toNat 0 else 0

/-- The store `*((caddr_t*) elements + i) = e`: the block changes only when cell `i` lies
inside it. -/
def store (block : Option (List Ptr)) (i : Int) (e : Ptr) : Option (List Ptr) :=
  block.map (fun b => if 0 ≤ i ∧ i < b.length then b.set i.toNat e else b)

namespace VECTOR

/-- The constructor `VECTOR::VECTOR()`. `alloc m` is the answer of the allocator to a request
of `m * sizeof (caddr_t)` bytes made for the `int` value `m`: `none` when it returns NULL,
otherwise the number of cells of the block it returns. The result of `malloc` is not
checked. -/
def init (alloc : Int → Option Nat) : VECTOR :=
  { maxElements := 10,
    elements := (alloc 10).map (fun n => List.replicate n 0),
    numElements := 0 }

/-- The method `VECTOR::count()`. -/
def count (v : VECTOR) : Int := v.numElements

/-- The method `VECTOR::elementAt (no)`. -/
def elementAt (v : VECTOR) (no : Int) : Ptr := read v.elements no

/-- The `if` at the head of `VECTOR::addElement`: `maxElements *= 2`, which wraps on 32 bits
in two's complement, and the `realloc`, whose result is stored unchecked. -/
def resize (alloc : Int → Option Nat) (v : VECTOR) : VECTOR :=
  if toInt32 (v.numElements + 1) ≥ v.maxElements then
    { v with maxElements := toInt32 (v.maxElements * 2),
             elements := (alloc (toInt32 (v.maxElements * 2))).map
               (fun n => realloc (v.elements.getD []) n) }
  else v

/-- The method `VECTOR::addElement (e)`. -/
def addElement (alloc : Int → Option Nat) (v : VECTOR) (e : Ptr) : VECTOR :=
  { v.resize alloc with
    elements := store (v.resize alloc).elements (v.resize alloc).numElements e,
    numElements := toInt32 ((v.resize alloc).numElements + 1) }

/-- The scan of `VECTOR::removeElement` at index `i` with `k` iterations left. -/
def removeFrom (v : VECTOR) (e : Ptr) : Int → Nat → VECTOR
  | _, 0 => v
  | i, k + 1 =>
    if read v.elements i = e then
      { v with
        elements :=
          if i ≠ v.numElements - 1 then
            store v.elements i (read v.elements (v.numElements - 1))
          else v.elements,
        numElements := toInt32 (v.numElements - 1) }
    else removeFrom v e (i + 1) k

/-- The method `VECTOR::removeElement (e)`. -/
def removeElement (v : VECTOR) (e : Ptr) : VECTOR :=
  v.removeFrom e 0 v.numElements.toNat

/-- The vector after one call. -/
def step (alloc : Int → Option Nat) (v : VECTOR) : VecOp → VECTOR
  | .add e => v.addElement alloc e
  | .remove e => v.removeElement e

/-- The vector after a sequence of calls on a new VECTOR. -/
def steps (alloc : Int → Option Nat) (ops : List VecOp) : VECTOR :=
  ops.foldl (step alloc) (init alloc)

end VECTOR

end Machine

theorem realloc_length (block : List Ptr) (n : Nat) : (realloc block n).length = n := by
  unfold realloc
  simp only [List.length_take, List.length_append, List.length_replicate]
  omega

theorem realloc_take (block : List Ptr) (n k : Nat) (hk : k ≤ block.length) (hn : k ≤ n) :
    (realloc block n).take k = block.take k := by
  unfold realloc
  rw [List.take_take, Nat.min_eq_left hn, List.take_append_of_le_length hk]

namespace VECTOR

theorem init_sound : VECTOR.init.Sound := by decide

theorem init_contents : VECTOR.init.contents = [] := by decide

theorem removeFrom_not_found (v : VECTOR) (e : Ptr) (k i : Nat)
    (h : ∀ j, i ≤ j → j < i + k → v.elements.getD j 0 ≠ e) :
    v.removeFrom e i k = v := by
  induction k generalizing i with
  | zero => rfl
  | succ k ih =>
    have h0 : v.elements.getD i 0 ≠ e := h i (Nat.le_refl _) (by omega)
    simp only [removeFrom, if_neg h0]
    exact ih (i + 1) (fun j h1 h2 => h j (by omega) (by omega))

theorem removeFrom_found (v : VECTOR) (e : Ptr) (k i j : Nat)
    (hij : i ≤ j) (hjk : j < i + k) (hj : v.elements.getD j 0 = e)
    (h : ∀ m, i ≤ m → m < j → v.elements.getD m 0 ≠ e) :
    v.removeFrom e i k =
      { v with
        elements :=
          if j ≠ v.numElements - 1 then
            v.elements.set j (v.elements.getD (v.numElements - 1) 0)
          else v.elements,
        numElements := v.numElements - 1 } := by
  induction k generalizing i with
  | zero => omega
  | succ k ih =>
    by_cases hi : i = j
    · subst hi
      simp only [removeFrom, if_pos hj]
    · have h0 : v.elements.getD i 0 ≠ e := h i (Nat.le_refl _) (by omega)
      simp only [removeFrom, if_neg h0]
      exact ih (i + 1) (by omega) (by omega) (fun m h1 h2 => h m (by omega) h2)

end VECTOR

/-! ## Swap-with-last on lists -/

theorem lastFirst_nil : lastFirst [] = [] := rfl

theorem lastFirst_concat (b : List Ptr) (z : Ptr) : lastFirst (b ++ [z]) = z :: b := by
  simp [lastFirst]

theorem lastFirst_perm (b : List Ptr) : (lastFirst b).Perm b := by
  rcases List.eq_nil_or_concat b with h | ⟨b1, z, h⟩
  · subst h; exact List.Perm.refl _
  · subst h
    rw [List.concat_eq_append, lastFirst_concat]
    exact (List.perm_append_singleton z b1).symm

theorem lastFirst_length (b : List Ptr) : (lastFirst b).length = b.length :=
  (lastFirst_perm b).length_eq

theorem eraseSwap_of_not_mem (l : List Ptr) (e : Ptr) (h : e ∉ l) : eraseSwap l e = l := by
  induction l with
  | nil => rfl
  | cons x xs ih =>
    have hx : x ≠ e := fun hxe => h (by simp [hxe])
    have hxs : e ∉ xs := fun hm => h (List.mem_cons_of_mem _ hm)
    simp [eraseSwap, hx, ih hxs]

theorem eraseSwap_split (a b : List Ptr) (e : Ptr) (h : e ∉ a) :
    eraseSwap (a ++ e :: b) e = a ++ lastFirst b := by
  induction a with
  | nil => simp [eraseSwap]
  | cons x xs ih =>
    have hx : x ≠ e := fun hxe => h (by simp [hxe])
    have hxs : e ∉ xs := fun hm => h (List.mem_cons_of_mem _ hm)
    simp [eraseSwap, hx, ih hxs]

theorem eraseSwap_perm (l : List Ptr) (e : Ptr) : (eraseSwap l e).Perm (l.erase e) := by
  by_cases h : e ∈ l
  · obtain ⟨a, b, rfl, ha⟩ := List.eq_append_cons_of_mem h
    rw [eraseSwap_split a b e ha, List.erase_append_right _ ha, List.erase_cons_head]
    exact List.Perm.append_left a (lastFirst_perm b)
  · rw [eraseSwap_of_not_mem l e h, List.erase_of_not_mem h]

theorem eraseSwap_length (l : List Ptr) (e : Ptr) :
    (eraseSwap l e).length = if e ∈ l then l.length - 1 else l.length := by
  rw [(eraseSwap_perm l e).length_eq]
  split
  · next h => exact List.length_erase_of_mem h
  · next h => rw [List.erase_of_not_mem h]

theorem eraseSwap_nodup (l : List Ptr) (e : Ptr) (h : l.Nodup) : (eraseSwap l e).Nodup :=
  (eraseSwap_perm l e).nodup_iff.mpr (h.erase e)

theorem mem_eraseSwap_of_nodup (l : List Ptr) (e x : Ptr) (h : l.Nodup) :
    x ∈ eraseSwap l e ↔ x ≠ e ∧ x ∈ l := by
  rw [(eraseSwap_perm l e).mem_iff]
  exact h.mem_erase_iff

theorem mem_of_mem_eraseSwap (l : List Ptr) (e x : Ptr) (h : x ∈ eraseSwap l e) : x ∈ l :=
  List.mem_of_mem_erase ((eraseSwap_perm l e).mem_iff.mp h)

namespace VECTOR

theorem getD_contents (v : VECTOR) (j : Nat) (hj : j < v.numElements) :
    v.contents.getD j 0 = v.elements.getD j 0 := by
  unfold contents
  simp only [List.getD_eq_getElem?_getD, List.getElem?_take_of_lt hj]

theorem contents_length (v : VECTOR) (h : v.numElements ≤ v.elements.length) :
    v.contents.length = v.numElements := by
  unfold contents
  simp [h]

theorem removeElement_of_not_mem (v : VECTOR) (e : Ptr)
    (hs : v.numElements ≤ v.elements.length) (h : e ∉ v.contents) :
    v.removeElement e = v := by
  unfold removeElement
  apply removeFrom_not_found
  intro j _ hj heq
  apply h
  have hj2 : j < v.numElements := by omega
  have hlen : j < v.contents.length := by rw [contents_length v hs]; exact hj2
  rw [← getD_contents v j hj2, List.getD_eq_getElem _ _ hlen] at heq
  rw [← heq]
  exact List.getElem_mem _

theorem removeElement_split (v : VECTOR) (e : Ptr) (a b : List Ptr)
    (hs : v.numElements ≤ v.elements.length)
    (hc : v.contents = a ++ e :: b) (ha : e ∉ a) :
    v.removeElement e =
      { v with
        elements :=
          if a.length ≠ v.numElements - 1 then
            v.elements.set a.length (v.elements.getD (v.numElements - 1) 0)
          else v.elements,
        numElements := v.numElements - 1 } := by
  have hlen : v.numElements = a.length + 1 + b.length := by
    rw [← contents_length v hs, hc]; simp; omega
  unfold removeElement
  apply removeFrom_found v e v.numElements 0 a.length (Nat.zero_le _) (by omega)
  · rw [← getD_contents v a.length (by omega), hc,
      List.getD_append_right _ _ _ _ (Nat.le_refl _)]
    simp
  · intro m _ hm heq
    apply ha
    rw [← getD_contents v m (by omega), hc, List.getD_append _ _ _ _ hm,
      List.getD_eq_getElem _ _ hm] at heq
    rw [← heq]
    exact List.getElem_mem _

theorem contents_removeElement (v : VECTOR) (e : Ptr)
    (hs : v.numElements ≤ v.elements.length) :
    (v.removeElement e).contents = eraseSwap v.contents e := by
  by_cases h : e ∈ v.contents
  · obtain ⟨a, b, hc, ha⟩ := List.eq_append_cons_of_mem h
    have hlen : v.numElements = a.length + 1 + b.length := by
      rw [← contents_length v hs, hc]; simp; omega
    have hel : v.elements = (a ++ e :: b) ++ v.elements.drop v.numElements := by
      rw [← hc]; exact (List.take_append_drop _ _).symm
    rw [removeElement_split v e a b hs hc ha, hc, eraseSwap_split a b e ha]
    rcases List.eq_nil_or_concat b with hb | ⟨b1, z, hb⟩
    · subst hb
      have h1 : a.length = v.numElements - 1 := by simp at hlen; omega
      simp only [contents, h1, ne_eq, not_true_eq_false, if_false, lastFirst_nil,
        List.append_nil]
      rw [hel]
      simp only [List.append_assoc]
      rw [← h1]
      exact List.take_left _ _
    · subst hb
      rw [List.concat_eq_append] at hlen hel hc ⊢
      have h1 : a.length ≠ v.numElements - 1 := by simp at hlen; omega
      have h2 : v.numElements - 1 = a.length + 1 + b1.length := by simp at hlen; omega
      have hz : v.elements.getD (v.numElements - 1) 0 = z := by
        rw [← getD_contents v _ (by omega), hc, h2,
          List.getD_append_right _ _ _ _ (by omega)]
        have h3 : a.length + 1 + b1.length - a.length = b1.length + 1 := by omega
        rw [h3, List.getD_cons_succ, List.getD_append_right _ _ _ _ (Nat.le_refl _)]
        simp
      simp only [contents, ne_eq, h1, not_false_eq_true, if_true, hz, lastFirst_concat]
      rw [hel, h2]
      have hset : (a ++ e :: (b1 ++ [z]) ++ List.drop v.numElements v.elements).set a.length z
          = (a ++ z :: b1) ++ ([z] ++ List.drop v.numElements v.elements) := by
        rw [List.append_assoc, List.set_append_right _ _ (Nat.le_refl _)]
        simp
      have hl : a.length + 1 + b1.length = (a ++ z :: b1).length := by simp; omega
      rw [hset, hl, List.take_left]
  · rw [removeElement_of_not_mem v e hs h, eraseSwap_of_not_mem _ _ h]

theorem removeFrom_shape (v : VECTOR) (e : Ptr) (k i : Nat) :
    (v.removeFrom e i k).maxElements = v.maxElements ∧
    (v.removeFrom e i k).elements.length = v.elements.length ∧
    (v.removeFrom e i k).numElements ≤ v.numElements := by
  induction k generalizing i with
  | zero => simp [removeFrom]
  | succ k ih =>
    unfold removeFrom
    split
    · refine ⟨rfl, ?_, Nat.sub_le _ _⟩
      dsimp only
      split <;> simp
    · exact ih (i + 1)

theorem removeElement_sound (v : VECTOR) (e : Ptr) (h : v.Sound) :
    (v.removeElement e).Sound := by
  obtain ⟨h1, h2, h3⟩ := removeFrom_shape v e v.numElements 0
  unfold Sound at *
  unfold removeElement
  omega

theorem numElements_removeElement (v : VECTOR) (e : Ptr)
    (hs : v.numElements ≤ v.elements.length) :
    (v.removeElement e).numElements =
      if e ∈ v.contents then v.numElements - 1 else v.numElements := by
  split
  · next h =>
    obtain ⟨a, b, hc, ha⟩ := List.eq_append_cons_of_mem h
    rw [removeElement_split v e a b hs hc ha]
  · next h => rw [removeElement_of_not_mem v e hs h]

theorem take_succ_set (l : List Ptr) (n : Nat) (e : Ptr) (h : n < l.length) :
    (l.set n e).take (n + 1) = l.take n ++ [e] := by
  induction l generalizing n with
  | nil => simp at h
  | cons x xs ih =>
    cases n with
    | zero => simp
    | succ n =>
      simp only [List.length_cons, Nat.add_lt_add_iff_right] at h
      simp only [List.set_cons_succ, List.take_succ_cons, List.cons_append, ih n h]

theorem addElement_numElements (v : VECTOR) (e : Ptr) :
    (v.addElement e).numElements = v.numElements + 1 := by
  unfold addElement
  split <;> rfl

theorem addElement_sound (v : VECTOR) (e : Ptr) (h : v.Sound) : (v.addElement e).Sound := by
  unfold Sound at *
  unfold addElement
  dsimp only
  obtain ⟨h1, h2⟩ := h
  split
  · dsimp only
    simp only [List.length_set, realloc_length, true_and]
    omega
  · simp only [List.length_set]
    constructor <;> omega

theorem contents_addElement (v : VECTOR) (e : Ptr) (h : v.Sound) :
    (v.addElement e).contents = v.contents ++ [e] := by
  unfold Sound at h
  unfold addElement contents
  split
  · dsimp only
    rw [take_succ_set _ _ _ (by rw [realloc_length]; omega),
      realloc_take _ _ _ (by omega) (by omega)]
  · dsimp only
    rw [take_succ_set _ _ _ (by omega)]

end VECTOR

/-! ## Registration: count and duplicates -/

theorem network_init_sound : NETWORK.init.services.Sound := VECTOR.init_sound

theorem network_step_sound (n : NETWORK) (op : NetOp) (h : n.services.Sound) :
    (n.step op).services.Sound := by
  cases op with
  | add s => exact VECTOR.addElement_sound _ _ h
  | remove s => exact VECTOR.removeElement_sound _ _ h

theorem network_steps_sound (n : NETWORK) (ops : List NetOp) (h : n.services.Sound) :
    (n.steps ops).services.Sound := by
  induction ops generalizing n with
  | nil => exact h
  | cons op ops ih => exact ih _ (network_step_sound n op h)

theorem count_balance (n : NETWORK) (ops : List NetOp) (h : n.services.Sound) :
    (n.steps ops).services.count + completedRemoves n ops =
      n.services.count + numAdds ops := by
  induction ops generalizing n with
  | nil => rfl
  | cons op ops ih =>
    cases op with
    | add s =>
      have h1 := ih (n.addService s) (VECTOR.addElement_sound _ _ h)
      simp only [NETWORK.steps, NETWORK.step, completedRemoves, numAdds]
      rw [h1]
      simp only [NETWORK.addService, VECTOR.count, VECTOR.addElement_numElements]
      omega
    | remove s =>
      have h1 := ih (n.removeService s) (VECTOR.removeElement_sound _ _ h)
      have hs : n.services.numElements ≤ n.services.elements.length := by
        have := h; unfold VECTOR.Sound at this; omega
      have h2 := VECTOR.numElements_removeElement n.services s hs
      simp only [NETWORK.steps, NETWORK.step, completedRemoves, numAdds]
      simp only [NETWORK.removeService, VECTOR.count] at h1 h2 ⊢
      by_cases hm : s ∈ n.services.contents
      · have hpos : 0 < n.services.numElements := by
          have hl := VECTOR.contents_length n.services hs
          have := List.length_pos_of_mem hm
          omega
        simp only [hm, if_true] at h2 ⊢
        omega
      · simp only [hm, if_false] at h2 ⊢
        omega

/-- C1: for every sequence of addService and removeService calls applied to a newly constructed
NETWORK, the count of the service list equals the number of addService calls minus the number
of removeService calls whose argument was in the list at the time of the call. -/
theorem C1_count_is_adds_minus_completed_removes (ops : List NetOp) :
    ((NETWORK.init.steps ops).services.count : Int) =
      (numAdds ops : Int) - (completedRemoves NETWORK.init ops : Int) := by
  have h := count_balance NETWORK.init ops network_init_sound
  have h0 : NETWORK.init.services.count = 0 := rfl
  omega

theorem fresh_nodup (n : NETWORK) (ops : List NetOp) (hs : n.services.Sound)
    (hn : n.services.contents.Nodup) (h : FreshAdds n ops) :
    (n.steps ops).services.contents.Nodup := by
  induction ops generalizing n with
  | nil => exact hn
  | cons op ops ih =>
    cases op with
    | add s =>
      obtain ⟨h1, h2⟩ := h
      refine ih (n.addService s) (VECTOR.addElement_sound _ _ hs) ?_ h2
      simp only [NETWORK.addService, VECTOR.contents_addElement _ _ hs]
      exact List.Nodup.append hn (List.nodup_singleton s) (by simpa using h1)
    | remove s =>
      have hle : n.services.numElements ≤ n.services.elements.length := by
        have := hs; unfold VECTOR.Sound at this; omega
      refine ih (n.removeService s) (VECTOR.removeElement_sound _ _ hs) ?_ h
      simp only [NETWORK.removeService, VECTOR.contents_removeElement _ _ hle]
      exact eraseSwap_nodup _ _ hn

/-- C2 (as stated, refuted): registering the same service twice leaves it twice in the service
list, and one removeService call afterwards leaves a stale entry. -/
theorem C2_duplicate_registration :
    (NETWORK.init.steps [NetOp.add 1, NetOp.add 1]).services.contents = [1, 1] ∧
    1 ∈ (NETWORK.init.steps [NetOp.add 1, NetOp.add 1, NetOp.remove 1]).services.contents := by
  decide

/-- C2 (amended): when no addService call registers a service that is in the list at the time
of the call, the service list holds no service more than once, and after a removeService(s)
call s does not occur in the list. -/
theorem C2_no_duplicate_no_stale (ops : List NetOp) (h : FreshAdds NETWORK.init ops) :
    (NETWORK.init.steps ops).services.contents.Nodup ∧
    ∀ s, s ∉ ((NETWORK.init.steps ops).removeService s).services.contents := by
  have hs := network_steps_sound NETWORK.init ops network_init_sound
  have hn := fresh_nodup NETWORK.init ops network_init_sound (by decide) h
  refine ⟨hn, fun s hmem => ?_⟩
  have hle : (NETWORK.init.steps ops).services.numElements ≤
      (NETWORK.init.steps ops).services.elements.length := by
    have := hs; unfold VECTOR.Sound at this; omega
  simp only [NETWORK.removeService, VECTOR.contents_removeElement _ _ hle] at hmem
  exact ((mem_eraseSwap_of_nodup _ s s hn).mp hmem).1 rfl

theorem C2_no_duplicate_no_stale_witness :
    FreshAdds NETWORK.init [NetOp.add 1, NetOp.add 2, NetOp.remove 1] ∧
    (NETWORK.init.steps [NetOp.add 1, NetOp.add 2, NetOp.remove 1]).services.contents.Nodup ∧
    ∀ s, s ∉ ((NETWORK.init.steps [NetOp.add 1, NetOp.add 2, NetOp.remove 1]).removeService
      s).services.contents :=
  ⟨by decide, C2_no_duplicate_no_stale _ (by decide)⟩


/-! ## The dispatch cycle and close() on concrete states -/

/-- C3 (code defect): two registered Client-kind services are both reported ready; the first
has no data and is unregistered, which moves the second into its slot, and the scan then
steps past it: the second service, ready with data pending, is neither probed nor handled
(the cycle returns this result with any fuel from 2 on). -/
theorem C3_ready_service_skipped_after_drop (fuel : Nat) :
    NETWORK.fdSet twoClients = some [3, 4] ∧
    (NETWORK.run idle allReady (fun d => if d = 3 then 0 else 1) (fuel + 2) twoClients).map
        (fun w => w.view [1, 2]) =
      some ([Event.peek 1], [2], [some (-1, []), some (4, [])]) :=
  ⟨by decide, rfl⟩

/-- C4 (code defect): close() on a service with two owned children closes and destroys the
first child only; the second child stays in the child collection, alive and bound (the call
returns this result with any fuel from 5 on). -/
theorem C4_close_leaves_second_child (fuel : Nat) :
    (NETSERVICE.close (fuel + 5) 1 serverTwoChildren).map (fun w => w.view [1, 2, 3]) =
      some ([Event.fclose 1 3, Event.fclose 2 4, Event.deleteAddress 12, Event.delete 2], [1],
        [some (-1, [3]), none, some (5, [])]) :=
  rfl

/-- C5 (code defect): on a service with two owned children the second close() call is not a
no-op: it closes and destroys the child the first call left behind, and the state after two
calls differs from the state after one (with any fuel from 5 on). -/
theorem C5_second_close_destroys_child (fuel : Nat) :
    (NETSERVICE.close (fuel + 5) 1 serverTwoChildren).map (fun w => w.view [1, 3]) =
      some ([Event.fclose 1 3, Event.fclose 2 4, Event.deleteAddress 12, Event.delete 2], [1],
        [some (-1, [3]), some (5, [])]) ∧
    ((NETSERVICE.close (fuel + 5) 1 serverTwoChildren).bind
        (NETSERVICE.close (fuel + 5) 1)).map (fun w => w.view [1, 3]) =
      some ([Event.fclose 1 3, Event.fclose 2 4, Event.deleteAddress 12, Event.delete 2,
        Event.fclose 3 5, Event.deleteAddress 13, Event.delete 3], [1],
        [some (-1, []), none]) :=
  ⟨rfl, rfl⟩

/-- C7 (code defect): two registered Client-kind services are both reported ready and neither
has data; the first is unbound and unregistered, the second is stepped past: it is not probed
and stays registered and bound (the cycle returns this result with any fuel from 2 on). -/
theorem C7_ready_client_without_data_kept (fuel : Nat) :
    NETWORK.fdSet twoClients = some [3, 4] ∧
    (NETWORK.run idle allReady (fun _ => 0) (fuel + 2) twoClients).map
        (fun w => w.view [1, 2]) =
      some ([Event.peek 1], [2], [some (-1, []), some (4, [])]) :=
  ⟨by decide, rfl⟩

/-- C8 (code defect): a Client-kind service without data is registered before a Server-kind
service and both are reported ready; the client is unregistered and the scan steps past the
server, whose incoming() is not invoked in this cycle (the cycle returns this result with any
fuel from 2 on). -/
theorem C8_ready_server_not_invoked (fuel : Nat) :
    NETWORK.fdSet clientThenServer = some [3, 4] ∧
    (NETWORK.run idle allReady (fun _ => 0) (fuel + 2) clientThenServer).map
        (fun w => w.view [1, 2]) =
      some ([Event.peek 1], [2], [some (-1, []), some (4, [])]) :=
  ⟨by decide, rfl⟩

/-- C6 (as stated, refuted): a bound, ready Client-kind top-level service without data is
unregistered and its children are not scanned: its bound, ready child without data is not
destroyed and stays in the child collection. -/
theorem C6_child_of_dropped_service_survives :
    NETWORK.fdSet clientWithChild = some [3, 4] ∧
    ∀ fuel : Nat,
      (NETWORK.run idle allReady (fun _ => 0) (fuel + 2) clientWithChild).map
          (fun w => w.view [1, 2]) =
        some ([Event.peek 1], [], [some (-1, [2]), some (4, [])]) :=
  ⟨by decide, fun _ => rfl⟩

/-- C9 (as stated, refuted): when a top-level service is unbound and unregistered because its
probe failed, its ready child is not probed in that cycle: the only probe is the one of the
service itself. -/
theorem C9_child_of_dropped_service_not_probed :
    NETWORK.fdSet clientWithChild = some [3, 4] ∧
    ∀ fuel : Nat,
      (NETWORK.run idle allReady (fun d => if d = 3 then 0 else 1) (fuel + 2)
          clientWithChild).map (fun w => w.trace) = some [Event.peek 1] :=
  ⟨by decide, fun _ => rfl⟩

/-! ## The descriptor set handed to select -/

theorem mem_FD_SET (fd d : Int) (fds : List Int) :
    d ∈ FD_SET fd fds ↔ d ∈ fds ∨ (fd = d ∧ 0 ≤ d ∧ d < FD_SETSIZE) := by
  unfold FD_SET
  split
  · next h =>
    rw [List.mem_append, List.mem_singleton]
    constructor
    · rintro (h1 | h1)
      · exact Or.inl h1
      · subst h1
        exact Or.inr ⟨rfl, h⟩
    · rintro (h1 | ⟨h1, _⟩)
      · exact Or.inl h1
      · exact Or.inr h1.symm
  · next h =>
    constructor
    · exact Or.inl
    · rintro (h1 | ⟨h1, h2⟩)
      · exact h1
      · subst h1
        exact absurd h2 h

theorem fdSetClients_spec (h : Heap) (cs : List Ptr) (acc : List Int)
    (hl : ∀ c ∈ cs, ∃ sc, h c = some sc) :
    ∃ fds, NETWORK.fdSetClients h cs acc = some fds ∧
      ∀ d, d ∈ fds ↔
        d ∈ acc ∨ ∃ c ∈ cs, ∃ sc, h c = some sc ∧ sc.fd = d ∧ d ≠ -1 ∧
          0 ≤ d ∧ d < FD_SETSIZE := by
  induction cs generalizing acc with
  | nil => exact ⟨acc, rfl, fun d => by simp⟩
  | cons c rest ih =>
    obtain ⟨sc, hsc⟩ := hl c (List.mem_cons_self _ _)
    obtain ⟨fds, hf, hmem⟩ :=
      ih (if sc.fd ≠ -1 then FD_SET sc.fd acc else acc)
        (fun c' hc' => hl c' (List.mem_cons_of_mem _ hc'))
    refine ⟨fds, by simp only [NETWORK.fdSetClients, hsc, hf], fun d => ?_⟩
    rw [hmem d]
    constructor
    · rintro (hd | ⟨c', hc', sc', h1, h2, h3⟩)
      · by_cases hb : sc.fd ≠ -1
        · rw [if_pos hb, mem_FD_SET] at hd
          rcases hd with hd | ⟨hd, hr⟩
          · exact Or.inl hd
          · exact Or.inr ⟨c, List.mem_cons_self _ _, sc, hsc, hd, hd ▸ hb, hr⟩
        · rw [if_neg hb] at hd
          exact Or.inl hd
      · exact Or.inr ⟨c', List.mem_cons_of_mem _ hc', sc', h1, h2, h3⟩
    · rintro (hd | ⟨c', hc', sc', h1, h2, h3, hr⟩)
      · left
        by_cases hb : sc.fd ≠ -1
        · rw [if_pos hb, mem_FD_SET]; exact Or.inl hd
        · rw [if_neg hb]; exact hd
      · rcases List.mem_cons.mp hc' with heq | hin
        · left
          subst heq
          rw [hsc] at h1
          cases h1
          have hb : sc.fd ≠ -1 := h2 ▸ h3
          rw [if_pos hb, mem_FD_SET]
          exact Or.inr ⟨h2, hr⟩
        · exact Or.inr ⟨c', hin, sc', h1, h2, h3, hr⟩

theorem fdSetServices_spec (h : Heap) (ps : List Ptr) (acc : List Int)
    (hl : ∀ p ∈ ps, ∃ s, h p = some s ∧ ∀ c ∈ s.clients.contents, ∃ sc, h c = some sc) :
    ∃ fds, NETWORK.fdSetServices h ps acc = some fds ∧
      ∀ d, d ∈ fds ↔
        d ∈ acc ∨ ∃ p ∈ ps, ∃ s, h p = some s ∧
          ((s.fd = d ∧ d ≠ -1 ∧ 0 ≤ d ∧ d < FD_SETSIZE) ∨
            ∃ c ∈ s.clients.contents, ∃ sc, h c = some sc ∧ sc.fd = d ∧ d ≠ -1 ∧
              0 ≤ d ∧ d < FD_SETSIZE) := by
  induction ps generalizing acc with
  | nil => exact ⟨acc, rfl, fun d => by simp⟩
  | cons p rest ih =>
    obtain ⟨s, hs, hcs⟩ := hl p (List.mem_cons_self _ _)
    obtain ⟨fds1, hf1, hmem1⟩ :=
      fdSetClients_spec h s.clients.contents (if s.fd ≠ -1 then FD_SET s.fd acc else acc) hcs
    obtain ⟨fds, hf, hmem⟩ := ih fds1 (fun p' hp' => hl p' (List.mem_cons_of_mem _ hp'))
    refine ⟨fds, by simp only [NETWORK.fdSetServices, hs, hf1, hf], fun d => ?_⟩
    rw [hmem d, hmem1 d]
    constructor
    · rintro ((hd | ⟨c, hc, sc, h1, h2, h3⟩) | ⟨p', hp', s', h1, h2⟩)
      · by_cases hb : s.fd ≠ -1
        · rw [if_pos hb, mem_FD_SET] at hd
          rcases hd with hd | ⟨hd, hr⟩
          · exact Or.inl hd
          · exact Or.inr ⟨p, List.mem_cons_self _ _, s, hs, Or.inl ⟨hd, hd ▸ hb, hr⟩⟩
        · rw [if_neg hb] at hd
          exact Or.inl hd
      · exact Or.inr ⟨p, List.mem_cons_self _ _, s, hs, Or.inr ⟨c, hc, sc, h1, h2, h3⟩⟩
      · exact Or.inr ⟨p', List.mem_cons_of_mem _ hp', s', h1, h2⟩
    · rintro (hd | ⟨p', hp', s', h1, h2⟩)
      · left; left
        by_cases hb : s.fd ≠ -1
        · rw [if_pos hb, mem_FD_SET]; exact Or.inl hd
        · rw [if_neg hb]; exact hd
      · rcases List.mem_cons.mp hp' with heq | hin
        · left
          subst heq
          rw [hs] at h1
          cases h1
          rcases h2 with ⟨h2, h3, hr⟩ | h2
          · left
            have hb : s.fd ≠ -1 := h2 ▸ h3
            rw [if_pos hb, mem_FD_SET]
            exact Or.inr ⟨h2, hr⟩
          · exact Or.inr h2
        · exact Or.inr ⟨p', hin, s', h1, h2⟩

/-- C10 (code defect): a registered service without a descriptor owns a client bound to
descriptor 5. The descriptor set handed to `select` holds 5, while the set the specification
describes (bound top-level services and the bound children of those) is empty; and when
`select` reports descriptor 5 ready, with data pending on it, the second half of the same
`run()` neither probes that client nor invokes its handler: the cycle logs no event and
leaves the service and the client as they were (with any fuel from 2 on). -/
theorem C10_child_of_unbound_service_monitored :
    NETWORK.fdSet unboundWithChild = some [5] ∧
    readinessSetSpec unboundWithChild.heap unboundWithChild.net.services.contents = [] ∧
    ∀ fuel : Nat,
      (NETWORK.run idle allReady (fun _ => 1) (fuel + 2) unboundWithChild).map
          (fun w => w.view [1, 2]) =
        some ([], [1], [some (-1, [2]), some (5, [])]) :=
  ⟨by decide, by decide, fun _ => rfl⟩

/-- When every registered service and every client of one exists, the descriptor set that
`run()` assembles holds exactly the descriptors from 0 to `FD_SETSIZE - 1` of the registered
services together with such descriptors of the clients of every registered service, bound or
not; it never holds -1. -/
theorem fdSet_exact (w : World)
    (hl : ∀ p ∈ w.net.services.contents, ∃ s, w.heap p = some s ∧
      ∀ c ∈ s.clients.contents, ∃ sc, w.heap c = some sc) :
    ∃ fds, NETWORK.fdSet w = some fds ∧ (-1 : Int) ∉ fds ∧
      ∀ d, d ∈ fds ↔
        ∃ p ∈ w.net.services.contents, ∃ s, w.heap p = some s ∧
          ((s.fd = d ∧ d ≠ -1 ∧ 0 ≤ d ∧ d < FD_SETSIZE) ∨
            ∃ c ∈ s.clients.contents, ∃ sc, w.heap c = some sc ∧ sc.fd = d ∧ d ≠ -1 ∧
              0 ≤ d ∧ d < FD_SETSIZE) := by
  obtain ⟨fds, hf, hmem⟩ := fdSetServices_spec w.heap w.net.services.contents [] hl
  have hmem2 : ∀ d, d ∈ fds ↔
        ∃ p ∈ w.net.services.contents, ∃ s, w.heap p = some s ∧
          ((s.fd = d ∧ d ≠ -1 ∧ 0 ≤ d ∧ d < FD_SETSIZE) ∨
            ∃ c ∈ s.clients.contents, ∃ sc, w.heap c = some sc ∧ sc.fd = d ∧ d ≠ -1 ∧
              0 ≤ d ∧ d < FD_SETSIZE) := by
    intro d
    rw [hmem d]
    simp
  refine ⟨fds, hf, fun hneg => ?_, hmem2⟩
  obtain ⟨p, _, s, _, h⟩ := (hmem2 (-1)).mp hneg
  rcases h with ⟨_, h, _⟩ | ⟨c, _, sc, _, _, h, _⟩ <;> exact h rfl

/-! ## The dispatch cycle on two-level service trees -/

theorem World.ext3 {a b : World} (h1 : a.net = b.net) (h2 : ∀ q, a.heap q = b.heap q)
    (h3 : a.trace = b.trace) : a = b := by
  cases a; cases b
  simp only [World.mk.injEq] at *
  exact ⟨h1, funext h2, h3⟩

@[simp] theorem World.store_heap (w : World) (p : Ptr) (s : NETSERVICE) (q : Ptr) :
    (w.store p s).heap q = if q = p then some s else w.heap q := rfl
@[simp] theorem World.store_net (w : World) (p : Ptr) (s : NETSERVICE) :
    (w.store p s).net = w.net := rfl
@[simp] theorem World.store_trace (w : World) (p : Ptr) (s : NETSERVICE) :
    (w.store p s).trace = w.trace := rfl
@[simp] theorem World.free_heap (w : World) (p : Ptr) (q : Ptr) :
    (w.free p).heap q = if q = p then none else w.heap q := rfl
@[simp] theorem World.free_net (w : World) (p : Ptr) : (w.free p).net = w.net := rfl
@[simp] theorem World.free_trace (w : World) (p : Ptr) : (w.free p).trace = w.trace := rfl
@[simp] theorem World.log_heap (w : World) (e : Event) : (w.log e).heap = w.heap := rfl
@[simp] theorem World.log_net (w : World) (e : Event) : (w.log e).net = w.net := rfl
@[simp] theorem World.log_trace (w : World) (e : Event) : (w.log e).trace = w.trace ++ [e] := rfl

theorem closeLoop_done (f : Nat) (w : World) (c : Ptr) (i : Nat) (s : NETSERVICE)
    (hc : w.heap c = some s) (hi : s.clients.numElements ≤ i) :
    NETSERVICE.closeLoop (f + 1) c i w = some w := by
  have : ¬ i < s.clients.count := by unfold VECTOR.count; omega
  simp only [NETSERVICE.closeLoop, hc, if_neg this]

theorem close_leaf (f : Nat) (w : World) (c P : Ptr) (sc sP : NETSERVICE)
    (hc : w.heap c = some sc) (hleaf : sc.clients.numElements = 0) (hpar : sc.parent = P)
    (hP0 : P ≠ 0) (hP : w.heap P = some sP) (hne : P ≠ c) :
    NETSERVICE.close (f + 2) c w =
      some { net := w.net,
             heap := fun q =>
               if q = P then some { sP with clients := sP.clients.removeElement c }
               else if q = c then some { sc with fd := -1 }
               else w.heap q,
             trace := w.trace ++ closeEvents c sc } := by
  have hne2 : c ≠ P := fun h => hne h.symm
  simp only [NETSERVICE.close, hc, hpar, hP0, ne_eq, not_false_eq_true, if_true]
  by_cases hfd : sc.fd = -1
  · simp only [hfd, not_true_eq_false, if_false, NETSERVICE.removeClient, hP]
    rw [closeLoop_done f _ c 0 sc (by simp [hne2, hc]) (by omega)]
    congr 1
    refine World.ext3 (by rfl) ?_ ?_
    · intro q
      by_cases h1 : q = P
      · simp [h1]
      · by_cases h2 : q = c
        · subst h2; simp [h1, hc, ← hfd, ← hpar]
        · simp [h1, h2]
    · simp [closeEvents, hfd]
  · simp only [hfd, not_false_eq_true, if_true, NETSERVICE.removeClient, World.store_heap,
      World.log_heap, if_neg hne, hP]
    rw [closeLoop_done f _ c 0 { sc with fd := -1 } (by simp [hne2, hpar])
      (by simpa using hleaf)]
    congr 1
    refine World.ext3 (by rfl) ?_ ?_
    · intro q
      by_cases h1 : q = P
      · simp [h1]
      · by_cases h2 : q = c
        · subst h2; simp [h1, ← hpar]
        · simp [h1, h2]
    · simp only [World.store_trace, World.log_trace, closeEvents, ne_eq, hfd,
        not_false_eq_true, if_true]

theorem destroy_leaf (fuel : Nat) (w : World) (c P : Ptr) (sc sP : NETSERVICE)
    (hc : w.heap c = some sc) (hleaf : sc.clients.numElements = 0) (hpar : sc.parent = P)
    (hP0 : P ≠ 0) (hP : w.heap P = some sP) (hne : P ≠ c) (hfuel : 3 ≤ fuel) :
    NETSERVICE.destroy fuel c w = some (w.dropClient P c sP sc) := by
  unfold World.dropClient
  obtain ⟨f, rfl⟩ : ∃ f, fuel = f + 3 := ⟨fuel - 3, by omega⟩
  simp only [NETSERVICE.destroy, hc]
  rw [close_leaf f _ c P sc sP (by split <;> simpa using hc) hleaf hpar hP0
    (by split <;> simpa using hP) hne]
  dsimp only
  congr 1
  apply World.ext3
  · split <;> rfl
  · intro q
    by_cases h2 : q = c
    · simp [h2]
    · by_cases h1 : q = P
      · simp [h1, h2]
      · simp only [World.log_heap, World.free_heap, if_neg h2, if_neg h1]
        split <;> rfl
  · simp only [World.log_trace, World.free_trace, destroyEvents]
    split <;> simp

theorem removeClient_dropClient (w : World) (P c : Ptr) (sP sc : NETSERVICE) (hne : P ≠ c)
    (hs : sP.clients.Sound) (hnd : sP.clients.contents.Nodup) :
    NETSERVICE.removeClient P c (w.dropClient P c sP sc) = some (w.dropClient P c sP sc) := by
  have hle : sP.clients.numElements ≤ sP.clients.elements.length := by
    have := hs; unfold VECTOR.Sound at this; omega
  have hs2 := VECTOR.removeElement_sound _ c hs
  have hle2 : (sP.clients.removeElement c).numElements ≤
      (sP.clients.removeElement c).elements.length := by
    have := hs2; unfold VECTOR.Sound at this; omega
  have hnot : c ∉ (sP.clients.removeElement c).contents := by
    rw [VECTOR.contents_removeElement _ _ hle]
    intro hmem
    exact ((mem_eraseSwap_of_nodup _ c c hnd).mp hmem).1 rfl
  have h2 := VECTOR.removeElement_of_not_mem _ c hle2 hnot
  simp only [NETSERVICE.removeClient, World.dropClient, if_neg hne, if_true, h2]
  congr 1
  refine World.ext3 (by rfl) ?_ (by rfl)
  intro q
  by_cases h1 : q = P
  · subst h1; simp [hne]
  · simp [h1]

theorem mem_lastFirst (b : List Ptr) (x : Ptr) : x ∈ lastFirst b ↔ x ∈ b :=
  (lastFirst_perm b).mem_iff

theorem doomed_congr (recvPeek : Int → Int) (ready : List Int) (h h' : Heap) (c : Ptr)
    (hc : h c = h' c) : doomed recvPeek ready h c = doomed recvPeek ready h' c := by
  unfold doomed; rw [hc]

theorem clientEvents_congr (recvPeek : Int → Int) (ready : List Int) (h h' : Heap) (c : Ptr)
    (hc : h c = h' c) : clientEvents recvPeek ready h c = clientEvents recvPeek ready h' c := by
  unfold clientEvents; rw [hc]

theorem scanKeep_congr (recvPeek : Int → Int) (ready : List Int) (h h' : Heap) (n : Nat)
    (u : List Ptr) (hu : ∀ c ∈ u, h c = h' c) :
    scanKeep recvPeek ready h n u = scanKeep recvPeek ready h' n u := by
  induction n generalizing u with
  | zero => rfl
  | succ n ih =>
    cases u with
    | nil => rfl
    | cons c b =>
      simp only [scanKeep]
      rw [doomed_congr recvPeek ready h h' c (hu c (List.mem_cons_self _ _)),
        ih b (fun x hx => hu x (List.mem_cons_of_mem _ hx)),
        ih (lastFirst b) (fun x hx => hu x (List.mem_cons_of_mem _ ((mem_lastFirst b x).mp hx)))]

theorem scanTrace_congr (recvPeek : Int → Int) (ready : List Int) (h h' : Heap) (n : Nat)
    (u : List Ptr) (hu : ∀ c ∈ u, h c = h' c) :
    scanTrace recvPeek ready h n u = scanTrace recvPeek ready h' n u := by
  induction n generalizing u with
  | zero => rfl
  | succ n ih =>
    cases u with
    | nil => rfl
    | cons c b =>
      simp only [scanTrace]
      rw [doomed_congr recvPeek ready h h' c (hu c (List.mem_cons_self _ _)),
        clientEvents_congr recvPeek ready h h' c (hu c (List.mem_cons_self _ _)),
        ih b (fun x hx => hu x (List.mem_cons_of_mem _ hx)),
        ih (lastFirst b) (fun x hx => hu x (List.mem_cons_of_mem _ ((mem_lastFirst b x).mp hx)))]

theorem peek_bound (recvPeek : Int → Int) (c : Ptr) (w : World) (sc : NETSERVICE)
    (hc : w.heap c = some sc) (hfd : sc.fd ≠ -1) :
    NETSERVICE.peek recvPeek c w = some (peekValue recvPeek sc.fd, w.log (Event.peek c)) := by
  simp only [NETSERVICE.peek, hc, if_neg hfd, peekValue]

theorem elementAt_split (v : VECTOR) (a b : List Ptr) (c : Ptr)
    (hs : v.numElements ≤ v.elements.length) (hc : v.contents = a ++ c :: b) :
    v.elementAt a.length = c := by
  have hlen : v.numElements = a.length + 1 + b.length := by
    rw [← VECTOR.contents_length v hs, hc]; simp; omega
  unfold VECTOR.elementAt
  rw [← VECTOR.getD_contents v a.length (by omega), hc,
    List.getD_append_right _ _ _ _ (Nat.le_refl _)]
  simp

theorem scanClients_exit (incoming : Ptr → World → World) (recvPeek : Int → Int)
    (ready : List Int) (P : Ptr) (w : World) (sP : NETSERVICE) (f j : Nat)
    (hP : w.heap P = some sP) (hj : sP.clients.numElements ≤ j) :
    NETWORK.scanClients incoming recvPeek ready (f + 1) P j w = some w := by
  have : ¬ j < sP.clients.count := by unfold VECTOR.count; omega
  simp only [NETWORK.scanClients, hP, if_neg this]

theorem scanClients_spec (incoming : Ptr → World → World) (recvPeek : Int → Int)
    (ready : List Int) (P : Ptr) (hinc : ∀ p x, incoming p x = x) (hP0 : P ≠ 0) (n : Nat) :
    ∀ (u a : List Ptr) (w : World) (sP : NETSERVICE) (fuel : Nat),
      u.length ≤ n → n + 4 ≤ fuel →
      w.heap P = some sP → sP.clients.Sound → sP.clients.contents = a ++ u →
      (a ++ u).Nodup →
      (∀ c ∈ u, c ≠ P ∧
        ∃ sc, w.heap c = some sc ∧ sc.parent = P ∧ sc.clients.numElements = 0) →
      ∃ w' cl, NETWORK.scanClients incoming recvPeek ready fuel P a.length w = some w' ∧
        w'.net = w.net ∧
        w'.trace = w.trace ++ scanTrace recvPeek ready w.heap n u ∧
        w'.heap P = some { sP with clients := cl } ∧ cl.Sound ∧
        cl.contents = a ++ scanKeep recvPeek ready w.heap n u ∧
        ∀ q, q ≠ P →
          w'.heap q =
            if q ∈ u ∧ doomed recvPeek ready w.heap q = true then none else w.heap q := by
  induction n with
  | zero =>
    intro u a w sP fuel hlen hfuel hP hs hc hnd hch
    obtain ⟨f, rfl⟩ : ∃ f, fuel = f + 1 := ⟨fuel - 1, by omega⟩
    have hu : u = [] := List.length_eq_zero.mp (by omega)
    subst hu
    have hle : sP.clients.numElements ≤ sP.clients.elements.length := by
      have := hs; unfold VECTOR.Sound at this; omega
    have hcount : sP.clients.numElements = a.length := by
      rw [← VECTOR.contents_length _ hle, hc]; simp
    refine ⟨w, sP.clients, scanClients_exit _ _ _ _ _ _ _ _ hP (by omega), rfl, ?_, hP, hs,
      ?_, ?_⟩
    · simp [scanTrace]
    · simpa [scanKeep] using hc
    · intro q _; simp
  | succ n ih =>
    intro u a w sP fuel hlen hfuel hP hs hc hnd hch
    obtain ⟨f, rfl⟩ : ∃ f, fuel = f + 1 := ⟨fuel - 1, by omega⟩
    have hle : sP.clients.numElements ≤ sP.clients.elements.length := by
      have := hs; unfold VECTOR.Sound at this; omega
    cases u with
    | nil =>
      have hcount : sP.clients.numElements = a.length := by
        rw [← VECTOR.contents_length _ hle, hc]; simp
      refine ⟨w, sP.clients, scanClients_exit _ _ _ _ _ _ _ _ hP (by omega), rfl, ?_, hP, hs,
        ?_, ?_⟩
      · simp [scanTrace]
      · simpa [scanKeep] using hc
      · intro q _; simp
    | cons c b =>
      have hcount : sP.clients.numElements = a.length + 1 + b.length := by
        rw [← VECTOR.contents_length _ hle, hc]; simp; omega
      have hlt : a.length < sP.clients.count := by unfold VECTOR.count; omega
      have hel : sP.clients.elementAt a.length = c := elementAt_split _ a b c hle hc
      obtain ⟨hcP, sc, hsc, hpar, hleaf⟩ := hch c (List.mem_cons_self _ _)
      have hblen : b.length ≤ n := by simp at hlen; omega
      have hcb : c ∉ b := by
        have := (List.nodup_append.mp hnd).2.1
        exact (List.nodup_cons.mp this).1
      have hca : c ∉ a := by
        intro hmem
        exact (List.nodup_append.mp hnd).2.2 hmem (List.mem_cons_self _ _)
      -- the step to the next index, client kept
      have hnext : ∀ (w1 : World), w1.heap = w.heap → w1.net = w.net →
          doomed recvPeek ready w.heap c = false →
          w1.trace = w.trace ++ clientEvents recvPeek ready w.heap c →
          ∃ w' cl, NETWORK.scanClients incoming recvPeek ready f P (a.length + 1) w1 = some w' ∧
            w'.net = w.net ∧
            w'.trace = w.trace ++ scanTrace recvPeek ready w.heap (n + 1) (c :: b) ∧
            w'.heap P = some { sP with clients := cl } ∧ cl.Sound ∧
            cl.contents = a ++ scanKeep recvPeek ready w.heap (n + 1) (c :: b) ∧
            ∀ q, q ≠ P →
              w'.heap q =
                if q ∈ c :: b ∧ doomed recvPeek ready w.heap q = true then none
                else w.heap q := by
        intro w1 hh hn hd ht
        have hc' : sP.clients.contents = (a ++ [c]) ++ b := by rw [hc]; simp
        obtain ⟨w', cl, h1, h2, h3, h4, h5, h6, h7⟩ :=
          ih b (a ++ [c]) w1 sP f hblen (by omega) (by rw [hh]; exact hP) hs hc'
            (by simpa using hnd)
            (fun x hx => by rw [hh]; exact hch x (List.mem_cons_of_mem _ hx))
        refine ⟨w', cl, by simpa using h1, h2.trans hn, ?_, h4, h5, ?_, ?_⟩
        · rw [h3, ht, hh]; simp [scanTrace, hd]
        · rw [h6, hh]; simp [scanKeep, hd]
        · intro q hq
          rw [h7 q hq, hh]
          by_cases hqc : q = c
          · subst hqc; simp [hd, hcb]
          · simp [hqc]
      simp only [NETWORK.scanClients, hP, if_pos hlt, hel, hsc]
      by_cases hfd : sc.fd = -1
      · simp only [hfd, ne_eq, not_true_eq_false, if_false]
        exact hnext w rfl rfl (by simp [doomed, hsc, hfd]) (by simp [clientEvents, hsc, hfd])
      · simp only [ne_eq, hfd, not_false_eq_true, if_true]
        by_cases hr : sc.fd ∈ ready
        · simp only [if_pos hr, peek_bound recvPeek c w sc hsc hfd]
          by_cases hv : peekValue recvPeek sc.fd = 0
          · simp only [hv, ne_eq, not_true_eq_false, if_false]
            have hne : P ≠ c := fun h => hcP h.symm
            have hnd0 : sP.clients.contents.Nodup := by rw [hc]; exact hnd
            rw [destroy_leaf f (w.log (Event.peek c)) c P sc sP hsc hleaf hpar hP0 hP hne
              (by omega)]
            simp only [removeClient_dropClient _ P c sP sc hne hs hnd0]
            have hd : doomed recvPeek ready w.heap c = true := by
              simp [doomed, hsc, hfd, hr, hv]
            have hW : ∀ q, q ≠ c → q ≠ P →
                ((w.log (Event.peek c)).dropClient P c sP sc).heap q = w.heap q := by
              intro q h1 h2
              simp [World.dropClient, h1, h2]
            obtain ⟨w', cl, h1, h2, h3, h4, h5, h6, h7⟩ :=
              ih (lastFirst b) a ((w.log (Event.peek c)).dropClient P c sP sc)
                { sP with clients := sP.clients.removeElement c } f
                (by rw [lastFirst_length]; exact hblen) (by omega)
                (by simp [World.dropClient, hne])
                (VECTOR.removeElement_sound _ _ hs)
                (by
                  show (sP.clients.removeElement c).contents = a ++ lastFirst b
                  rw [VECTOR.contents_removeElement _ _ hle, hc, eraseSwap_split a b c hca])
                (by
                  have h0 : (a ++ b).Nodup := by
                    have := hnd
                    rw [List.nodup_append] at this ⊢
                    refine ⟨this.1, (List.nodup_cons.mp this.2.1).2, ?_⟩
                    intro x hx hxb
                    exact this.2.2 hx (List.mem_cons_of_mem _ hxb)
                  exact (List.Perm.append_left a (lastFirst_perm b)).nodup_iff.mpr h0)
                (by
                  intro x hx
                  have hxb : x ∈ b := (mem_lastFirst b x).mp hx
                  obtain ⟨hxP, sx, hsx, hx2⟩ := hch x (List.mem_cons_of_mem _ hxb)
                  have hxc : x ≠ c := fun h => hcb (h ▸ hxb)
                  exact ⟨hxP, sx, by rw [hW x hxc hxP]; exact hsx, hx2⟩)
            have hcongr : ∀ x ∈ lastFirst b,
                ((w.log (Event.peek c)).dropClient P c sP sc).heap x = w.heap x := by
              intro x hx
              have hxb : x ∈ b := (mem_lastFirst b x).mp hx
              exact hW x (fun h => hcb (h ▸ hxb)) (hch x (List.mem_cons_of_mem _ hxb)).1
            refine ⟨w', cl, h1, h2, ?_, h4, h5, ?_, ?_⟩
            · rw [h3, scanTrace_congr recvPeek ready _ w.heap n _ hcongr]
              simp [scanTrace, hd, World.dropClient, clientEvents, hsc, hfd, hr, hv]
            · rw [h6, scanKeep_congr recvPeek ready _ w.heap n _ hcongr]
              simp [scanKeep, hd]
            · intro q hq
              rw [h7 q hq]
              by_cases hqc : q = c
              · subst hqc
                simp [hd, World.dropClient]
              · rw [doomed_congr recvPeek ready _ w.heap q (hW q hqc hq), hW q hqc hq]
                simp [hqc, mem_lastFirst]
          · simp only [ne_eq, hv, not_false_eq_true, if_true, hinc]
            exact hnext ((w.log (Event.peek c)).log (Event.incoming c)) rfl rfl
              (by simp [doomed, hsc, hfd, hr, hv])
              (by simp [clientEvents, hsc, hfd, hr, hv])
        · simp only [if_neg hr]
          exact hnext w rfl rfl (by simp [doomed, hsc, hfd, hr])
            (by simp [clientEvents, hsc, hfd, hr])

theorem scanKeep_perm (recvPeek : Int → Int) (ready : List Int) (h : Heap) (n : Nat)
    (u : List Ptr) (hn : u.length ≤ n) :
    (scanKeep recvPeek ready h n u).Perm (u.filter (fun c => !doomed recvPeek ready h c)) := by
  induction n generalizing u with
  | zero =>
    have : u = [] := List.length_eq_zero.mp (by omega)
    subst this
    exact List.Perm.refl _
  | succ n ih =>
    cases u with
    | nil => exact List.Perm.refl _
    | cons c b =>
      have hb : b.length ≤ n := by simp at hn; omega
      by_cases hd : doomed recvPeek ready h c = true
      · simp only [scanKeep, hd, if_true, List.filter_cons, Bool.not_true, Bool.false_eq_true,
          if_false]
        exact (ih (lastFirst b) (by rw [lastFirst_length]; exact hb)).trans
          ((lastFirst_perm b).filter _)
      · have hd' : doomed recvPeek ready h c = false := by simpa using hd
        simp only [scanKeep, hd', Bool.false_eq_true, if_false, List.filter_cons, Bool.not_false,
          if_true]
        exact List.Perm.cons c (ih b hb)

theorem releaseEvent_subject (c : Ptr) (sc : NETSERVICE) :
    (NETSERVICE.releaseEvent c sc).subject = some c := by
  unfold NETSERVICE.releaseEvent
  split <;> rfl

theorem releaseEvent_ne (c : Ptr) (sc : NETSERVICE) (x : Ptr) :
    NETSERVICE.releaseEvent c sc ≠ Event.incoming x ∧
    NETSERVICE.releaseEvent c sc ≠ Event.peek x := by
  unfold NETSERVICE.releaseEvent
  split <;> simp

theorem mem_destroyEvents (c : Ptr) (sc : NETSERVICE) (e : Event) (q : Ptr)
    (he : e ∈ destroyEvents c sc) (hq : e.subject = some q) : q = c ∧ e ≠ Event.incoming c ∧
      e ≠ Event.peek c := by
  unfold destroyEvents closeEvents at he
  simp only [List.mem_append, List.mem_singleton] at he
  rcases he with he | he | he
  · split at he
    · simp only [List.mem_singleton] at he
      subst he
      simp [Event.subject] at hq
    · simp at he
  · split at he
    · simp only [List.mem_singleton] at he
      subst he
      rw [releaseEvent_subject] at hq
      exact ⟨(Option.some.inj hq).symm, (releaseEvent_ne c sc c).1, (releaseEvent_ne c sc c).2⟩
    · simp at he
  · subst he
    simp [Event.subject] at hq ⊢
    exact hq.symm

theorem delete_mem_destroyEvents (c : Ptr) (sc : NETSERVICE) :
    Event.delete c ∈ destroyEvents c sc := by
  simp [destroyEvents]

theorem clientEvents_subject (recvPeek : Int → Int) (ready : List Int) (h : Heap) (c : Ptr)
    (e : Event) (q : Ptr) (he : e ∈ clientEvents recvPeek ready h c)
    (hq : e.subject = some q) : q = c := by
  unfold clientEvents at he
  split at he
  · simp at he
  · next sc hsc =>
    split at he
    · simp only [List.mem_cons] at he
      rcases he with he | he
      · subst he; simp [Event.subject] at hq; exact hq.symm
      · split at he
        · simp only [List.mem_singleton] at he
          subst he; simp [Event.subject] at hq; exact hq.symm
        · exact (mem_destroyEvents c sc e q he hq).1
    · simp at he

theorem incoming_mem_clientEvents (recvPeek : Int → Int) (ready : List Int) (h : Heap)
    (c x : Ptr) (he : Event.incoming x ∈ clientEvents recvPeek ready h c) :
    x = c ∧ doomed recvPeek ready h c = false := by
  have hx : x = c := clientEvents_subject recvPeek ready h c _ x he rfl
  subst hx
  refine ⟨rfl, ?_⟩
  unfold clientEvents at he
  unfold doomed
  split at he
  · simp at he
  · next sc hsc =>
    split at he
    · simp only [List.mem_cons] at he
      rcases he with he | he
      · cases he
      · split at he
        · next hv => simp [hv]
        · exact absurd rfl (mem_destroyEvents x sc _ x he rfl).2.1
    · next hb =>
      simp at he

theorem scanTrace_subject (recvPeek : Int → Int) (ready : List Int) (h : Heap) (n : Nat)
    (u : List Ptr) (e : Event) (q : Ptr) (he : e ∈ scanTrace recvPeek ready h n u)
    (hq : e.subject = some q) : q ∈ u := by
  induction n generalizing u with
  | zero => simp [scanTrace] at he
  | succ n ih =>
    cases u with
    | nil => simp [scanTrace] at he
    | cons c b =>
      simp only [scanTrace, List.mem_append] at he
      rcases he with he | he
      · rw [clientEvents_subject recvPeek ready h c e q he hq]
        exact List.mem_cons_self _ _
      · split at he
        · exact List.mem_cons_of_mem _ ((mem_lastFirst b q).mp (ih _ he))
        · exact List.mem_cons_of_mem _ (ih _ he)

theorem incoming_mem_scanTrace (recvPeek : Int → Int) (ready : List Int) (h : Heap) (n : Nat)
    (u : List Ptr) (x : Ptr) (he : Event.incoming x ∈ scanTrace recvPeek ready h n u) :
    doomed recvPeek ready h x = false := by
  induction n generalizing u with
  | zero => simp [scanTrace] at he
  | succ n ih =>
    cases u with
    | nil => simp [scanTrace] at he
    | cons c b =>
      simp only [scanTrace, List.mem_append] at he
      rcases he with he | he
      · obtain ⟨h1, h2⟩ := incoming_mem_clientEvents recvPeek ready h c x he
        rw [h1]; exact h2
      · split at he
        · exact ih _ he
        · exact ih _ he

theorem delete_mem_scanTrace (recvPeek : Int → Int) (ready : List Int) (h : Heap) (n : Nat)
    (u : List Ptr) (x : Ptr) (hn : u.length ≤ n) (hx : x ∈ u)
    (hd : doomed recvPeek ready h x = true) :
    Event.delete x ∈ scanTrace recvPeek ready h n u := by
  induction n generalizing u with
  | zero =>
    have : u = [] := List.length_eq_zero.mp (by omega)
    subst this
    simp at hx
  | succ n ih =>
    cases u with
    | nil => simp at hx
    | cons c b =>
      have hb : b.length ≤ n := by simp at hn; omega
      simp only [scanTrace, List.mem_append]
      by_cases hxc : x = c
      · subst hxc
        left
        unfold doomed at hd
        unfold clientEvents
        split at hd
        · simp at hd
        · next sc hsc =>
          simp only [Bool.and_eq_true, decide_eq_true_eq] at hd
          simp only [hd.1, hd.2.1, hd.2.2, ne_eq, not_false_eq_true, and_self, if_true,
            not_true_eq_false, if_false, List.mem_cons]
          exact Or.inr (delete_mem_destroyEvents x sc)
      · right
        have hxb : x ∈ b := by
          rcases List.mem_cons.mp hx with h1 | h1
          · exact absurd h1 hxc
          · exact h1
        split
        · exact ih _ (by rw [lastFirst_length]; exact hb) ((mem_lastFirst b x).mpr hxb)
        · exact ih _ hb hxb

theorem dispatchService_unbound (incoming : Ptr → World → World) (recvPeek : Int → Int)
    (ready : List Int) (fuel : Nat) (Q : Ptr) (w : World) (sQ : NETSERVICE)
    (hQ : w.heap Q = some sQ) (hfd : sQ.fd = -1) :
    NETWORK.dispatchService incoming recvPeek ready fuel Q w = some w := by
  simp only [NETWORK.dispatchService, hQ, hfd, ne_eq, not_true_eq_false, if_false]

theorem dispatchService_drop (incoming : Ptr → World → World) (recvPeek : Int → Int)
    (ready : List Int) (fuel : Nat) (Q : Ptr) (w : World) (sQ : NETSERVICE)
    (hQ : w.heap Q = some sQ) (hd : dropped recvPeek ready w.heap Q = true) :
    NETWORK.dispatchService incoming recvPeek ready fuel Q w = some (w.dropService Q sQ) := by
  unfold dropped at hd
  rw [hQ] at hd
  simp only [Bool.and_eq_true, decide_eq_true_eq] at hd
  obtain ⟨hfd, hr, hty, hv⟩ := hd
  simp only [NETWORK.dispatchService, hQ, ne_eq, hfd, not_false_eq_true, if_true, hr, hty,
    if_false, peek_bound recvPeek Q w sQ hQ hfd, hv, not_true_eq_false, NETSERVICE.setFD,
    World.log_heap]
  rfl

theorem dispatchService_scan (incoming : Ptr → World → World) (recvPeek : Int → Int)
    (ready : List Int) (hinc : ∀ p x, incoming p x = x) (fuel : Nat) (Q : Ptr) (w : World)
    (sQ : NETSERVICE) (hQ : w.heap Q = some sQ) (hfd : sQ.fd ≠ -1)
    (hd : dropped recvPeek ready w.heap Q = false) (hQ0 : Q ≠ 0)
    (hs : sQ.clients.Sound) (hnd : sQ.clients.contents.Nodup)
    (hch : ∀ c ∈ sQ.clients.contents, c ≠ Q ∧
      ∃ sc, w.heap c = some sc ∧ sc.parent = Q ∧ sc.clients.numElements = 0)
    (hfuel : sQ.clients.contents.length + 4 ≤ fuel) :
    ∃ w' cl, NETWORK.dispatchService incoming recvPeek ready fuel Q w = some w' ∧
      w'.net = w.net ∧
      w'.trace = w.trace ++ (serviceEvents ready Q sQ ++
        scanTrace recvPeek ready w.heap sQ.clients.contents.length sQ.clients.contents) ∧
      w'.heap Q = some { sQ with clients := cl } ∧ cl.Sound ∧
      cl.contents =
        scanKeep recvPeek ready w.heap sQ.clients.contents.length sQ.clients.contents ∧
      ∀ q, q ≠ Q →
        w'.heap q =
          if q ∈ sQ.clients.contents ∧ doomed recvPeek ready w.heap q = true then none
          else w.heap q := by
  -- the scan from a world that differs from `w` in the event log only
  have hscan : ∀ (w1 : World), w1.heap = w.heap → w1.net = w.net →
      w1.trace = w.trace ++ serviceEvents ready Q sQ →
      ∃ w' cl, NETWORK.scanClients incoming recvPeek ready fuel Q 0 w1 = some w' ∧
        w'.net = w.net ∧
        w'.trace = w.trace ++ (serviceEvents ready Q sQ ++
          scanTrace recvPeek ready w.heap sQ.clients.contents.length sQ.clients.contents) ∧
        w'.heap Q = some { sQ with clients := cl } ∧ cl.Sound ∧
        cl.contents =
          scanKeep recvPeek ready w.heap sQ.clients.contents.length sQ.clients.contents ∧
        ∀ q, q ≠ Q →
          w'.heap q =
            if q ∈ sQ.clients.contents ∧ doomed recvPeek ready w.heap q = true then none
            else w.heap q := by
    intro w1 hh hn ht
    obtain ⟨w', cl, h1, h2, h3, h4, h5, h6, h7⟩ :=
      scanClients_spec incoming recvPeek ready Q hinc hQ0 sQ.clients.contents.length
        sQ.clients.contents [] w1 sQ fuel (Nat.le_refl _) hfuel (by rw [hh]; exact hQ) hs
        (by simp) (by simpa using hnd) (by rw [hh]; exact hch)
    refine ⟨w', cl, by simpa using h1, h2.trans hn, ?_, h4, h5, ?_, ?_⟩
    · rw [h3, ht, hh, List.append_assoc]
    · rw [h6, hh]; simp
    · intro q hq; rw [h7 q hq, hh]
  unfold dropped at hd
  rw [hQ] at hd
  simp only [NETWORK.dispatchService, hQ, ne_eq, hfd, not_false_eq_true, if_true]
  by_cases hr : sQ.fd ∈ ready
  · by_cases hty : sQ.type = NETSERVICE_SERVER
    · simp only [hr, if_pos hty, if_true, hinc, hQ0, ne_eq, not_false_eq_true]
      exact hscan (w.log (Event.incoming Q)) rfl rfl (by simp [serviceEvents, hr, hty])
    · have hv : peekValue recvPeek sQ.fd ≠ 0 := by
        intro hv
        simp [hfd, hr, hty, hv] at hd
      simp only [hr, if_neg hty, if_true, peek_bound recvPeek Q w sQ hQ hfd, ne_eq, hv,
        not_false_eq_true, hinc, hQ0]
      exact hscan ((w.log (Event.peek Q)).log (Event.incoming Q)) rfl rfl
        (by simp [serviceEvents, hr, hty])
  · simp only [hr, if_false, ne_eq, hQ0, not_false_eq_true, if_true]
    exact hscan w rfl rfl (by simp [serviceEvents, hr])

theorem sound_le (v : VECTOR) (h : v.Sound) : v.numElements ≤ v.elements.length := by
  unfold VECTOR.Sound at h; omega

theorem contents_split_at (v : VECTOR) (i : Nat) (hs : v.Sound) (hi : i < v.numElements) :
    v.contents = v.contents.take i ++ v.elementAt i :: v.contents.drop (i + 1) := by
  have hlen : i < v.contents.length := by rw [VECTOR.contents_length v (sound_le v hs)]; exact hi
  have hel : v.elementAt i = v.contents[i] := by
    unfold VECTOR.elementAt
    rw [← VECTOR.getD_contents v i hi, List.getD_eq_getElem _ _ hlen]
  rw [hel, ← List.drop_eq_getElem_cons hlen, List.take_append_drop]

theorem elementAt_mem (v : VECTOR) (i : Nat) (hs : v.Sound) (hi : i < v.numElements) :
    v.elementAt i ∈ v.contents := by
  rw [contents_split_at v i hs hi]
  simp

theorem tree_ne_zero (w : World) (ht : w.Tree) (Q : Ptr) (sQ : NETSERVICE)
    (hQ : w.heap Q = some sQ) : Q ≠ 0 := by
  intro h
  rw [h, ht.null] at hQ
  cases hQ

theorem tree_dropService (w : World) (ht : w.Tree) (Q : Ptr) (sQ : NETSERVICE)
    (hQm : Q ∈ w.net.services.contents) (hQ : w.heap Q = some sQ) :
    (w.dropService Q sQ).Tree := by
  have hmem : ∀ p, p ∈ (w.dropService Q sQ).net.services.contents →
      p ≠ Q ∧ p ∈ w.net.services.contents := by
    intro p hp
    have : p ∈ eraseSwap w.net.services.contents Q := by
      rw [← VECTOR.contents_removeElement _ _ (sound_le _ ht.sound)]; exact hp
    exact (mem_eraseSwap_of_nodup _ Q p ht.nodup).mp this
  refine ⟨?_, VECTOR.removeElement_sound _ _ ht.sound, ?_, ?_⟩
  · have h0 : (0 : Ptr) ≠ Q := fun h => tree_ne_zero w ht Q sQ hQ h.symm
    simp only [World.dropService, if_neg h0]
    exact ht.null
  · show (w.net.services.removeElement Q).contents.Nodup
    rw [VECTOR.contents_removeElement _ _ (sound_le _ ht.sound)]
    exact eraseSwap_nodup _ _ ht.nodup
  · intro p hp
    obtain ⟨hpQ, hp0⟩ := hmem p hp
    obtain ⟨s, hs, h1, h2, h3⟩ := ht.top p hp0
    refine ⟨s, by simp only [World.dropService, if_neg hpQ]; exact hs, h1, h2, ?_⟩
    intro c hc
    obtain ⟨hc1, sc, hsc, hc2⟩ := h3 c hc
    have hcQ : c ≠ Q := fun h => hc1 (h ▸ hQm)
    refine ⟨fun hm => hc1 (hmem c hm).2, sc, ?_, hc2⟩
    simp only [World.dropService, if_neg hcQ]
    exact hsc

theorem mem_scanKeep (recvPeek : Int → Int) (ready : List Int) (h : Heap) (n : Nat)
    (u : List Ptr) (hn : u.length ≤ n) (x : Ptr) :
    x ∈ scanKeep recvPeek ready h n u ↔ x ∈ u ∧ doomed recvPeek ready h x = false := by
  rw [(scanKeep_perm recvPeek ready h n u hn).mem_iff, List.mem_filter]
  simp

theorem scanKeep_nodup (recvPeek : Int → Int) (ready : List Int) (h : Heap) (n : Nat)
    (u : List Ptr) (hn : u.length ≤ n) (hu : u.Nodup) :
    (scanKeep recvPeek ready h n u).Nodup :=
  (scanKeep_perm recvPeek ready h n u hn).nodup_iff.mpr (hu.filter _)

theorem tree_scan (recvPeek : Int → Int) (ready : List Int) (w w' : World) (ht : w.Tree)
    (Q : Ptr) (sQ : NETSERVICE) (hQm : Q ∈ w.net.services.contents) (hQ : w.heap Q = some sQ)
    (cl : VECTOR) (h2 : w'.net = w.net) (h4 : w'.heap Q = some { sQ with clients := cl })
    (h5 : cl.Sound)
    (h6 : cl.contents =
      scanKeep recvPeek ready w.heap sQ.clients.contents.length sQ.clients.contents)
    (h7 : ∀ q, q ≠ Q →
      w'.heap q =
        if q ∈ sQ.clients.contents ∧ doomed recvPeek ready w.heap q = true then none
        else w.heap q) : w'.Tree := by
  obtain ⟨sQ', hQ', hsQ, hndQ, hchQ⟩ := ht.top Q hQm
  rw [hQ] at hQ'
  cases hQ'
  have hkeep : ∀ x, x ∈ cl.contents ↔
      x ∈ sQ.clients.contents ∧ doomed recvPeek ready w.heap x = false := by
    intro x; rw [h6]; exact mem_scanKeep recvPeek ready w.heap _ _ (Nat.le_refl _) x
  refine ⟨?_, by rw [h2]; exact ht.sound, by rw [h2]; exact ht.nodup, ?_⟩
  · have h0 : (0 : Ptr) ≠ Q := fun h => tree_ne_zero w ht Q sQ hQ h.symm
    rw [h7 0 h0, ht.null]
    split <;> rfl
  · intro p hp
    rw [h2] at hp
    by_cases hpQ : p = Q
    · subst hpQ
      refine ⟨_, h4, h5, ?_, ?_⟩
      · show cl.contents.Nodup
        rw [h6]; exact scanKeep_nodup recvPeek ready w.heap _ _ (Nat.le_refl _) hndQ
      · intro c hc
        have hc' : c ∈ cl.contents := hc
        obtain ⟨hc1, hc2⟩ := (hkeep c).mp hc'
        obtain ⟨hc3, sc, hsc, hc4⟩ := hchQ c hc1
        have hcp : c ≠ p := fun h => hc3 (h ▸ hQm)
        refine ⟨by rw [h2]; exact hc3, sc, ?_, hc4⟩
        rw [h7 c hcp, if_neg (by simp [hc2])]
        exact hsc
    · obtain ⟨s, hs, h1, h2', h3⟩ := ht.top p hp
      have hpc : p ∉ sQ.clients.contents := fun hm => (hchQ p hm).1 hp
      refine ⟨s, ?_, h1, h2', ?_⟩
      · rw [h7 p hpQ, if_neg (fun h => hpc h.1)]; exact hs
      · intro c hc
        obtain ⟨hc1, sc, hsc, hc2, hc3⟩ := h3 c hc
        have hcQ : c ≠ Q := fun h => hc1 (h ▸ hQm)
        have hcc : c ∉ sQ.clients.contents := by
          intro hm
          obtain ⟨_, sc', hsc', hpar, _⟩ := hchQ c hm
          rw [hsc] at hsc'
          cases hsc'
          exact hpQ (hc2.symm.trans hpar)
        refine ⟨by rw [h2]; exact hc1, sc, ?_, hc2, hc3⟩
        rw [h7 c hcQ, if_neg (fun h => hcc h.1)]; exact hsc

theorem serviceEvents_subject (ready : List Int) (Q : Ptr) (sQ : NETSERVICE) (e : Event)
    (q : Ptr) (he : e ∈ serviceEvents ready Q sQ) (hq : e.subject = some q) : q = Q := by
  unfold serviceEvents at he
  split at he
  · split at he
    · simp only [List.mem_singleton] at he
      subst he; simp [Event.subject] at hq; exact hq.symm
    · simp only [List.mem_cons, List.mem_singleton, List.mem_nil_iff, or_false] at he
      rcases he with he | he <;> (subst he; simp [Event.subject] at hq; exact hq.symm)
  · simp at he

theorem dropped_unbound (recvPeek : Int → Int) (ready : List Int) (h : Heap) (Q : Ptr)
    (sQ : NETSERVICE) (hQ : h Q = some sQ) (hfd : sQ.fd = -1) :
    dropped recvPeek ready h Q = false := by
  simp [dropped, hQ, hfd]

theorem dropped_bound (recvPeek : Int → Int) (ready : List Int) (h : Heap) (Q : Ptr)
    (sQ : NETSERVICE) (hQ : h Q = some sQ) (hd : dropped recvPeek ready h Q = true) :
    sQ.fd ≠ -1 := by
  intro hfd
  rw [dropped_unbound recvPeek ready h Q sQ hQ hfd] at hd
  cases hd

theorem visit (incoming : Ptr → World → World) (recvPeek : Int → Int) (ready : List Int)
    (hinc : ∀ p x, incoming p x = x) (w : World) (ht : w.Tree) (i : Nat)
    (hi : i < w.net.services.count) (M fuel : Nat)
    (hM : ∀ q ∈ w.net.services.contents, ∀ s, w.heap q = some s → s.clients.numElements ≤ M)
    (hfuel : M + 4 ≤ fuel) :
    ∃ sQ w', w.net.services.elementAt i ∈ w.net.services.contents ∧
      w.heap (w.net.services.elementAt i) = some sQ ∧
      NETWORK.dispatchService incoming recvPeek ready fuel (w.net.services.elementAt i) w =
        some w' ∧
      Visit recvPeek ready w i (w.net.services.elementAt i) sQ w' := by
  have hQm : w.net.services.elementAt i ∈ w.net.services.contents :=
    elementAt_mem _ i ht.sound hi
  generalize hQdef : w.net.services.elementAt i = Q at hQm ⊢
  obtain ⟨sQ, hQ, hsQ, hndQ, hchQ⟩ := ht.top Q hQm
  have hlen : sQ.clients.contents.length = sQ.clients.numElements :=
    VECTOR.contents_length _ (sound_le _ hsQ)
  by_cases hfd : sQ.fd = -1
  · have hd := dropped_unbound recvPeek ready w.heap Q sQ hQ hfd
    refine ⟨sQ, w, hQm, hQ, dispatchService_unbound _ _ _ _ _ _ _ hQ hfd, ?_⟩
    exact
      { tree := ht
        frame := fun _ _ _ => rfl
        events := ⟨[], by simp, by simp⟩
        count_le := Nat.le_refl _
        subset := fun _ h => h
        fanout := fun q s' h => ⟨s', h, Nat.le_refl _⟩
        stable := rfl
        kept := fun _ => rfl
        gone := fun h => by rw [hd] at h; cases h
        scan := fun h => absurd hfd h }
  · by_cases hd : dropped recvPeek ready w.heap Q = true
    · refine ⟨sQ, w.dropService Q sQ, hQm, hQ, dispatchService_drop _ _ _ _ _ _ _ hQ hd, ?_⟩
      have hcont : (w.dropService Q sQ).net.services.contents =
          eraseSwap w.net.services.contents Q :=
        VECTOR.contents_removeElement _ _ (sound_le _ ht.sound)
      exact
        { tree := tree_dropService w ht Q sQ hQm hQ
          frame := fun q hq _ => by simp only [World.dropService, if_neg hq]
          events := ⟨[Event.peek Q], rfl, by
            intro e he q hq
            simp only [List.mem_singleton] at he
            subst he
            simp [Event.subject] at hq
            exact Or.inl hq.symm⟩
          count_le := (VECTOR.removeFrom_shape _ _ _ _).2.2
          subset := fun q hq => by
            rw [hcont] at hq
            exact mem_of_mem_eraseSwap _ _ _ hq
          fanout := fun q s' h => by
            by_cases hq : q = Q
            · subst hq
              simp only [World.dropService, if_true, Option.some.injEq] at h
              subst h
              exact ⟨sQ, hQ, Nat.le_refl _⟩
            · simp only [World.dropService, if_neg hq] at h
              exact ⟨s', h, Nat.le_refl _⟩
          stable := by
            rw [hcont]
            have hsplit := contents_split_at w.net.services i ht.sound hi
            rw [hQdef] at hsplit
            have hnot : Q ∉ w.net.services.contents.take i := by
              have hnd := ht.nodup
              rw [hsplit] at hnd
              intro hm
              exact (List.nodup_append.mp hnd).2.2 hm (List.mem_cons_self _ _)
            have hl : (w.net.services.contents.take i).length = i := by
              rw [List.length_take, VECTOR.contents_length _ (sound_le _ ht.sound)]
              exact Nat.min_eq_left (Nat.le_of_lt hi)
            conv_lhs => rw [hsplit, eraseSwap_split _ _ _ hnot]
            rw [List.take_append_of_le_length (by omega), List.take_take, Nat.min_self]
          kept := fun h => by rw [hd] at h; cases h
          gone := fun _ => rfl
          scan := fun _ h => by rw [hd] at h; cases h }
    · have hd' : dropped recvPeek ready w.heap Q = false := by simpa using hd
      have hQ0 := tree_ne_zero w ht Q sQ hQ
      obtain ⟨w', cl, h1, h2, h3, h4, h5, h6, h7⟩ :=
        dispatchService_scan incoming recvPeek ready hinc fuel Q w sQ hQ hfd hd' hQ0 hsQ hndQ
          (fun c hc => ⟨fun h => (hchQ c hc).1 (h ▸ hQm), (hchQ c hc).2⟩)
          (by have := hM Q hQm sQ hQ; omega)
      refine ⟨sQ, w', hQm, hQ, h1, ?_⟩
      exact
        { tree := tree_scan recvPeek ready w w' ht Q sQ hQm hQ cl h2 h4 h5 h6 h7
          frame := fun q hq hqc => by rw [h7 q hq, if_neg (fun h => hqc h.1)]
          events := ⟨_, h3, by
            intro e he q hq
            rcases List.mem_append.mp he with he | he
            · exact Or.inl (serviceEvents_subject ready Q sQ e q he hq)
            · exact Or.inr (scanTrace_subject recvPeek ready w.heap _ _ e q he hq)⟩
          count_le := by rw [h2]
          subset := fun q hq => by rw [h2] at hq; exact hq
          fanout := fun q s' h => by
            by_cases hq : q = Q
            · subst hq
              rw [h4] at h
              cases h
              refine ⟨sQ, hQ, ?_⟩
              show cl.numElements ≤ sQ.clients.numElements
              rw [← VECTOR.contents_length _ (sound_le _ h5), h6, ← hlen,
                (scanKeep_perm recvPeek ready w.heap _ _ (Nat.le_refl _)).length_eq]
              exact List.length_filter_le _ _
            · rw [h7 q hq] at h
              split at h
              · cases h
              · exact ⟨s', h, Nat.le_refl _⟩
          stable := by rw [h2]
          kept := fun _ => h2
          gone := fun h => by rw [hd'] at h; cases h
          scan := fun _ _ => ⟨cl, h4, h6, h3, h7⟩ }

theorem dispatch_loop (incoming : Ptr → World → World) (recvPeek : Int → Int)
    (ready : List Int) (Inv : Nat → World → Prop) (M : Nat)
    (hstep : ∀ i w fuel, Inv i w → i < w.net.services.count → M ≤ fuel →
      ∃ w', NETWORK.dispatchService incoming recvPeek ready fuel
          (w.net.services.elementAt i) w = some w' ∧
        Inv (i + 1) w' ∧ w'.net.services.count ≤ w.net.services.count) :
    ∀ n i w fuel, Inv i w → w.net.services.count ≤ i + n → n + M + 1 ≤ fuel →
      ∃ w' i', NETWORK.dispatch incoming recvPeek ready fuel i w = some w' ∧ Inv i' w' ∧
        w'.net.services.count ≤ i' := by
  intro n
  induction n with
  | zero =>
    intro i w fuel hI hc hf
    obtain ⟨f, rfl⟩ : ∃ f, fuel = f + 1 := ⟨fuel - 1, by omega⟩
    have : ¬ i < w.net.services.count := by omega
    exact ⟨w, i, by simp only [NETWORK.dispatch, if_neg this], hI, by omega⟩
  | succ n ih =>
    intro i w fuel hI hc hf
    obtain ⟨f, rfl⟩ : ∃ f, fuel = f + 1 := ⟨fuel - 1, by omega⟩
    by_cases hi : i < w.net.services.count
    · obtain ⟨w1, h1, h2, h3⟩ := hstep i w f hI hi (by omega)
      obtain ⟨w', i', h4, h5, h6⟩ := ih (i + 1) w1 f h2 (by omega) (by omega)
      exact ⟨w', i', by simp only [NETWORK.dispatch, if_pos hi, h1, h4], h5, h6⟩
    · exact ⟨w, i, by simp only [NETWORK.dispatch, if_neg hi], hI, by omega⟩

theorem fanout_bound (h : Heap) (l : List Ptr) :
    ∃ M, ∀ q ∈ l, ∀ s, h q = some s → s.clients.numElements ≤ M := by
  induction l with
  | nil => exact ⟨0, fun q hq => by simp at hq⟩
  | cons p l ih =>
    obtain ⟨M, hM⟩ := ih
    cases hp : h p with
    | none =>
      refine ⟨M, fun q hq s hs => ?_⟩
      rcases List.mem_cons.mp hq with h1 | h1
      · subst h1; rw [hp] at hs; cases hs
      · exact hM q h1 s hs
    | some sp =>
      refine ⟨max M sp.clients.numElements, fun q hq s hs => ?_⟩
      rcases List.mem_cons.mp hq with h1 | h1
      · subst h1; rw [hp] at hs; cases hs; exact Nat.le_max_right _ _
      · exact Nat.le_trans (hM q h1 s hs) (Nat.le_max_left _ _)

theorem dropped_congr (recvPeek : Int → Int) (ready : List Int) (h h' : Heap) (p : Ptr)
    (hp : h p = h' p) : dropped recvPeek ready h p = dropped recvPeek ready h' p := by
  unfold dropped; rw [hp]

theorem run_eq_dispatch (incoming : Ptr → World → World) (select : List Int → Option (List Int))
    (recvPeek : Int → Int) (fuel : Nat) (w : World) (fds ready : List Int)
    (hfds : NETWORK.fdSet w = some fds) (hsel : select fds = some ready) :
    NETWORK.run incoming select recvPeek fuel w =
      NETWORK.dispatch incoming recvPeek ready fuel 0 w := by
  simp only [NETWORK.run, hfds, hsel]

theorem dropped_children_untouched (incoming : Ptr → World → World)
    (select : List Int → Option (List Int)) (recvPeek : Int → Int) (w : World)
    (fds ready : List Int) (P c : Ptr) (sP : NETSERVICE)
    (hinc : ∀ p x, incoming p x = x) (ht : w.Tree)
    (hfds : NETWORK.fdSet w = some fds) (hsel : select fds = some ready)
    (hPm : P ∈ w.net.services.contents) (hP : w.heap P = some sP)
    (hdrop : dropped recvPeek ready w.heap P = true) (hc : c ∈ sP.clients.contents) :
    ∃ N, ∀ fuel, N ≤ fuel →
      ∃ w' evs, NETWORK.run incoming select recvPeek fuel w = some w' ∧
        w'.trace = w.trace ++ evs ∧ Event.peek c ∉ evs ∧ Event.incoming c ∉ evs ∧
        w'.heap c = w.heap c := by
  obtain ⟨M, hM⟩ := fanout_bound w.heap w.net.services.contents
  obtain ⟨sP0, hP0, _, _, hchP⟩ := ht.top P hPm
  rw [hP] at hP0
  cases hP0
  obtain ⟨hcs, sc, hsc, hpar, _⟩ := hchP c hc
  have hcP : c ≠ P := fun h => hcs (h ▸ hPm)
  refine ⟨w.net.services.count + (M + 4) + 1, fun fuel hfuel => ?_⟩
  rw [run_eq_dispatch incoming select recvPeek fuel w fds ready hfds hsel]
  let Inv : Nat → World → Prop := fun _ w1 =>
    w1.Tree ∧
    (∀ q ∈ w1.net.services.contents, ∀ s, w1.heap q = some s → s.clients.numElements ≤ M) ∧
    (∀ q ∈ w1.net.services.contents, q ∈ w.net.services.contents) ∧
    w1.heap c = w.heap c ∧
    (P ∈ w1.net.services.contents → w1.heap P = some sP) ∧
    ∃ evs, w1.trace = w.trace ++ evs ∧ Event.peek c ∉ evs ∧ Event.incoming c ∉ evs
  have hstep : ∀ i w1 fuel, Inv i w1 → i < w1.net.services.count → M + 4 ≤ fuel →
      ∃ w', NETWORK.dispatchService incoming recvPeek ready fuel
          (w1.net.services.elementAt i) w1 = some w' ∧
        Inv (i + 1) w' ∧ w'.net.services.count ≤ w1.net.services.count := by
    intro i w1 fuel hI hi hf
    obtain ⟨ht1, hM1, hsub, hc1, hP1, evs, htr, hpk, hin⟩ := hI
    obtain ⟨sQ, w', hQm, hQ, hrun, hv⟩ :=
      visit incoming recvPeek ready hinc w1 ht1 i hi M fuel hM1 hf
    generalize w1.net.services.elementAt i = Q at hQm hQ hrun hv
    refine ⟨w', hrun, ?_, hv.count_le⟩
    have hcQ : c ≠ Q := fun h => hcs (hsub Q hQm |> fun h' => h ▸ h')
    have hcc : c ∈ sQ.clients.contents → Q = P := by
      intro hm
      obtain ⟨sQ', hQ', _, _, hch⟩ := ht1.top Q hQm
      rw [hQ] at hQ'
      cases hQ'
      obtain ⟨_, sc', hsc', hpar', _⟩ := hch c hm
      rw [hc1, hsc] at hsc'
      cases hsc'
      exact hpar'.symm.trans hpar
    obtain ⟨evs1, htr1, hsubj⟩ := hv.events
    refine ⟨hv.tree, ?_, fun q hq => hsub q (hv.subset q hq), ?_, ?_, ?_⟩
    · intro q hq s' hs'
      obtain ⟨s, hs, hle⟩ := hv.fanout q s' hs'
      exact Nat.le_trans hle (hM1 q (hv.subset q hq) s hs)
    · by_cases hQP : Q = P
      · subst hQP
        have hsQ : sQ = sP := by
          have := hP1 hQm
          rw [hQ] at this
          exact Option.some.inj this
        subst hsQ
        have hd : dropped recvPeek ready w1.heap Q = true := by
          rw [dropped_congr recvPeek ready w1.heap w.heap Q (by rw [hQ, hP])]; exact hdrop
        rw [hv.gone hd]
        simp only [World.dropService, if_neg hcQ]
        exact hc1
      · rw [hv.frame c hcQ (fun hm => hQP (hcc hm))]
        exact hc1
    · intro hPm'
      have hPm1 := hv.subset P hPm'
      by_cases hQP : Q = P
      · subst hQP
        exfalso
        have hsQ : sQ = sP := by
          have := hP1 hQm
          rw [hQ] at this
          exact Option.some.inj this
        subst hsQ
        have hd : dropped recvPeek ready w1.heap Q = true := by
          rw [dropped_congr recvPeek ready w1.heap w.heap Q (by rw [hQ, hP])]; exact hdrop
        rw [hv.gone hd] at hPm'
        have : Q ∈ eraseSwap w1.net.services.contents Q := by
          rw [← VECTOR.contents_removeElement _ _ (sound_le _ ht1.sound)]; exact hPm'
        exact ((mem_eraseSwap_of_nodup _ Q Q ht1.nodup).mp this).1 rfl
      · have hPc : P ∉ sQ.clients.contents := by
          intro hm
          obtain ⟨sQ', hQ', _, _, hch⟩ := ht1.top Q hQm
          rw [hQ] at hQ'
          cases hQ'
          exact (hch P hm).1 hPm1
        rw [hv.frame P (fun h => hQP h.symm) hPc]
        exact hP1 hPm1
    · refine ⟨evs ++ evs1, by rw [htr1, htr, List.append_assoc], ?_, ?_⟩
      · intro hm
        rcases List.mem_append.mp hm with hm | hm
        · exact hpk hm
        · by_cases hQP : Q = P
          · subst hQP
            have hsQ : sQ = sP := by
              have := hP1 hQm
              rw [hQ] at this
              exact Option.some.inj this
            subst hsQ
            have hd : dropped recvPeek ready w1.heap Q = true := by
              rw [dropped_congr recvPeek ready w1.heap w.heap Q (by rw [hQ, hP])]; exact hdrop
            have htr2 := htr1
            rw [hv.gone hd] at htr2
            simp only [World.dropService] at htr2
            have hev : evs1 = [Event.peek Q] := List.append_cancel_left htr2.symm
            rw [hev] at hm
            simp at hm
            exact hcQ hm
          · rcases hsubj _ hm c rfl with h | h
            · exact hcQ h
            · exact hQP (hcc h)
      · intro hm
        rcases List.mem_append.mp hm with hm | hm
        · exact hin hm
        · by_cases hQP : Q = P
          · subst hQP
            have hsQ : sQ = sP := by
              have := hP1 hQm
              rw [hQ] at this
              exact Option.some.inj this
            subst hsQ
            have hd : dropped recvPeek ready w1.heap Q = true := by
              rw [dropped_congr recvPeek ready w1.heap w.heap Q (by rw [hQ, hP])]; exact hdrop
            have htr2 := htr1
            rw [hv.gone hd] at htr2
            simp only [World.dropService] at htr2
            have hev : evs1 = [Event.peek Q] := List.append_cancel_left htr2.symm
            rw [hev] at hm
            simp at hm
          · rcases hsubj _ hm c rfl with h | h
            · exact hcQ h
            · exact hQP (hcc h)
  obtain ⟨w', i', h1, h2, _⟩ :=
    dispatch_loop incoming recvPeek ready Inv (M + 4) hstep w.net.services.count 0 w fuel
      ⟨ht, hM, fun q hq => hq, rfl, fun _ => hP, [], by simp, by simp, by simp⟩
      (by omega) (by omega)
  obtain ⟨_, _, _, hc', _, evs, htr, hpk, hin⟩ := h2
  exact ⟨w', evs, h1, htr, hpk, hin, hc'⟩

theorem drop_elementAt (v : VECTOR) (i : Nat) (hs : v.Sound) (hi : i < v.numElements) :
    v.contents.drop i = v.elementAt i :: v.contents.drop (i + 1) := by
  have hl : (v.contents.take i).length = i := by
    rw [List.length_take, VECTOR.contents_length v (sound_le v hs)]
    exact Nat.min_eq_left (Nat.le_of_lt hi)
  conv_lhs => rw [contents_split_at v i hs hi]
  rw [List.drop_left' hl]

theorem take_succ_elementAt (v : VECTOR) (i : Nat) (hs : v.Sound) (hi : i < v.numElements) :
    v.contents.take (i + 1) = v.contents.take i ++ [v.elementAt i] := by
  have hl : (v.contents.take i).length = i := by
    rw [List.length_take, VECTOR.contents_length v (sound_le v hs)]
    exact Nat.min_eq_left (Nat.le_of_lt hi)
  conv_lhs => rw [contents_split_at v i hs hi]
  rw [List.take_append_eq_append_take, hl]
  simp [List.take_take]

theorem elementAt_not_mem_take (v : VECTOR) (i : Nat) (hs : v.Sound) (hi : i < v.numElements)
    (hnd : v.contents.Nodup) : v.elementAt i ∉ v.contents.take i := by
  intro hm
  rw [contents_split_at v i hs hi] at hnd
  exact (List.nodup_append.mp hnd).2.2 hm (List.mem_cons_self _ _)

theorem elementAt_not_mem_drop (v : VECTOR) (i : Nat) (hs : v.Sound) (hi : i < v.numElements)
    (hnd : v.contents.Nodup) : v.elementAt i ∉ v.contents.drop (i + 1) := by
  intro hm
  rw [contents_split_at v i hs hi] at hnd
  exact (List.nodup_cons.mp (List.nodup_append.mp hnd).2.1).1 hm

theorem clean_nil (ds : List Ptr) : Clean [] ds := fun _ h => by simp at h

theorem clean_append (a b : List Event) (ds : List Ptr) (ha : Clean a ds) (hb : Clean b ds) :
    Clean (a ++ b) ds := by
  intro e he
  rcases List.mem_append.mp he with h | h
  · exact ha e h
  · exact hb e h

/-- The dispatch loop over a two-level tree in which the registered service `P` is bound and
neither `P` nor a service registered before it is dropped: the loop returns, and the scan of
the clients of `P` is the only part of the cycle that touches them. -/
theorem dispatch_reaches (incoming : Ptr → World → World) (recvPeek : Int → Int) (w : World)
    (ready : List Int) (pre post : List Ptr) (P : Ptr) (sP : NETSERVICE)
    (hinc : ∀ p x, incoming p x = x) (ht : w.Tree)
    (hsplit : w.net.services.contents = pre ++ P :: post)
    (hP : w.heap P = some sP) (hbound : sP.fd ≠ -1)
    (hkept : ∀ q ∈ pre ++ [P], dropped recvPeek ready w.heap q = false) :
    ∃ N, ∀ fuel, N ≤ fuel →
      ∃ w' cl evs1 evs2, NETWORK.dispatch incoming recvPeek ready fuel 0 w = some w' ∧
        w'.trace = w.trace ++ (evs1 ++ (serviceEvents ready P sP ++
          scanTrace recvPeek ready w.heap sP.clients.contents.length sP.clients.contents) ++
          evs2) ∧
        Clean evs1 sP.clients.contents ∧ Clean evs2 sP.clients.contents ∧
        w'.heap P = some { sP with clients := cl } ∧ cl.Sound ∧
        cl.contents =
          scanKeep recvPeek ready w.heap sP.clients.contents.length sP.clients.contents ∧
        ∀ d ∈ sP.clients.contents,
          w'.heap d = if doomed recvPeek ready w.heap d = true then none else w.heap d := by
  obtain ⟨M, hM⟩ := fanout_bound w.heap w.net.services.contents
  have hPm : P ∈ w.net.services.contents := by rw [hsplit]; simp
  obtain ⟨sP0, hP0, hsP, hndP, hchP⟩ := ht.top P hPm
  rw [hP] at hP0
  cases hP0
  have hndL : (pre ++ P :: post).Nodup := hsplit ▸ ht.nodup
  have hPpre : P ∉ pre := fun hm =>
    (List.nodup_append.mp hndL).2.2 hm (List.mem_cons_self _ _)
  refine ⟨w.net.services.count + (M + 4) + 1, fun fuel hfuel => ?_⟩
  let Inv : Nat → World → Prop := fun i w1 =>
    w1.Tree ∧
    (∀ q ∈ w1.net.services.contents, ∀ s, w1.heap q = some s → s.clients.numElements ≤ M) ∧
    w1.net.services.contents.take (pre.length + 1) = pre ++ [P] ∧
    (i ≤ pre.length →
      w1.net.services.contents = pre ++ P :: post ∧
      (∀ q ∈ (pre ++ P :: post).drop i, w1.heap q = w.heap q) ∧
      (∀ d ∈ sP.clients.contents, w1.heap d = w.heap d) ∧
      ∃ evs1, w1.trace = w.trace ++ evs1 ∧ Clean evs1 sP.clients.contents) ∧
    (pre.length < i →
      ∃ cl evs1 evs2, w1.heap P = some { sP with clients := cl } ∧
        cl.contents =
          scanKeep recvPeek ready w.heap sP.clients.contents.length sP.clients.contents ∧
        (∀ d ∈ sP.clients.contents,
          w1.heap d = if doomed recvPeek ready w.heap d = true then none else w.heap d) ∧
        w1.trace = w.trace ++ (evs1 ++ (serviceEvents ready P sP ++
          scanTrace recvPeek ready w.heap sP.clients.contents.length sP.clients.contents) ++
          evs2) ∧
        Clean evs1 sP.clients.contents ∧ Clean evs2 sP.clients.contents)
  have hstep : ∀ i w1 fuel, Inv i w1 → i < w1.net.services.count → M + 4 ≤ fuel →
      ∃ w', NETWORK.dispatchService incoming recvPeek ready fuel
          (w1.net.services.elementAt i) w1 = some w' ∧
        Inv (i + 1) w' ∧ w'.net.services.count ≤ w1.net.services.count := by
    intro i w1 fuel hI hi hf
    obtain ⟨ht1, hM1, htake, hph1, hph2⟩ := hI
    obtain ⟨sQ, w', hQm, hQ, hrun, hv⟩ :=
      visit incoming recvPeek ready hinc w1 ht1 i hi M fuel hM1 hf
    have hdropQ := drop_elementAt w1.net.services i ht1.sound hi
    have htakeQ := take_succ_elementAt w1.net.services i ht1.sound hi
    have hQnt := elementAt_not_mem_take w1.net.services i ht1.sound hi ht1.nodup
    have hQnd := elementAt_not_mem_drop w1.net.services i ht1.sound hi ht1.nodup
    generalize w1.net.services.elementAt i = Q at hQm hQ hrun hv hdropQ htakeQ hQnt hQnd
    refine ⟨w', hrun, ?_, hv.count_le⟩
    obtain ⟨sQ', hQ', _, _, hchQ⟩ := ht1.top Q hQm
    rw [hQ] at hQ'
    cases hQ'
    have hPm1 : P ∈ w1.net.services.contents := by
      apply List.mem_of_mem_take (n := pre.length + 1)
      rw [htake]; simp
    have hPcQ : P ∉ sQ.clients.contents := fun hm => (hchQ P hm).1 hPm1
    obtain ⟨evsQ, htrQ, hsubj⟩ := hv.events
    have hbnd : ∀ q ∈ w'.net.services.contents, ∀ s, w'.heap q = some s →
        s.clients.numElements ≤ M := by
      intro q hq s' hs'
      obtain ⟨s, hs, hle⟩ := hv.fanout q s' hs'
      exact Nat.le_trans hle (hM1 q (hv.subset q hq) s hs)
    -- the events of this pass are about no client of `P` once `Q` is another service
    have hcleanQ : (∀ d ∈ sP.clients.contents, d ≠ Q ∧ d ∉ sQ.clients.contents) →
        Clean evsQ sP.clients.contents := by
      intro hchild e he d hd0 hsub
      rcases hsubj e he d hsub with h | h
      · exact (hchild d hd0).1 h
      · exact (hchild d hd0).2 h
    rcases Nat.lt_trichotomy i pre.length with hlt | heq | hgt
    · -- a service registered before `P`
      obtain ⟨hcont, hheap, hch, evs1, htr, hcl⟩ := hph1 (Nat.le_of_lt hlt)
      have hQpre : Q ∈ pre := by
        have h1 : Q ∈ w1.net.services.contents.take (i + 1) := by rw [htakeQ]; simp
        rw [hcont, List.take_append_of_le_length (by omega)] at h1
        exact List.mem_of_mem_take h1
      have hQP : Q ≠ P := fun h => hPpre (h ▸ hQpre)
      have hQeq : w1.heap Q = w.heap Q := by
        apply hheap
        rw [← hcont, hdropQ]; simp
      have hd : dropped recvPeek ready w1.heap Q = false := by
        rw [dropped_congr recvPeek ready w1.heap w.heap Q hQeq]
        exact hkept Q (List.mem_append_left _ hQpre)
      have hnet := hv.kept hd
      have hchild : ∀ d ∈ sP.clients.contents, d ≠ Q ∧ d ∉ sQ.clients.contents := by
        intro d hd0
        obtain ⟨hd1, sd, hsd, hpar, _⟩ := hchP d hd0
        refine ⟨fun h => hd1 (by rw [h, hsplit, ← hcont]; exact hQm), fun hm => ?_⟩
        obtain ⟨_, sd', hsd', hpar', _⟩ := hchQ d hm
        rw [hch d hd0, hsd] at hsd'
        cases hsd'
        exact hQP (hpar'.symm.trans hpar)
      refine ⟨hv.tree, hbnd, by rw [hnet]; exact htake, ?_, fun h => by omega⟩
      intro _
      refine ⟨by rw [hnet]; exact hcont, ?_, ?_, evs1 ++ evsQ,
        by rw [htrQ, htr, List.append_assoc], clean_append _ _ _ hcl (hcleanQ hchild)⟩
      · intro q hq
        have hq0 : q ∈ (pre ++ P :: post).drop i := by
          rw [← hcont, hdropQ]
          rw [← hcont] at hq
          exact List.mem_cons_of_mem _ hq
        have hqQ : q ≠ Q := by
          intro h
          rw [← hcont, h] at hq
          exact hQnd hq
        have hqm : q ∈ w1.net.services.contents := by
          rw [hcont]; exact List.mem_of_mem_drop hq
        rw [hv.frame q hqQ (fun hm => (hchQ q hm).1 hqm)]
        exact hheap q hq0
      · intro d hd0
        rw [hv.frame d (hchild d hd0).1 (hchild d hd0).2]
        exact hch d hd0
    · -- the service `P` itself
      subst heq
      obtain ⟨hcont, hheap, hch, evs1, htr, hcl⟩ := hph1 (Nat.le_refl _)
      have hQP : Q = P := by
        have h1 := hdropQ
        rw [hcont, List.drop_left] at h1
        exact (List.cons.inj h1).1.symm
      subst hQP
      have hQeq : w1.heap Q = w.heap Q := by
        apply hheap
        rw [List.drop_left]; simp
      have hsQ : sQ = sP := by
        rw [hQ, hP] at hQeq
        exact Option.some.inj hQeq
      subst hsQ
      have hd : dropped recvPeek ready w1.heap Q = false := by
        rw [dropped_congr recvPeek ready w1.heap w.heap Q hQeq]
        exact hkept Q (by simp)
      have hnet := hv.kept hd
      obtain ⟨cl, h4, h6, h3, h7⟩ := hv.scan hbound hd
      have hk : scanKeep recvPeek ready w1.heap sQ.clients.contents.length
          sQ.clients.contents =
          scanKeep recvPeek ready w.heap sQ.clients.contents.length sQ.clients.contents :=
        scanKeep_congr recvPeek ready w1.heap w.heap _ _ hch
      have hs : scanTrace recvPeek ready w1.heap sQ.clients.contents.length
          sQ.clients.contents =
          scanTrace recvPeek ready w.heap sQ.clients.contents.length sQ.clients.contents :=
        scanTrace_congr recvPeek ready w1.heap w.heap _ _ hch
      have hdm : ∀ d ∈ sQ.clients.contents,
          doomed recvPeek ready w1.heap d = doomed recvPeek ready w.heap d :=
        fun d hd0 => doomed_congr recvPeek ready w1.heap w.heap d (hch d hd0)
      refine ⟨hv.tree, hbnd, by rw [hnet]; exact htake, fun h => by omega, ?_⟩
      intro _
      refine ⟨cl, evs1, [], h4, by rw [h6, hk], ?_, ?_, hcl, clean_nil _⟩
      · intro d hd0
        have hdP : d ≠ Q := fun h => (hchP d hd0).1 (h ▸ hPm)
        rw [h7 d hdP, hdm d hd0, hch d hd0]
        simp [hd0]
      · rw [h3, htr, hs]
        simp
    · -- a service after `P`
      obtain ⟨cl, evs1, evs2, hPcl, hclc, hheapd, htr, hcl1, hcl2⟩ := hph2 hgt
      have hQP : Q ≠ P := by
        intro h
        apply hQnt
        rw [h]
        have h1 : P ∈ w1.net.services.contents.take (pre.length + 1) := by rw [htake]; simp
        have h2 : w1.net.services.contents.take (pre.length + 1) =
            (w1.net.services.contents.take i).take (pre.length + 1) := by
          rw [List.take_take, Nat.min_eq_left (by omega)]
        rw [h2] at h1
        exact List.mem_of_mem_take h1
      obtain ⟨sP1, hP1, _, _, hchP1⟩ := ht1.top P hPm1
      rw [hPcl] at hP1
      cases hP1
      have hchild : ∀ d ∈ sP.clients.contents, d ≠ Q ∧ d ∉ sQ.clients.contents := by
        intro d hd0
        by_cases hdd : doomed recvPeek ready w.heap d = true
        · have hnone : w1.heap d = none := by rw [hheapd d hd0, if_pos hdd]
          refine ⟨fun h => ?_, fun hm => ?_⟩
          · rw [h, hQ] at hnone
            cases hnone
          · obtain ⟨_, sd', hsd', _⟩ := hchQ d hm
            rw [hnone] at hsd'
            cases hsd'
        · have hdd' : doomed recvPeek ready w.heap d = false := by simpa using hdd
          have hdcl : d ∈ cl.contents := by
            rw [hclc]
            exact (mem_scanKeep recvPeek ready w.heap _ _ (Nat.le_refl _) d).mpr ⟨hd0, hdd'⟩
          obtain ⟨hd2, sd, hsd, hpar, _⟩ := hchP1 d hdcl
          refine ⟨fun h => hd2 (h ▸ hQm), fun hm => ?_⟩
          obtain ⟨_, sd', hsd', hpar', _⟩ := hchQ d hm
          rw [hsd] at hsd'
          cases hsd'
          exact hQP (hpar'.symm.trans hpar)
      refine ⟨hv.tree, hbnd, ?_, fun h => by omega, ?_⟩
      · have h2 : ∀ l : List Ptr, l.take (pre.length + 1) = (l.take i).take (pre.length + 1) := by
          intro l
          rw [List.take_take, Nat.min_eq_left (by omega)]
        rw [h2, hv.stable, ← h2]
        exact htake
      · intro _
        refine ⟨cl, evs1, evs2 ++ evsQ,
          by rw [hv.frame P (fun h => hQP h.symm) hPcQ]; exact hPcl, hclc, ?_, ?_, hcl1,
          clean_append _ _ _ hcl2 (hcleanQ hchild)⟩
        · intro d hd0
          rw [hv.frame d (hchild d hd0).1 (hchild d hd0).2]
          exact hheapd d hd0
        · rw [htrQ, htr]
          simp
  obtain ⟨w', i', h1, h2, h3⟩ :=
    dispatch_loop incoming recvPeek ready Inv (M + 4) hstep w.net.services.count 0 w fuel
      ⟨ht, hM, by rw [hsplit]; simp [List.take_append_eq_append_take],
        fun _ => ⟨hsplit, fun _ _ => rfl, fun _ _ => rfl, [], by simp, clean_nil _⟩,
        fun h => by omega⟩
      (by omega) (by omega)
  obtain ⟨ht', _, htake, _, hph2⟩ := h2
  have hlen : pre.length < i' := by
    have h4 : (w'.net.services.contents.take (pre.length + 1)).length = pre.length + 1 := by
      rw [htake]; simp
    rw [List.length_take, VECTOR.contents_length _ (sound_le _ ht'.sound)] at h4
    unfold VECTOR.count at h3
    omega
  obtain ⟨cl, evs1, evs2, hPcl, hclc, hheapd, htr, hcl1, hcl2⟩ := hph2 hlen
  have hPm' : P ∈ w'.net.services.contents := by
    apply List.mem_of_mem_take (n := pre.length + 1)
    rw [htake]; simp
  obtain ⟨sP1, hP1, hscl, _, _⟩ := ht'.top P hPm'
  rw [hPcl] at hP1
  cases hP1
  exact ⟨w', cl, evs1, evs2, h1, htr, hcl1, hcl2, hPcl, hscl, hclc, hheapd⟩

theorem tree_of_check (w : World) (h : w.treeCheck = true) : w.Tree := by
  unfold World.treeCheck at h
  simp only [Bool.and_eq_true, decide_eq_true_eq, List.all_eq_true, Option.isNone_iff_eq_none]
    at h
  obtain ⟨h0, h1, h2, h3⟩ := h
  refine ⟨h0, h1, h2, fun p hp => ?_⟩
  have hp3 := h3 p hp
  split at hp3
  · cases hp3
  · next s hs =>
    simp only [Bool.and_eq_true, decide_eq_true_eq, List.all_eq_true] at hp3
    obtain ⟨h4, h5, h6⟩ := hp3
    refine ⟨s, hs, h4, h5, fun c hc => ?_⟩
    obtain ⟨h7, h8⟩ := h6 c hc
    refine ⟨h7, ?_⟩
    split at h8
    · cases h8
    · next sc hsc =>
      simp only [Bool.and_eq_true, decide_eq_true_eq] at h8
      exact ⟨sc, hsc, h8.1, h8.2⟩

theorem peek_mem_scanTrace (recvPeek : Int → Int) (ready : List Int) (h : Heap) (n : Nat)
    (u : List Ptr) (x : Ptr) (sx : NETSERVICE) (hn : u.length ≤ n) (hx : x ∈ u)
    (hsx : h x = some sx) (hb : sx.fd ≠ -1) (hr : sx.fd ∈ ready) :
    Event.peek x ∈ scanTrace recvPeek ready h n u := by
  induction n generalizing u with
  | zero =>
    have : u = [] := List.length_eq_zero.mp (by omega)
    subst this
    simp at hx
  | succ n ih =>
    cases u with
    | nil => simp at hx
    | cons c b =>
      have hbl : b.length ≤ n := by simp at hn; omega
      simp only [scanTrace, List.mem_append]
      by_cases hxc : x = c
      · subst hxc
        left
        simp [clientEvents, hsx, hb, hr]
      · right
        have hxb : x ∈ b := by
          rcases List.mem_cons.mp hx with h1 | h1
          · exact absurd h1 hxc
          · exact h1
        split
        · exact ih _ (by rw [lastFirst_length]; exact hbl) ((mem_lastFirst b x).mpr hxb)
        · exact ih _ hbl hxb

theorem incoming_mem_scanTrace_of_data (recvPeek : Int → Int) (ready : List Int) (h : Heap)
    (n : Nat) (u : List Ptr) (x : Ptr) (sx : NETSERVICE) (hn : u.length ≤ n) (hx : x ∈ u)
    (hsx : h x = some sx) (hb : sx.fd ≠ -1) (hr : sx.fd ∈ ready)
    (hv : peekValue recvPeek sx.fd ≠ 0) :
    Event.incoming x ∈ scanTrace recvPeek ready h n u := by
  induction n generalizing u with
  | zero =>
    have : u = [] := List.length_eq_zero.mp (by omega)
    subst this
    simp at hx
  | succ n ih =>
    cases u with
    | nil => simp at hx
    | cons c b =>
      have hbl : b.length ≤ n := by simp at hn; omega
      simp only [scanTrace, List.mem_append]
      by_cases hxc : x = c
      · subst hxc
        left
        simp [clientEvents, hsx, hb, hr, hv]
      · right
        have hxb : x ∈ b := by
          rcases List.mem_cons.mp hx with h1 | h1
          · exact absurd h1 hxc
          · exact h1
        split
        · exact ih _ (by rw [lastFirst_length]; exact hbl) ((mem_lastFirst b x).mpr hxb)
        · exact ih _ hbl hxb

/-- C6 (amended): in one run() cycle over a two-level service tree whose readiness wait
succeeds (handlers leave the services alone), let `P` be a registered bound service such that
neither `P` nor a service registered before it is unbound and unregistered in this cycle.
Then for every child `c` of `P` that is bound and ready but whose probe reports no data, the
handler of `c` is not invoked, `c` is destroyed, and after the cycle `c` does not occur in the
child collection of `P`, whose count has dropped by exactly one per such child while every
other child remains, unchanged. -/
theorem C6_dead_child_destroyed_and_removed (incoming : Ptr → World → World)
    (select : List Int → Option (List Int)) (recvPeek : Int → Int) (w : World)
    (fds ready : List Int) (pre post : List Ptr) (P c : Ptr) (sP : NETSERVICE)
    (hinc : ∀ p x, incoming p x = x) (ht : w.Tree)
    (hfds : NETWORK.fdSet w = some fds) (hsel : select fds = some ready)
    (hsplit : w.net.services.contents = pre ++ P :: post)
    (hP : w.heap P = some sP) (hbound : sP.fd ≠ -1)
    (hkept : ∀ q ∈ pre ++ [P], dropped recvPeek ready w.heap q = false)
    (hc : c ∈ sP.clients.contents) (hdoom : doomed recvPeek ready w.heap c = true) :
    ∃ N, ∀ fuel, N ≤ fuel →
      ∃ w' evs sP', NETWORK.run incoming select recvPeek fuel w = some w' ∧
        w'.trace = w.trace ++ evs ∧ Event.incoming c ∉ evs ∧ Event.delete c ∈ evs ∧
        w'.heap c = none ∧ w'.heap P = some sP' ∧ c ∉ sP'.clients.contents ∧
        sP'.clients.count +
            (sP.clients.contents.filter (doomed recvPeek ready w.heap)).length =
          sP.clients.count ∧
        ∀ d ∈ sP.clients.contents, doomed recvPeek ready w.heap d = false →
          d ∈ sP'.clients.contents ∧ w'.heap d = w.heap d := by
  obtain ⟨N, hN⟩ := dispatch_reaches incoming recvPeek w ready pre post P sP hinc ht hsplit hP
    hbound hkept
  have hPm : P ∈ w.net.services.contents := by rw [hsplit]; simp
  obtain ⟨sP0, hP0, hsP, _, hchP⟩ := ht.top P hPm
  rw [hP] at hP0
  cases hP0
  have hcP : c ≠ P := fun h => (hchP c hc).1 (h ▸ hPm)
  refine ⟨N, fun fuel hfuel => ?_⟩
  obtain ⟨w', cl, evs1, evs2, hrun, htr, hcl1, hcl2, hPcl, hscl, hclc, hheapd⟩ := hN fuel hfuel
  rw [run_eq_dispatch incoming select recvPeek fuel w fds ready hfds hsel]
  refine ⟨w', _, { sP with clients := cl }, hrun, htr, ?_, ?_, ?_, hPcl, ?_, ?_, ?_⟩
  · intro hm
    rcases List.mem_append.mp hm with hm | hm
    · rcases List.mem_append.mp hm with hm | hm
      · exact hcl1 _ hm c hc rfl
      · rcases List.mem_append.mp hm with hm | hm
        · exact hcP (serviceEvents_subject ready P sP _ c hm rfl)
        · have := incoming_mem_scanTrace recvPeek ready w.heap _ _ c hm
          rw [hdoom] at this
          cases this
    · exact hcl2 _ hm c hc rfl
  · apply List.mem_append_left
    apply List.mem_append_right
    apply List.mem_append_right
    exact delete_mem_scanTrace recvPeek ready w.heap _ _ c (Nat.le_refl _) hc hdoom
  · rw [hheapd c hc, if_pos hdoom]
  · intro hm
    have hm' : c ∈ cl.contents := hm
    rw [hclc, mem_scanKeep recvPeek ready w.heap _ _ (Nat.le_refl _) c, hdoom] at hm'
    cases hm'.2
  · show cl.numElements + _ = sP.clients.numElements
    have hsum := List.length_eq_length_filter_add (l := sP.clients.contents)
      (doomed recvPeek ready w.heap)
    rw [← VECTOR.contents_length _ (sound_le _ hscl), hclc,
      (scanKeep_perm recvPeek ready w.heap _ _ (Nat.le_refl _)).length_eq,
      ← VECTOR.contents_length _ (sound_le _ hsP)]
    omega
  · intro d hd0 hd1
    refine ⟨?_, by rw [hheapd d hd0, hd1]; simp⟩
    show d ∈ cl.contents
    rw [hclc]
    exact (mem_scanKeep recvPeek ready w.heap _ _ (Nat.le_refl _) d).mpr ⟨hd0, hd1⟩

/-- C9 (amended): in one run() cycle over a two-level service tree whose readiness wait
succeeds (handlers leave the services alone), let `P` be a registered bound service that the
scan reaches (no service registered before it is unbound and unregistered in this cycle) and
`c` a child of `P` whose descriptor is bound and ready. When `P` is not unbound and
unregistered in this cycle (it was not ready, or its handler was invoked), `c` is probed, and
its handler is invoked exactly when the probe finds data. When `P` is unbound and unregistered
in this cycle because its probe failed, `c` is neither probed nor dispatched and stays as it
was. -/
theorem C9_children_scanned_unless_service_dropped (incoming : Ptr → World → World)
    (select : List Int → Option (List Int)) (recvPeek : Int → Int) (w : World)
    (fds ready : List Int) (pre post : List Ptr) (P c : Ptr) (sP sc : NETSERVICE)
    (hinc : ∀ p x, incoming p x = x) (ht : w.Tree)
    (hfds : NETWORK.fdSet w = some fds) (hsel : select fds = some ready)
    (hsplit : w.net.services.contents = pre ++ P :: post)
    (hP : w.heap P = some sP) (hbound : sP.fd ≠ -1)
    (hkept : ∀ q ∈ pre, dropped recvPeek ready w.heap q = false)
    (hc : c ∈ sP.clients.contents) (hsc : w.heap c = some sc)
    (hcb : sc.fd ≠ -1) (hcr : sc.fd ∈ ready) :
    ∃ N, ∀ fuel, N ≤ fuel →
      ∃ w' evs, NETWORK.run incoming select recvPeek fuel w = some w' ∧
        w'.trace = w.trace ++ evs ∧
        (dropped recvPeek ready w.heap P = false →
          Event.peek c ∈ evs ∧
          (Event.incoming c ∈ evs ↔ peekValue recvPeek sc.fd ≠ 0)) ∧
        (dropped recvPeek ready w.heap P = true →
          Event.peek c ∉ evs ∧ Event.incoming c ∉ evs ∧ w'.heap c = w.heap c) := by
  have hPm : P ∈ w.net.services.contents := by rw [hsplit]; simp
  by_cases hd : dropped recvPeek ready w.heap P = true
  · obtain ⟨N, hN⟩ := dropped_children_untouched incoming select recvPeek w fds ready P c sP
      hinc ht hfds hsel hPm hP hd hc
    refine ⟨N, fun fuel hfuel => ?_⟩
    obtain ⟨w', evs, hrun, htr, h1, h2, h3⟩ := hN fuel hfuel
    exact ⟨w', evs, hrun, htr, (fun h => by rw [hd] at h; cases h), fun _ => ⟨h1, h2, h3⟩⟩
  · have hd' : dropped recvPeek ready w.heap P = false := by simpa using hd
    have hkept' : ∀ q ∈ pre ++ [P], dropped recvPeek ready w.heap q = false := by
      intro q hq
      rcases List.mem_append.mp hq with h | h
      · exact hkept q h
      · rw [List.mem_singleton.mp h]; exact hd'
    obtain ⟨N, hN⟩ := dispatch_reaches incoming recvPeek w ready pre post P sP hinc ht hsplit
      hP hbound hkept'
    obtain ⟨sP0, hP0, _, _, hchP⟩ := ht.top P hPm
    rw [hP] at hP0
    cases hP0
    have hcP : c ≠ P := fun h => (hchP c hc).1 (h ▸ hPm)
    refine ⟨N, fun fuel hfuel => ?_⟩
    obtain ⟨w', cl, evs1, evs2, hrun, htr, hcl1, hcl2, _, _, _, _⟩ := hN fuel hfuel
    rw [run_eq_dispatch incoming select recvPeek fuel w fds ready hfds hsel]
    refine ⟨w', _, hrun, htr, fun _ => ⟨?_, ?_, ?_⟩, fun h => by rw [hd'] at h; cases h⟩
    · apply List.mem_append_left
      apply List.mem_append_right
      apply List.mem_append_right
      exact peek_mem_scanTrace recvPeek ready w.heap _ _ c sc (Nat.le_refl _) hc hsc hcb hcr
    · intro hm hv
      rcases List.mem_append.mp hm with hm | hm
      · rcases List.mem_append.mp hm with hm | hm
        · exact hcl1 _ hm c hc rfl
        · rcases List.mem_append.mp hm with hm | hm
          · exact hcP (serviceEvents_subject ready P sP _ c hm rfl)
          · have := incoming_mem_scanTrace recvPeek ready w.heap _ _ c hm
            simp [doomed, hsc, hcb, hcr, hv] at this
      · exact hcl2 _ hm c hc rfl
    · intro hv
      apply List.mem_append_left
      apply List.mem_append_right
      apply List.mem_append_right
      exact incoming_mem_scanTrace_of_data recvPeek ready w.heap _ _ c sc (Nat.le_refl _) hc
        hsc hcb hcr hv

theorem C9_children_scanned_unless_service_dropped_witness :
    ∃ N, ∀ fuel, N ≤ fuel →
      ∃ w' evs, NETWORK.run idle allReady (fun _ => 0) fuel clientWithChild = some w' ∧
        w'.trace = clientWithChild.trace ++ evs ∧
        (dropped (fun _ => 0) [3, 4] clientWithChild.heap 1 = false →
          Event.peek 2 ∈ evs ∧
          (Event.incoming 2 ∈ evs ↔
            peekValue (fun _ => 0) (NETSERVICE.bound NETSERVICE_CLIENT 4 [] 1).fd ≠ 0)) ∧
        (dropped (fun _ => 0) [3, 4] clientWithChild.heap 1 = true →
          Event.peek 2 ∉ evs ∧ Event.incoming 2 ∉ evs ∧
          w'.heap 2 = clientWithChild.heap 2) :=
  C9_children_scanned_unless_service_dropped idle allReady (fun _ => 0) clientWithChild
    [3, 4] [3, 4] [] [] 1 2 (NETSERVICE.bound NETSERVICE_CLIENT 3 [2] 0)
    (NETSERVICE.bound NETSERVICE_CLIENT 4 [] 1) (fun _ _ => rfl)
    (tree_of_check _ (by decide)) (by decide) rfl (by decide) rfl (by decide) (by decide)
    (by decide) rfl (by decide) (by decide)

theorem C6_dead_child_destroyed_and_removed_witness :
    ∃ N, ∀ fuel, N ≤ fuel →
      ∃ w' evs sP', NETWORK.run idle allReady quietOn4 fuel serverTwoChildren = some w' ∧
        w'.trace = serverTwoChildren.trace ++ evs ∧ Event.incoming 2 ∉ evs ∧
        Event.delete 2 ∈ evs ∧ w'.heap 2 = none ∧ w'.heap 1 = some sP' ∧
        2 ∉ sP'.clients.contents ∧
        sP'.clients.count +
            ((NETSERVICE.bound NETSERVICE_SERVER 3 [2, 3] 0).clients.contents.filter
              (doomed quietOn4 [3, 4, 5] serverTwoChildren.heap)).length =
          (NETSERVICE.bound NETSERVICE_SERVER 3 [2, 3] 0).clients.count ∧
        ∀ d ∈ (NETSERVICE.bound NETSERVICE_SERVER 3 [2, 3] 0).clients.contents,
          doomed quietOn4 [3, 4, 5] serverTwoChildren.heap d = false →
            d ∈ sP'.clients.contents ∧ w'.heap d = serverTwoChildren.heap d :=
  C6_dead_child_destroyed_and_removed idle allReady quietOn4 serverTwoChildren
    [3, 4, 5] [3, 4, 5] [] [] 1 2 (NETSERVICE.bound NETSERVICE_SERVER 3 [2, 3] 0)
    (fun _ _ => rfl) (tree_of_check _ (by decide)) (by decide) rfl (by decide) rfl
    (by decide) (by decide) (by decide) (by decide)

/-! ## The socket calls -/

/-- C11: when `select` fails, `NETWORK::run()` returns at once with the world as it was: no
event is logged (no handler invoked, nothing probed) and the registered services, every
descriptor and every child collection are unchanged. -/
theorem C11_select_failure_changes_nothing (incoming : Ptr → World → World)
    (select : List Int → Option (List Int)) (recvPeek : Int → Int) (w : World)
    (hl : ∀ p ∈ w.net.services.contents, ∃ s, w.heap p = some s ∧
      ∀ c ∈ s.clients.contents, ∃ sc, w.heap c = some sc)
    (hsel : ∀ fds, NETWORK.fdSet w = some fds → select fds = none) (fuel : Nat) :
    NETWORK.run incoming select recvPeek fuel w = some w := by
  obtain ⟨fds, hf, -⟩ := fdSetServices_spec w.heap w.net.services.contents [] hl
  have hf2 : NETWORK.fdSet w = some fds := hf
  simp only [NETWORK.run, hf2, hsel fds hf2]

theorem C11_select_failure_changes_nothing_witness :
    NETWORK.run (fun _ w => w.log (.incoming 9)) (fun _ => none) (fun _ => 1) 0 twoClients =
      some twoClients :=
  C11_select_failure_changes_nothing _ _ _ twoClients (by
    intro p hp
    have hp1 : p = 1 ∨ p = 2 := by
      have : twoClients.net.services.contents = [1, 2] := by decide
      rw [this] at hp
      simpa using hp
    rcases hp1 with rfl | rfl
    · exact ⟨_, rfl, fun c hc => by
        have : (NETSERVICE.bound NETSERVICE_CLIENT 3 [] 0).clients.contents = [] := by decide
        rw [this] at hc
        cases hc⟩
    · exact ⟨_, rfl, fun c hc => by
        have : (NETSERVICE.bound NETSERVICE_CLIENT 4 [] 0).clients.contents = [] := by decide
        rw [this] at hc
        cases hc⟩) (fun _ _ => rfl) 0

/-- C14: on a live service, `recv` and `send` leave the world as it was; on an unbound service
they return 0 and make no call; on a bound one they make the one transfer call and return 0
when it reports `-1` and its byte count otherwise; the result is never negative (the transfer
calls return `-1` or a count). -/
theorem C14_recv_send_counts (os : OS) (this : Ptr) (len : Int) (w : World) (s : NETSERVICE)
    (hs : w.heap this = some s)
    (hrecv : ∀ d l, -1 ≤ os.recv d l) (hsend : ∀ d l, -1 ≤ os.send d l) :
    (∃ r calls, NETSERVICE.recv os this len w = some (r, w, calls) ∧ 0 ≤ r ∧
      (s.fd = -1 → r = 0 ∧ calls = []) ∧
      (s.fd ≠ -1 → calls = [.recv s.fd len] ∧
        (os.recv s.fd len = -1 → r = 0) ∧ (os.recv s.fd len ≠ -1 → r = os.recv s.fd len))) ∧
    (∃ r calls, NETSERVICE.send os this len w = some (r, w, calls) ∧ 0 ≤ r ∧
      (s.fd = -1 → r = 0 ∧ calls = []) ∧
      (s.fd ≠ -1 → calls = [.send s.fd len] ∧
        (os.send s.fd len = -1 → r = 0) ∧ (os.send s.fd len ≠ -1 → r = os.send s.fd len))) := by
  constructor
  · by_cases hfd : s.fd = -1
    · exact ⟨0, [], by simp only [NETSERVICE.recv, hs, if_pos hfd], le_refl _,
        fun _ => ⟨rfl, rfl⟩, fun h => absurd hfd h⟩
    · refine ⟨if os.recv s.fd len = -1 then 0 else os.recv s.fd len, [.recv s.fd len],
        by simp only [NETSERVICE.recv, hs, if_neg hfd], ?_, fun h => absurd h hfd,
        fun _ => ⟨rfl, fun h => if_pos h, fun h => if_neg h⟩⟩
      have := hrecv s.fd len
      split <;> omega
  · by_cases hfd : s.fd = -1
    · exact ⟨0, [], by simp only [NETSERVICE.send, hs, if_pos hfd], le_refl _,
        fun _ => ⟨rfl, rfl⟩, fun h => absurd hfd h⟩
    · refine ⟨if os.send s.fd len = -1 then 0 else os.send s.fd len, [.send s.fd len],
        by simp only [NETSERVICE.send, hs, if_neg hfd], ?_, fun h => absurd h hfd,
        fun _ => ⟨rfl, fun h => if_pos h, fun h => if_neg h⟩⟩
      have := hsend s.fd len
      split <;> omega

theorem C14_recv_send_counts_witness :
    (∃ r calls, NETSERVICE.recv failingOS 1 64 twoClients = some (r, twoClients, calls) ∧ 0 ≤ r ∧
      ((3 : Int) = -1 → r = 0 ∧ calls = []) ∧
      ((3 : Int) ≠ -1 → calls = [.recv 3 64] ∧
        (failingOS.recv 3 64 = -1 → r = 0) ∧
        (failingOS.recv 3 64 ≠ -1 → r = failingOS.recv 3 64))) ∧
    (∃ r calls, NETSERVICE.send failingOS 1 64 twoClients = some (r, twoClients, calls) ∧ 0 ≤ r ∧
      ((3 : Int) = -1 → r = 0 ∧ calls = []) ∧
      ((3 : Int) ≠ -1 → calls = [.send 3 64] ∧
        (failingOS.send 3 64 = -1 → r = 0) ∧
        (failingOS.send 3 64 ≠ -1 → r = failingOS.send 3 64))) :=
  C14_recv_send_counts failingOS 1 64 twoClients (NETSERVICE.bound NETSERVICE_CLIENT 3 [] 0) rfl
    (fun _ _ => le_refl _) (fun _ _ => le_refl _)

/-- C15 (code defect): on a service bound to descriptor 3 whose formatted write fails, `sendf` makes the one
`vfprintf` call and returns its negative result as it is. -/
theorem C15_sendf_returns_negative_count :
    (NETSERVICE.sendf failingOS 1 twoClients).map (fun r => (r.1, r.2.2)) =
      some (-1, [.vfprintf (some 3)]) ∧
    (NETSERVICE.send failingOS 1 64 twoClients).map (fun r => (r.1, r.2.2)) =
      some (0, [.send 3 64]) := by
  decide

theorem destroy_new (f : Nat) (w : World) (c : Ptr) (ty : Int)
    (hc : w.heap c = some (NETSERVICE.init ty)) :
    NETSERVICE.destroy (f + 3) c w = some ((w.free c).log (.delete c)) := by
  have ha : ¬ ((NETSERVICE.init ty).clientAddress ≠ 0) := fun h => h rfl
  have hb : ¬ ((NETSERVICE.init ty).fd ≠ -1) := fun h => h rfl
  have hp : ¬ ((NETSERVICE.init ty).parent ≠ 0) := fun h => h rfl
  simp only [NETSERVICE.destroy, hc, if_neg ha, NETSERVICE.close, if_neg hb, if_neg hp]
  rw [closeLoop_done f w c 0 _ hc (Nat.le_refl 0)]

/-- C13: on an unbound service, `NETSERVER::create` returns non-zero exactly when `socket`,
`bind` and `listen` all succeed, and `NETCLIENT::connect` exactly when `socket` and `connect`
succeed; on failure the result is 0 and the world is as it was, so the descriptor stays `-1`;
on success the service holds the descriptor `socket` returned (which is not `-1`) and a stream
over it. -/
theorem C13_create_connect_bind_on_success (os : OS) (this : Ptr) (no : Int) (addr : Ptr)
    (w : World) (s : NETSERVICE) (hs : w.heap this = some s) (hfd : s.fd = -1) :
    (∃ r w1 calls, NETSERVER.create os this no w = some (r, w1, calls) ∧
      (r ≠ 0 ↔ 0 ≤ os.socket ∧ 0 ≤ os.bind os.socket no ∧ 0 ≤ os.listen os.socket) ∧
      (r = 0 → w1 = w ∧ (w1.heap this).map (fun x => x.fd) = some (-1)) ∧
      (r ≠ 0 → os.socket ≠ -1 ∧
        w1 = w.store this { s with fd := os.socket, filp := some os.socket })) ∧
    (∃ r w1 calls, NETCLIENT.connect os this addr w = some (r, w1, calls) ∧
      (r ≠ 0 ↔ 0 ≤ os.socket ∧ 0 ≤ os.connect os.socket addr) ∧
      (r = 0 → w1 = w ∧ (w1.heap this).map (fun x => x.fd) = some (-1)) ∧
      (r ≠ 0 → os.socket ≠ -1 ∧
        w1 = w.store this { s with fd := os.socket, filp := some os.socket })) := by
  have hsame : (w.heap this).map (fun x => x.fd) = some (-1) := by rw [hs, ← hfd]; rfl
  constructor
  · by_cases h1 : os.socket < 0
    · exact ⟨0, w, _, by simp only [NETSERVER.create, if_pos h1]; rfl,
        ⟨fun h => absurd rfl h, fun h => by omega⟩, fun _ => ⟨rfl, hsame⟩, fun h => absurd rfl h⟩
    · by_cases h2 : os.bind os.socket no < 0
      · exact ⟨0, w, _, by simp only [NETSERVER.create, if_neg h1, if_pos h2]; rfl,
          ⟨fun h => absurd rfl h, fun h => by omega⟩, fun _ => ⟨rfl, hsame⟩,
          fun h => absurd rfl h⟩
      · by_cases h3 : os.listen os.socket < 0
        · exact ⟨0, w, _, by simp only [NETSERVER.create, if_neg h1, if_neg h2, if_pos h3]; rfl,
            ⟨fun h => absurd rfl h, fun h => by omega⟩, fun _ => ⟨rfl, hsame⟩,
            fun h => absurd rfl h⟩
        · have hne : os.socket ≠ -1 := by omega
          refine ⟨1, _, _, by simp only [NETSERVER.create, if_neg h1, if_neg h2, if_neg h3,
              NETSERVICE.setFD, hs, if_pos hne]; rfl,
            ⟨fun _ => ⟨by omega, by omega, by omega⟩, fun _ => by decide⟩,
            fun h => absurd h (by decide), fun _ => ⟨hne, rfl⟩⟩
  · by_cases h1 : os.socket < 0
    · exact ⟨0, w, _, by simp only [NETCLIENT.connect, if_pos h1]; rfl,
        ⟨fun h => absurd rfl h, fun h => by omega⟩, fun _ => ⟨rfl, hsame⟩, fun h => absurd rfl h⟩
    · by_cases h2 : os.connect os.socket addr < 0
      · exact ⟨0, w, _, by simp only [NETCLIENT.connect, if_neg h1, if_pos h2]; rfl,
          ⟨fun h => absurd rfl h, fun h => by omega⟩, fun _ => ⟨rfl, hsame⟩,
          fun h => absurd rfl h⟩
      · have hne : os.socket ≠ -1 := by omega
        refine ⟨1, _, _, by simp only [NETCLIENT.connect, if_neg h1, if_neg h2,
            NETSERVICE.setFD, hs, if_pos hne]; rfl,
          ⟨fun _ => ⟨by omega, by omega⟩, fun _ => by decide⟩,
          fun h => absurd h (by decide), fun _ => ⟨hne, rfl⟩⟩

theorem C13_create_connect_bind_on_success_witness :
    (∃ r w1 calls, NETSERVER.create workingOS 1 8080 newServices = some (r, w1, calls) ∧
      (r ≠ 0 ↔ 0 ≤ workingOS.socket ∧ 0 ≤ workingOS.bind workingOS.socket 8080 ∧
        0 ≤ workingOS.listen workingOS.socket) ∧
      (r = 0 → w1 = newServices ∧ (w1.heap 1).map (fun x => x.fd) = some (-1)) ∧
      (r ≠ 0 → workingOS.socket ≠ -1 ∧
        w1 = newServices.store 1 { NETSERVICE.init NETSERVICE_SERVER with
          fd := workingOS.socket, filp := some workingOS.socket })) ∧
    (∃ r w1 calls, NETCLIENT.connect workingOS 1 30 newServices = some (r, w1, calls) ∧
      (r ≠ 0 ↔ 0 ≤ workingOS.socket ∧ 0 ≤ workingOS.connect workingOS.socket 30) ∧
      (r = 0 → w1 = newServices ∧ (w1.heap 1).map (fun x => x.fd) = some (-1)) ∧
      (r ≠ 0 → workingOS.socket ≠ -1 ∧
        w1 = newServices.store 1 { NETSERVICE.init NETSERVICE_SERVER with
          fd := workingOS.socket, filp := some workingOS.socket })) :=
  C13_create_connect_bind_on_success workingOS 1 8080 30 newServices
    (NETSERVICE.init NETSERVICE_SERVER) rfl rfl

/-- C12: for a live server with a sound child collection and a newly constructed placeholder,
`NETSERVER::accept` returns non-zero exactly when `::accept` returns a descriptor (not a
negative value). On success the placeholder holds that descriptor with its stream, the new
address object and the server as parent, and the server's child collection is the old one with
the placeholder appended; the server's other fields are as they were. On failure the result is
0, the address object and the placeholder are deleted and the server object is as it was. -/
theorem C12_accept_adopts_or_destroys (os : OS) (addr : Ptr) (fuel : Nat) (this client : Ptr)
    (w : World) (s : NETSERVICE) (ty : Int) (hs : w.heap this = some s)
    (hsound : s.clients.Sound) (hc : w.heap client = some (NETSERVICE.init ty))
    (hne : client ≠ this) (haddr : addr ≠ 0) :
    ∃ r w1 calls, NETSERVER.accept os addr (fuel + 3) this client w = some (r, w1, calls) ∧
      calls.head? = some (.accept s.fd) ∧
      (r ≠ 0 ↔ 0 ≤ os.accept s.fd) ∧
      (r ≠ 0 →
        (∃ sc, w1.heap client = some sc ∧ sc.clientAddress ≠ 0 ∧
          sc = { NETSERVICE.init ty with
            fd := os.accept s.fd, filp := some (os.accept s.fd), parent := this,
            clientAddress := addr }) ∧
        w1.heap this = some { s with clients := s.clients.addElement client } ∧
        (s.clients.addElement client).contents = s.clients.contents ++ [client] ∧
        (∀ q, q ≠ client → q ≠ this → w1.heap q = w.heap q) ∧
        w1.net = w.net ∧ w1.trace = w.trace) ∧
      (r = 0 →
        w1.heap client = none ∧ w1.heap this = some s ∧
        (∀ q, q ≠ client → w1.heap q = w.heap q) ∧
        w1.net = w.net ∧ w1.trace = w.trace ++ [.deleteAddress addr, .delete client]) := by
  by_cases h1 : os.accept s.fd < 0
  · refine ⟨0, ((w.log (.deleteAddress addr)).free client).log (.delete client), [.accept s.fd],
      by simp only [NETSERVER.accept, hs, if_pos h1,
        destroy_new fuel (w.log (.deleteAddress addr)) client ty hc],
      rfl, ⟨fun h => absurd rfl h, fun h => by omega⟩, fun h => absurd rfl h, fun _ => ?_⟩
    have hne2 : this ≠ client := fun h => hne h.symm
    refine ⟨by simp [World.free, World.log], by simp [World.free, World.log, hne2, hs],
      fun q hq => by simp [World.free, World.log, hq], rfl, by simp [World.free, World.log]⟩
  · have hfd : os.accept s.fd ≠ -1 := by omega
    have hne2 : this ≠ client := fun h => hne h.symm
    refine ⟨1, _, [.accept s.fd, .fcntl (os.accept s.fd)], by
        simp only [NETSERVER.accept, hs, if_neg h1, NETSERVICE.setFD, hc, if_pos hfd,
          NETSERVICE.setParent, NETSERVICE.setClientAddress, NETSERVICE.addClient,
          World.store_heap, if_true, if_neg hne2]; rfl,
      rfl, ⟨fun _ => by omega, fun _ => by decide⟩, fun _ => ?_, fun h => absurd h (by decide)⟩
    refine ⟨⟨_, by simp [hne], haddr, rfl⟩, by simp, VECTOR.contents_addElement _ _ hsound,
      fun q hq1 hq2 => by simp [hq1, hq2], rfl, rfl⟩

theorem C12_accept_adopts_or_destroys_witness :
    ∃ r w1 calls, NETSERVER.accept workingOS 15 3 1 5 serverWithPlaceholder =
        some (r, w1, calls) ∧
      calls.head? = some (.accept 3) ∧
      (r ≠ 0 ↔ 0 ≤ workingOS.accept 3) ∧
      (r ≠ 0 →
        (∃ sc, w1.heap 5 = some sc ∧ sc.clientAddress ≠ 0 ∧
          sc = { NETSERVICE.init NETSERVICE_CLIENT with
            fd := workingOS.accept 3, filp := some (workingOS.accept 3), parent := 1,
            clientAddress := 15 }) ∧
        w1.heap 1 = some { NETSERVICE.bound NETSERVICE_SERVER 3 [2] 0 with
          clients := (NETSERVICE.bound NETSERVICE_SERVER 3 [2] 0).clients.addElement 5 } ∧
        ((NETSERVICE.bound NETSERVICE_SERVER 3 [2] 0).clients.addElement 5).contents =
          (NETSERVICE.bound NETSERVICE_SERVER 3 [2] 0).clients.contents ++ [5] ∧
        (∀ q, q ≠ 5 → q ≠ 1 → w1.heap q = serverWithPlaceholder.heap q) ∧
        w1.net = serverWithPlaceholder.net ∧ w1.trace = serverWithPlaceholder.trace) ∧
      (r = 0 →
        w1.heap 5 = none ∧ w1.heap 1 = some (NETSERVICE.bound NETSERVICE_SERVER 3 [2] 0) ∧
        (∀ q, q ≠ 5 → w1.heap q = serverWithPlaceholder.heap q) ∧
        w1.net = serverWithPlaceholder.net ∧
        w1.trace = serverWithPlaceholder.trace ++ [.deleteAddress 15, .delete 5]) :=
  C12_accept_adopts_or_destroys workingOS 15 0 1 5 serverWithPlaceholder
    (NETSERVICE.bound NETSERVICE_SERVER 3 [2] 0) NETSERVICE_CLIENT rfl (by decide) rfl
    (by decide) (by decide)

/-! ## Addresses -/

theorem toDigits_head (n : Nat) (hn : n < 256) :
    ∃ c cs, Nat.toDigits 10 n = c :: cs ∧ 48 ≤ c.toNat ∧ c.toNat ≤ 57 := by
  interval_cases n <;> exact ⟨_, _, rfl, by decide, by decide⟩

theorem strtoul0_dot (n : Nat) (hn : n < 256) (r : List Char) :
    strtoul0 (Nat.toDigits 10 n ++ '.' :: r) = (n, '.' :: r) := by
  interval_cases n <;> rfl

theorem strtoul0_end (n : Nat) (hn : n < 256) :
    strtoul0 (Nat.toDigits 10 n) = (n, []) := by
  interval_cases n <;> rfl

theorem inet_atonLoop_dot (fuel n : Nat) (hn : n < 256) (r : List Char) (parts : List Nat)
    (hp : parts.length ≤ 2) :
    inet_atonLoop (fuel + 1) (Nat.toDigits 10 n ++ '.' :: r) parts =
      inet_atonLoop fuel r (parts ++ [n]) := by
  obtain ⟨c, cs, hcs, hd⟩ := toDigits_head n hn
  have hst := strtoul0_dot n hn r
  rw [hcs] at hst ⊢
  rw [List.cons_append] at hst ⊢
  simp only [inet_atonLoop, hd, hst]
  have h1 : ¬ (n > 0xffffffff) := by omega
  have h2 : ¬ (parts.length > 2 ∨ n > 0xff) := by omega
  simp only [and_self, if_true, if_neg h1, if_neg h2]

theorem inet_atonLoop_end (fuel n : Nat) (hn : n < 256) (parts : List Nat)
    (hp : parts.length = 3) :
    inet_atonLoop (fuel + 1) (Nat.toDigits 10 n) parts =
      some (parts.foldl (fun acc p => acc * 256 + p) 0 * 256 + n) := by
  obtain ⟨c, cs, hcs, hd⟩ := toDigits_head n hn
  have hst := strtoul0_end n hn
  rw [hcs] at hst ⊢
  simp only [inet_atonLoop, hd, hst, hp]
  have h1 : ¬ (n > 0xffffffff) := by omega
  have h2 : ¬ (n > 256 ^ (4 - 3) - 1) := by norm_num; omega
  simp only [and_self, if_true, if_neg h1, if_neg h2]
  norm_num

theorem inet_aton_dottedDecimal (a b c d : Nat) (ha : a < 256) (hb : b < 256) (hc : c < 256)
    (hd : d < 256) :
    inet_aton (dottedDecimal a b c d) = some (((a * 256 + b) * 256 + c) * 256 + d) := by
  unfold inet_aton dottedDecimal
  rw [inet_atonLoop_dot 3 a ha _ [] (by simp), inet_atonLoop_dot 2 b hb _ _ (by simp),
    inet_atonLoop_dot 1 c hc _ _ (by simp), inet_atonLoop_end 0 d hd _ (by simp)]
  simp

theorem inet_ntoa_dottedDecimal (a b c d : Nat) (ha : a < 256) (hb : b < 256) (hc : c < 256)
    (hd : d < 256) :
    inet_ntoa (((a * 256 + b) * 256 + c) * 256 + d) = dottedDecimal a b c d := by
  unfold inet_ntoa dottedDecimal
  have e1 : (((a * 256 + b) * 256 + c) * 256 + d) / 16777216 % 256 = a := by omega
  have e2 : (((a * 256 + b) * 256 + c) * 256 + d) / 65536 % 256 = b := by omega
  have e3 : (((a * 256 + b) * 256 + c) * 256 + d) / 256 % 256 = c := by omega
  have e4 : (((a * 256 + b) * 256 + c) * 256 + d) % 256 = d := by omega
  rw [e1, e2, e3, e4]

theorem ntohs_htons (le : Bool) (n : Int) : (ntohs le (htons le n) : Int) = n % 65536 := by
  have h0 : 0 ≤ n % 65536 := Int.emod_nonneg _ (by decide)
  have h1 : n % 65536 < 65536 := Int.emod_lt_of_pos _ (by decide)
  obtain ⟨v, hv⟩ := Int.eq_ofNat_of_zero_le h0
  have hv2 : v < 65536 := by omega
  unfold ntohs htons
  rw [hv]
  simp only [Int.toNat_ofNat]
  cases le
  · simp only [Bool.false_eq_true, if_false]
    rw [Nat.mod_eq_of_lt hv2]
  · have hswap : (v % 256 * 256 + v / 256) % 65536 % 256 * 256 +
        (v % 256 * 256 + v / 256) % 65536 / 256 = v := by
      have hhi : v / 256 < 256 := by omega
      have hlo : v % 256 < 256 := Nat.mod_lt _ (by decide)
      rw [Nat.mod_eq_of_lt (by omega : v % 256 * 256 + v / 256 < 65536)]
      have h3 : (v % 256 * 256 + v / 256) % 256 = v / 256 := by omega
      have h4 : (v % 256 * 256 + v / 256) / 256 = v % 256 := by omega
      rw [h3, h4]
      omega
    simp only [if_true, hswap]

/-- C18: for every address `a.b.c.d` with numbers below 256, `setAddr` on its canonical
dotted-decimal text returns 1 without a call of `gethostbyname` and `getAddr` then returns the
same text; for a text that `inet_aton` rejects and the resolver does not know, `setAddr`
returns 0. -/
theorem C18_setAddr_getAddr_round_trip (gethostbyname : List Char → Option Nat)
    (this : IPV4ADDRESS) (a b c d : Nat) (ha : a < 256) (hb : b < 256) (hc : c < 256)
    (hd : d < 256) :
    (∃ that, IPV4ADDRESS.setAddr gethostbyname this (dottedDecimal a b c d) = (1, that, []) ∧
      that.getAddr = dottedDecimal a b c d) ∧
    (∀ text, inet_aton text = none → gethostbyname text = none →
      (IPV4ADDRESS.setAddr gethostbyname this text).1 = 0) := by
  constructor
  · refine ⟨{ this with sin_addr := ((a * 256 + b) * 256 + c) * 256 + d }, ?_, ?_⟩
    · simp only [IPV4ADDRESS.setAddr, inet_aton_dottedDecimal a b c d ha hb hc hd]
    · exact inet_ntoa_dottedDecimal a b c d ha hb hc hd
  · intro text h1 h2
    simp only [IPV4ADDRESS.setAddr, h1, h2]

theorem C18_setAddr_getAddr_round_trip_witness :
    (∃ that, IPV4ADDRESS.setAddr noHosts IPV4ADDRESS.init "127.0.0.1".toList =
        (1, that, []) ∧
      that.getAddr = "127.0.0.1".toList) ∧
    (∀ text, inet_aton text = none → noHosts text = none →
      (IPV4ADDRESS.setAddr noHosts IPV4ADDRESS.init text).1 = 0) :=
  C18_setAddr_getAddr_round_trip noHosts IPV4ADDRESS.init 127 0 0 1 (by decide) (by decide)
    (by decide) (by decide)

/-- C19: `getPort` after `setPort (n)` returns `n mod 65536` for every `n`, which is `n` itself
for `0 ≤ n ≤ 65535`, on a host of either byte order; `setPort` leaves the stored address as it
was and `setAddr` leaves the stored port as it was. -/
theorem C19_port_round_trip (littleEndian : Bool) (this : IPV4ADDRESS) (n : Int)
    (gethostbyname : List Char → Option Nat) (text : List Char) :
    (this.setPort littleEndian n).getPort littleEndian = n % 65536 ∧
    (0 ≤ n → n ≤ 65535 → (this.setPort littleEndian n).getPort littleEndian = n) ∧
    (this.setPort littleEndian n).sin_addr = this.sin_addr ∧
    (IPV4ADDRESS.setAddr gethostbyname this text).2.1.sin_port = this.sin_port := by
  have h := ntohs_htons littleEndian n
  refine ⟨h, fun h0 h1 => ?_, rfl, ?_⟩
  · show (ntohs littleEndian (htons littleEndian n) : Int) = n
    rw [h]
    exact Int.emod_eq_of_lt h0 (by omega)
  · unfold IPV4ADDRESS.setAddr
    split
    · rfl
    · split <;> rfl

/-- The check on one group of a dotted literal. -/
theorem digitGroup_ok (n : Nat) (hn : n < 256) :
    '.' ∉ Nat.toDigits 10 n ∧
    (decide (Nat.toDigits 10 n ≠ []) &&
      ((Nat.toDigits 10 n).all (fun ch => decide (48 ≤ ch.toNat ∧ ch.toNat ≤ 57)) &&
        decide ((readDigits 10 (Nat.toDigits 10 n) 0).1 < 256))) = true := by
  interval_cases n <;> exact ⟨by decide, by decide⟩

theorem dotGroups_of_not_mem (g : List Char) (h : '.' ∉ g) : dotGroups g = [g] := by
  induction g with
  | nil => rfl
  | cons ch rest ih =>
    have h1 : ch ≠ '.' := fun e => h (by rw [e]; exact List.mem_cons_self _ _)
    have h2 : '.' ∉ rest := fun e => h (List.mem_cons_of_mem _ e)
    rw [dotGroups, if_neg h1, ih h2]

theorem dotGroups_append (g rest : List Char) (h : '.' ∉ g) :
    dotGroups (g ++ '.' :: rest) = g :: dotGroups rest := by
  induction g with
  | nil =>
    show dotGroups ('.' :: rest) = _
    rw [dotGroups, if_pos rfl]
  | cons ch g ih =>
    have h1 : ch ≠ '.' := fun e => h (by rw [e]; exact List.mem_cons_self _ _)
    have h2 : '.' ∉ g := fun e => h (List.mem_cons_of_mem _ e)
    show dotGroups (ch :: (g ++ '.' :: rest)) = _
    rw [dotGroups, if_neg h1, ih h2]

theorem isDottedLiteral_dottedDecimal (a b c d : Nat) (ha : a < 256) (hb : b < 256)
    (hc : c < 256) (hd : d < 256) : isDottedLiteral (dottedDecimal a b c d) = true := by
  obtain ⟨a1, a2⟩ := digitGroup_ok a ha
  obtain ⟨b1, b2⟩ := digitGroup_ok b hb
  obtain ⟨c1, c2⟩ := digitGroup_ok c hc
  obtain ⟨d1, d2⟩ := digitGroup_ok d hd
  have hg : dotGroups (dottedDecimal a b c d) =
      [Nat.toDigits 10 a, Nat.toDigits 10 b, Nat.toDigits 10 c, Nat.toDigits 10 d] := by
    unfold dottedDecimal
    rw [dotGroups_append _ _ a1, dotGroups_append _ _ b1, dotGroups_append _ _ c1,
      dotGroups_of_not_mem _ d1]
  unfold isDottedLiteral
  rw [hg]
  simp only [List.length_cons, List.length_nil, List.all_cons, List.all_nil, a2, b2, c2, d2]
  rfl

/-- C20 (as stated, refuted): on the stored address 127.0.0.1 `compareAddr` returns non-zero
for the dotted literal `127.0.0.1` and also for the texts `0x7f000001`, `2130706433` and
`127.0.0.1 x`, none of which is a dotted IPv4 literal. -/
theorem C20_other_texts_match :
    (isDottedLiteral "127.0.0.1".toList = true ∧
      localhost.compareAddr "127.0.0.1".toList = 1) ∧
    (isDottedLiteral "0x7f000001".toList = false ∧
      localhost.compareAddr "0x7f000001".toList = 1) ∧
    (isDottedLiteral "2130706433".toList = false ∧
      localhost.compareAddr "2130706433".toList = 1) ∧
    (isDottedLiteral "127.0.0.1 x".toList = false ∧
      localhost.compareAddr "127.0.0.1 x".toList = 1) := by
  decide

/-- C20 (amended): `IPV4ADDRESS::compareAddr` returns non-zero exactly when `inet_aton`
accepts the text and the address it yields is the stored address; on the text of `a.b.c.d`,
four decimal numbers from 0 to 255 without leading zeros, which is a dotted literal, that is
exactly when `a.b.c.d` is the stored address; it returns 0 for every text `inet_aton`
rejects, among them every text that does not begin with a decimal digit (no name is
resolved); and the `compareAddr` of NETADDRESS, which IPXADDRESS inherits, returns 0 for
every text. -/
theorem C20_compareAddr_literal_match (this : IPV4ADDRESS) (text : List Char) :
    (this.compareAddr text ≠ 0 ↔ inet_aton text = some this.sin_addr) ∧
    (inet_aton text = none → this.compareAddr text = 0) ∧
    ((∀ ch, text.head? = some ch → ¬ (48 ≤ ch.toNat ∧ ch.toNat ≤ 57)) →
      this.compareAddr text = 0) ∧
    (∀ a b c d, a < 256 → b < 256 → c < 256 → d < 256 →
      isDottedLiteral (dottedDecimal a b c d) = true ∧
      (this.compareAddr (dottedDecimal a b c d) ≠ 0 ↔
        this.sin_addr = ((a * 256 + b) * 256 + c) * 256 + d)) ∧
    NETADDRESS.compareAddr text = 0 ∧ IPXADDRESS.compareAddr text = 0 := by
  have key : ∀ t, this.compareAddr t ≠ 0 ↔ inet_aton t = some this.sin_addr := by
    intro t
    unfold IPV4ADDRESS.compareAddr
    cases h : inet_aton t with
    | none => simp
    | some v =>
      by_cases hv : v = this.sin_addr
      · simp [hv]
      · simp [hv]
  have hnone : inet_aton text = none → this.compareAddr text = 0 := by
    intro h
    simp only [IPV4ADDRESS.compareAddr, h]
  refine ⟨key text, hnone, fun hd => hnone ?_, fun a b c d ha hb hc hd =>
    ⟨isDottedLiteral_dottedDecimal a b c d ha hb hc hd, ?_⟩,
    rfl, rfl⟩
  · unfold inet_aton inet_atonLoop
    cases text with
    | nil => rfl
    | cons ch rest =>
      simp only []
      rw [if_neg (hd ch rfl)]
  · rw [key, inet_aton_dottedDecimal a b c d ha hb hc hd]
    constructor
    · intro h; exact (Option.some.inj h).symm
    · intro h; rw [h]

/-! ## Order of the elements of a VECTOR -/

theorem eraseSwap_of_not_mem_dropLast (l : List Ptr) (e : Ptr) (h : e ∉ l.dropLast) :
    eraseSwap l e = l.erase e := by
  by_cases hm : e ∈ l
  · obtain ⟨a, b, rfl, ha⟩ := List.eq_append_cons_of_mem hm
    have hb : b = [] := by
      rcases List.eq_nil_or_concat b with hb | ⟨b1, z, hb⟩
      · exact hb
      · exfalso
        apply h
        rw [hb, List.concat_eq_append, ← List.cons_append, ← List.append_assoc,
          List.dropLast_concat]
        simp
    subst hb
    rw [eraseSwap_split a [] e ha, List.erase_append_right _ ha]
    simp [lastFirst]
  · rw [eraseSwap_of_not_mem l e hm, List.erase_of_not_mem hm]

theorem steps_from (ops : List VecOp) (v : VECTOR) (l : List Ptr) (hv : v.Sound)
    (hl : v.contents.Perm l) :
    (ops.foldl VECTOR.step v).Sound ∧
    (ops.foldl VECTOR.step v).contents.Perm (insertionOrderFrom l ops) ∧
    (v.contents = l → removesLast l ops →
      (ops.foldl VECTOR.step v).contents = insertionOrderFrom l ops) := by
  induction ops generalizing v l with
  | nil => exact ⟨hv, hl, fun h _ => h⟩
  | cons op ops ih =>
    cases op with
    | add e =>
      have hc := VECTOR.contents_addElement v e hv
      obtain ⟨h1, h2, h3⟩ := ih (v.addElement e) (l ++ [e]) (VECTOR.addElement_sound v e hv)
        (by rw [hc]; exact List.Perm.append_right _ hl)
      refine ⟨h1, h2, fun heq hr => h3 (by rw [hc, heq]) hr⟩
    | remove e =>
      have hc := VECTOR.contents_removeElement v e (sound_le v hv)
      obtain ⟨h1, h2, h3⟩ := ih (v.removeElement e) (l.erase e)
        (VECTOR.removeElement_sound v e hv)
        (by rw [hc]; exact (eraseSwap_perm _ e).trans (hl.erase e))
      refine ⟨h1, h2, fun heq hr => h3 ?_ hr.2⟩
      rw [hc, heq]
      exact eraseSwap_of_not_mem_dropLast l e hr.1

/-- C17 (as stated, refuted): after `addElement` of 1, 2 and 3 and `removeElement (1)` the
vector holds 3 before 2, although 2 was added before 3. -/
theorem C17_removal_reorders :
    (VECTOR.steps [.add 1, .add 2, .add 3, .remove 1]).contents = [3, 2] ∧
    insertionOrder [.add 1, .add 2, .add 3, .remove 1] = [2, 3] := by
  decide

/-- C17 (amended): after every sequence of `addElement` and `removeElement` calls the vector
holds exactly the elements that remain, each as often as it remains; they stand in the order
in which they were added when every `removeElement` call named an absent element or one that
stood only in the last place; and a `removeElement` call for an element with others behind it
puts the last element in its place. -/
theorem C17_order_kept_until_swap (ops : List VecOp) :
    (VECTOR.steps ops).contents.Perm (insertionOrder ops) ∧
    (removesLast [] ops → (VECTOR.steps ops).contents = insertionOrder ops) ∧
    (∀ e z a b, e ∉ a → (VECTOR.steps ops).contents = a ++ e :: (b ++ [z]) →
      (VECTOR.steps (ops ++ [.remove e])).contents = a ++ z :: b) := by
  obtain ⟨h1, h2, h3⟩ := steps_from ops VECTOR.init [] VECTOR.init_sound
    (by rw [VECTOR.init_contents])
  refine ⟨h2, fun hr => h3 VECTOR.init_contents hr, fun e z a b ha hc => ?_⟩
  unfold VECTOR.steps at hc ⊢
  rw [List.foldl_append]
  show ((ops.foldl VECTOR.step VECTOR.init).removeElement e).contents = _
  rw [VECTOR.contents_removeElement _ e (sound_le _ h1), hc, eraseSwap_split a _ e ha]
  simp [lastFirst]

/-! ## The ownership invariant -/

theorem shrinks_refl (h : Heap) : Shrinks h h :=
  fun _ s1 hq => ⟨s1, hq, rfl, fun _ hx => hx⟩

theorem shrinks_trans {h k m : Heap} (h1 : Shrinks h k) (h2 : Shrinks k m) : Shrinks h m := by
  intro q s2 hq
  obtain ⟨s1, hk, hp1, hc1⟩ := h2 q s2 hq
  obtain ⟨s, hh, hp, hc⟩ := h1 q s1 hk
  exact ⟨s, hh, hp1.trans hp, fun x hx => hc x (hc1 x hx)⟩

theorem unowned_of_shrinks {h k : Heap} (c : Ptr) (hs : Shrinks h k) (hu : Unowned h c) :
    Unowned k c := by
  intro S sS hS hc
  obtain ⟨s, hh, -, hsub⟩ := hs S sS hS
  exact hu S s hh (hsub c hc)

/-- Replacing the object at `p` by one with the same parent whose child collection is sound,
without repetition and holds only former children keeps the invariant. -/
theorem owned_update (w : World) (p : Ptr) (s s1 : NETSERVICE) (hO : Owned w.heap)
    (hp : w.heap p = some s) (hpar : s1.parent = s.parent) (hsound : s1.clients.Sound)
    (hnodup : s1.clients.contents.Nodup)
    (hsub : ∀ x ∈ s1.clients.contents, x ∈ s.clients.contents) :
    Owned (w.store p s1).heap ∧ Shrinks w.heap (w.store p s1).heap := by
  have hp0 : p ≠ 0 := fun h => by rw [h, hO.null] at hp; cases hp
  have hlive : ∀ c sc, w.heap c = some sc →
      ∃ sc1, (w.store p s1).heap c = some sc1 ∧ sc1.parent = sc.parent := by
    intro c sc hc
    by_cases hcp : c = p
    · subst hcp
      rw [hp] at hc
      cases hc
      exact ⟨s1, by simp, hpar⟩
    · exact ⟨sc, by simp [hcp, hc], rfl⟩
  have hold : ∀ S sS, (w.store p s1).heap S = some sS →
      ∃ sS0, w.heap S = some sS0 ∧ sS.parent = sS0.parent ∧ sS.clients.Sound ∧
        sS.clients.contents.Nodup ∧ ∀ x ∈ sS.clients.contents, x ∈ sS0.clients.contents := by
    intro S sS hS
    by_cases hSp : S = p
    · subst hSp
      simp only [World.store_heap, if_true, Option.some.injEq] at hS
      subst hS
      exact ⟨s, hp, hpar, hsound, hnodup, hsub⟩
    · simp only [World.store_heap, if_neg hSp] at hS
      exact ⟨sS, hS, rfl, hO.sound S sS hS, hO.nodup S sS hS, fun _ hx => hx⟩
  refine ⟨⟨by simp [Ne.symm hp0, hO.null], fun S sS hS => ?_, fun S sS hS => ?_,
    fun S sS hS c hc => ?_⟩, fun q sq hq => ?_⟩
  · obtain ⟨_, _, _, h1, _⟩ := hold S sS hS; exact h1
  · obtain ⟨_, _, _, _, h1, _⟩ := hold S sS hS; exact h1
  · obtain ⟨sS0, h0, _, _, _, h1⟩ := hold S sS hS
    obtain ⟨sc, hsc, hscp⟩ := hO.parent S sS0 h0 c (h1 c hc)
    obtain ⟨sc1, hsc1, hp1⟩ := hlive c sc hsc
    exact ⟨sc1, hsc1, hp1.trans hscp⟩
  · obtain ⟨sS0, h0, h1, _, _, h2⟩ := hold q sq hq
    exact ⟨sS0, h0, h1, h2⟩

/-- Removing an element from the child collection of the object at `p` keeps the invariant. -/
theorem owned_remove (w : World) (p e : Ptr) (s : NETSERVICE) (hO : Owned w.heap)
    (hp : w.heap p = some s) :
    Owned (w.store p { s with clients := s.clients.removeElement e }).heap ∧
    Shrinks w.heap (w.store p { s with clients := s.clients.removeElement e }).heap := by
  have hs := hO.sound p s hp
  have hc : (s.clients.removeElement e).contents = eraseSwap s.clients.contents e :=
    VECTOR.contents_removeElement _ e (sound_le _ hs)
  refine owned_update w p s _ hO hp rfl (VECTOR.removeElement_sound _ e hs) ?_ ?_
  · show (s.clients.removeElement e).contents.Nodup
    rw [hc]; exact eraseSwap_nodup _ e (hO.nodup p s hp)
  · intro x hx
    have hx2 : x ∈ (s.clients.removeElement e).contents := hx
    rw [hc] at hx2
    exact mem_of_mem_eraseSwap _ e x hx2

/-- Releasing an object that is in no child collection keeps the invariant. -/
theorem owned_free (w : World) (p : Ptr) (hO : Owned w.heap) (hu : Unowned w.heap p) :
    Owned (w.free p).heap ∧ Shrinks w.heap (w.free p).heap := by
  have hold : ∀ S sS, (w.free p).heap S = some sS → S ≠ p ∧ w.heap S = some sS := by
    intro S sS hS
    by_cases hSp : S = p
    · simp [hSp] at hS
    · simp only [World.free_heap, if_neg hSp] at hS
      exact ⟨hSp, hS⟩
  refine ⟨⟨by simp [hO.null], fun S sS hS => hO.sound S sS (hold S sS hS).2,
    fun S sS hS => hO.nodup S sS (hold S sS hS).2, fun S sS hS c hc => ?_⟩,
    fun q sq hq => ⟨sq, (hold q sq hq).2, rfl, fun _ hx => hx⟩⟩
  obtain ⟨_, h0⟩ := hold S sS hS
  obtain ⟨sc, hsc, hscp⟩ := hO.parent S sS h0 c hc
  have hcp : c ≠ p := fun h => hu S sS h0 (h ▸ hc)
  exact ⟨sc, by simp [hcp, hsc], hscp⟩

/-- After the first two steps of `close()` on the object at `this` (the descriptor is given
up and `this` is taken out of its parent's child collection) the invariant holds and `this` is
in no child collection. -/
theorem close_head_owned (w w2 : World) (this : Ptr) (s : NETSERVICE) (hO : Owned w.heap)
    (hs : w.heap this = some s)
    (h : (if s.parent ≠ 0 then NETSERVICE.removeClient s.parent this
            (if s.fd ≠ -1 then
              (w.log (NETSERVICE.releaseEvent this s)).store this { s with fd := -1 }
             else w)
          else some (if s.fd ≠ -1 then
              (w.log (NETSERVICE.releaseEvent this s)).store this { s with fd := -1 }
             else w)) = some w2) :
    Owned w2.heap ∧ Shrinks w.heap w2.heap ∧ Unowned w2.heap this := by
  -- the world after the descriptor was given up
  obtain ⟨w1, hw1, hO1, hS1, s1, hs1, hpar1, hcl1⟩ : ∃ w1 : World,
      w1 = (if s.fd ≠ -1 then
              (w.log (NETSERVICE.releaseEvent this s)).store this { s with fd := -1 }
            else w) ∧ Owned w1.heap ∧ Shrinks w.heap w1.heap ∧
      ∃ s1, w1.heap this = some s1 ∧ s1.parent = s.parent ∧ s1.clients = s.clients := by
    refine ⟨_, rfl, ?_⟩
    by_cases hfd : s.fd = -1
    · rw [if_neg (not_not.mpr hfd)]
      exact ⟨hO, shrinks_refl _, s, hs, rfl, rfl⟩
    · rw [if_pos hfd]
      obtain ⟨h1, h2⟩ := owned_update (w.log (NETSERVICE.releaseEvent this s)) this s
        { s with fd := -1 } hO hs rfl (hO.sound this s hs) (hO.nodup this s hs)
        (fun _ hx => hx)
      exact ⟨h1, h2, { s with fd := -1 }, by simp, rfl, rfl⟩
  rw [← hw1] at h
  by_cases hpar : s.parent = 0
  · rw [if_neg (not_not.mpr hpar)] at h
    cases h
    refine ⟨hO1, hS1, fun S sS hS hc => ?_⟩
    obtain ⟨sc, hsc, hscp⟩ := hO1.parent S sS hS this hc
    rw [hs1] at hsc
    cases hsc
    rw [← hscp, hpar1, hpar, hO1.null] at hS
    cases hS
  · rw [if_pos hpar] at h
    unfold NETSERVICE.removeClient at h
    cases hP : w1.heap s.parent with
    | none => rw [hP] at h; cases h
    | some sP =>
      rw [hP] at h
      cases h
      obtain ⟨h1, h2⟩ := owned_remove w1 s.parent this sP hO1 hP
      refine ⟨h1, shrinks_trans hS1 h2, fun S sS hS hc => ?_⟩
      by_cases hSP : S = s.parent
      · subst hSP
        simp only [World.store_heap, if_true, Option.some.injEq] at hS
        subst hS
        have hc2 : this ∈ (sP.clients.removeElement this).contents := hc
        rw [VECTOR.contents_removeElement _ this (sound_le _ (hO1.sound _ sP hP)),
          mem_eraseSwap_of_nodup _ this this (hO1.nodup _ sP hP)] at hc2
        exact hc2.1 rfl
      · simp only [World.store_heap, if_neg hSP] at hS
        obtain ⟨sc, hsc, hscp⟩ := hO1.parent S sS hS this hc
        rw [hs1] at hsc
        cases hsc
        exact hSP (by rw [← hscp, hpar1])

/-- The calls `close()` and `delete` keep the ownership invariant, create nothing and add
nothing to a child collection; after `close()` the object is in no child collection. -/
theorem close_owned (fuel : Nat) :
    (∀ this w w1, Owned w.heap → NETSERVICE.close fuel this w = some w1 →
      Owned w1.heap ∧ Shrinks w.heap w1.heap ∧ Unowned w1.heap this) ∧
    (∀ this i w w1, Owned w.heap → NETSERVICE.closeLoop fuel this i w = some w1 →
      Owned w1.heap ∧ Shrinks w.heap w1.heap) ∧
    (∀ this w w1, Owned w.heap → NETSERVICE.destroy fuel this w = some w1 →
      Owned w1.heap ∧ Shrinks w.heap w1.heap) := by
  induction fuel with
  | zero =>
    refine ⟨fun _ _ _ _ h => ?_, fun _ _ _ _ _ h => ?_, fun _ _ _ _ h => ?_⟩ <;>
      simp [NETSERVICE.close, NETSERVICE.closeLoop, NETSERVICE.destroy] at h
  | succ fuel ih =>
    obtain ⟨ihc, ihl, ihd⟩ := ih
    refine ⟨fun this w w1 hO h => ?_, fun this i w w1 hO h => ?_, fun this w w1 hO h => ?_⟩
    · -- close
      simp only [NETSERVICE.close] at h
      cases hs : w.heap this with
      | none => rw [hs] at h; cases h
      | some s =>
        rw [hs] at h
        dsimp only at h
        split at h
        · cases h
        · rename_i w2 hw2
          obtain ⟨h1, h2, h3⟩ := close_head_owned w w2 this s hO hs hw2
          obtain ⟨h4, h5⟩ := ihl this 0 w2 w1 h1 h
          exact ⟨h4, shrinks_trans h2 h5, unowned_of_shrinks this h5 h3⟩
    · -- closeLoop
      simp only [NETSERVICE.closeLoop] at h
      cases hs : w.heap this with
      | none => rw [hs] at h; cases h
      | some s =>
        rw [hs] at h
        dsimp only at h
        split at h
        · split at h
          · cases h
          · rename_i wa hwa
            obtain ⟨ha1, ha2, -⟩ := ihc _ w wa hO hwa
            split at h
            · cases h
            · rename_i sa hsa
              obtain ⟨hb1, hb2⟩ := owned_remove wa this (s.clients.elementAt i) sa ha1 hsa
              split at h
              · cases h
              · rename_i wc hwc
                obtain ⟨hc1, hc2⟩ := ihd _ _ wc hb1 hwc
                obtain ⟨hd1, hd2⟩ := ihl this (i + 1) wc w1 hc1 h
                exact ⟨hd1, shrinks_trans (shrinks_trans (shrinks_trans ha2 hb2) hc2) hd2⟩
        · cases h
          exact ⟨hO, shrinks_refl _⟩
    · -- destroy
      simp only [NETSERVICE.destroy] at h
      cases hs : w.heap this with
      | none => rw [hs] at h; cases h
      | some s =>
        rw [hs] at h
        dsimp only at h
        split at h
        · cases h
        · rename_i w2 hw2
          cases h
          have hO0 : Owned (if s.clientAddress ≠ 0 then
              w.log (Event.deleteAddress s.clientAddress) else w).heap := by
            split <;> exact hO
          have hS0 : (if s.clientAddress ≠ 0 then
              w.log (Event.deleteAddress s.clientAddress) else w).heap = w.heap := by
            split <;> rfl
          obtain ⟨h1, h2, h3⟩ := ihc this _ w2 hO0 hw2
          rw [hS0] at h2
          obtain ⟨h4, h5⟩ := owned_free w2 this h1 h3
          exact ⟨h4, shrinks_trans h2 h5⟩

/-- Storing an object at the address `c`, which is in no child collection, keeps the
invariant when the children of the new object are living services other than `c` whose parent
is `c`. -/
theorem owned_store_unowned (w : World) (c : Ptr) (s1 : NETSERVICE) (hO : Owned w.heap)
    (hc0 : c ≠ 0) (hu : Unowned w.heap c) (hsound : s1.clients.Sound)
    (hnodup : s1.clients.contents.Nodup)
    (hkids : ∀ x ∈ s1.clients.contents, x ≠ c ∧ ∃ sx, w.heap x = some sx ∧ sx.parent = c) :
    Owned (w.store c s1).heap ∧ Unowned (w.store c s1).heap c := by
  refine ⟨⟨by simp [Ne.symm hc0, hO.null], fun S sS hS => ?_, fun S sS hS => ?_,
    fun S sS hS x hx => ?_⟩, fun S sS hS hx => ?_⟩
  · by_cases hSc : S = c
    · subst hSc; simp only [World.store_heap, if_true, Option.some.injEq] at hS
      subst hS; exact hsound
    · simp only [World.store_heap, if_neg hSc] at hS; exact hO.sound S sS hS
  · by_cases hSc : S = c
    · subst hSc; simp only [World.store_heap, if_true, Option.some.injEq] at hS
      subst hS; exact hnodup
    · simp only [World.store_heap, if_neg hSc] at hS; exact hO.nodup S sS hS
  · by_cases hSc : S = c
    · subst hSc; simp only [World.store_heap, if_true, Option.some.injEq] at hS
      subst hS
      obtain ⟨hxc, sx, hsx, hp⟩ := hkids x hx
      exact ⟨sx, by simp [hxc, hsx], hp⟩
    · simp only [World.store_heap, if_neg hSc] at hS
      obtain ⟨sx, hsx, hp⟩ := hO.parent S sS hS x hx
      have hxc : x ≠ c := fun h => hu S sS hS (h ▸ hx)
      exact ⟨sx, by simp [hxc, hsx], hp⟩
  · by_cases hSc : S = c
    · subst hSc; simp only [World.store_heap, if_true, Option.some.injEq] at hS
      subst hS
      exact (hkids S hx).1 rfl
    · simp only [World.store_heap, if_neg hSc] at hS
      exact hu S sS hS hx

/-- Appending to the child collection of the object at `this` a living service that is in no
child collection and has `this` as its parent keeps the invariant. -/
theorem owned_adopt (w : World) (this c : Ptr) (s sc : NETSERVICE) (hO : Owned w.heap)
    (hs : w.heap this = some s) (hc : w.heap c = some sc) (hpar : sc.parent = this)
    (hu : Unowned w.heap c) :
    Owned (w.store this { s with clients := s.clients.addElement c }).heap := by
  have hp0 : this ≠ 0 := fun h => by rw [h, hO.null] at hs; cases hs
  have hcont := VECTOR.contents_addElement s.clients c (hO.sound this s hs)
  have hlive : ∀ x sx, w.heap x = some sx →
      ∃ sx1, (w.store this { s with clients := s.clients.addElement c }).heap x = some sx1 ∧
        sx1.parent = sx.parent := by
    intro x sx hx
    by_cases hxp : x = this
    · subst hxp
      rw [hs] at hx
      cases hx
      exact ⟨{ s with clients := s.clients.addElement c }, by simp, rfl⟩
    · exact ⟨sx, by simp [hxp, hx], rfl⟩
  refine ⟨by simp [Ne.symm hp0, hO.null], fun S sS hS => ?_, fun S sS hS => ?_,
    fun S sS hS x hx => ?_⟩
  · by_cases hSc : S = this
    · subst hSc; simp only [World.store_heap, if_true, Option.some.injEq] at hS
      subst hS; exact VECTOR.addElement_sound _ c (hO.sound S s hs)
    · simp only [World.store_heap, if_neg hSc] at hS; exact hO.sound S sS hS
  · by_cases hSc : S = this
    · subst hSc; simp only [World.store_heap, if_true, Option.some.injEq] at hS
      subst hS
      show (s.clients.addElement c).contents.Nodup
      rw [hcont]
      exact List.Nodup.append (hO.nodup S s hs) (List.nodup_singleton c)
        (by simpa using hu S s hs)
    · simp only [World.store_heap, if_neg hSc] at hS; exact hO.nodup S sS hS
  · by_cases hSc : S = this
    · subst hSc; simp only [World.store_heap, if_true, Option.some.injEq] at hS
      subst hS
      have hx2 : x ∈ (s.clients.addElement c).contents := hx
      rw [hcont, List.mem_append, List.mem_singleton] at hx2
      rcases hx2 with hx2 | hx2
      · obtain ⟨sx, hsx, hp⟩ := hO.parent S s hs x hx2
        obtain ⟨sx1, h1, h2⟩ := hlive x sx hsx
        exact ⟨sx1, h1, h2.trans hp⟩
      · subst hx2
        obtain ⟨sx1, h1, h2⟩ := hlive x sc hc
        exact ⟨sx1, h1, h2.trans hpar⟩
    · simp only [World.store_heap, if_neg hSc] at hS
      obtain ⟨sx, hsx, hp⟩ := hO.parent S sS hS x hx
      obtain ⟨sx1, h1, h2⟩ := hlive x sx hsx
      exact ⟨sx1, h1, h2.trans hp⟩

theorem setFD_owned (this : Ptr) (no : Int) (w w1 : World) (hO : Owned w.heap)
    (h : NETSERVICE.setFD this no w = some w1) :
    Owned w1.heap ∧ Shrinks w.heap w1.heap := by
  unfold NETSERVICE.setFD at h
  cases hs : w.heap this with
  | none => rw [hs] at h; cases h
  | some s =>
    rw [hs] at h
    cases h
    refine owned_update w this s _ hO hs ?_ ?_ ?_ ?_
    · split <;> rfl
    · split <;> exact hO.sound this s hs
    · split <;> exact hO.nodup this s hs
    · split <;> exact fun _ hx => hx

theorem accept_owned (os : OS) (addr : Ptr) (fuel : Nat) (this client : Ptr) (r : Int)
    (w w1 : World) (calls : List SysCall) (hO : Owned w.heap) (hu : Unowned w.heap client)
    (h : NETSERVER.accept os addr fuel this client w = some (r, w1, calls)) :
    Owned w1.heap := by
  unfold NETSERVER.accept at h
  cases hs : w.heap this with
  | none => rw [hs] at h; cases h
  | some s =>
    rw [hs] at h
    dsimp only at h
    split at h
    · split at h
      · cases h
      · rename_i wd hwd
        have hd := ((close_owned fuel).2.2 client (w.log (Event.deleteAddress addr)) wd hO hwd).1
        cases h
        exact hd
    · split at h
      · cases h
      · rename_i wa hwa
        obtain ⟨ha1, ha2⟩ := setFD_owned client _ w wa hO hwa
        have hua := unowned_of_shrinks client ha2 hu
        unfold NETSERVICE.setParent at h
        cases hca : wa.heap client with
        | none => rw [hca] at h; cases h
        | some sa =>
          rw [hca] at h
          dsimp only at h
          have hc0 : client ≠ 0 := fun h0 => by rw [h0, ha1.null] at hca; cases hca
          obtain ⟨hb1, hb2⟩ := owned_store_unowned wa client { sa with parent := this } ha1 hc0
            hua (ha1.sound client sa hca) (ha1.nodup client sa hca)
            (fun x hx => ⟨fun hxc => hua client sa hca (hxc ▸ hx),
              ha1.parent client sa hca x hx⟩)
          unfold NETSERVICE.setClientAddress at h
          simp only [World.store_heap, if_true] at h
          obtain ⟨hc1, hc2⟩ := owned_update (wa.store client { sa with parent := this }) client
            { sa with parent := this } { sa with parent := this, clientAddress := addr }
            hb1 (by simp) rfl (ha1.sound client sa hca) (ha1.nodup client sa hca)
            (fun _ hx => hx)
          have huc := unowned_of_shrinks client hc2 hb2
          unfold NETSERVICE.addClient at h
          split at h
          · cases h
          · rename_i wz hwz
            split at hwz
            · cases hwz
            · rename_i sz hsz
              cases hwz
              cases h
              exact owned_adopt _ this client sz
                { sa with parent := this, clientAddress := addr } hc1 hsz (by simp) rfl huc

theorem call_owned (w w1 : World) (hO : Owned w.heap) (h : Call w w1) : Owned w1.heap := by
  cases h with
  | construct p type hp hfree =>
    refine (owned_store_unowned w p _ hO hp (fun S sS hS hx => ?_) VECTOR.init_sound
      (by rw [show (NETSERVICE.init type).clients = VECTOR.init from rfl,
        VECTOR.init_contents]; exact List.nodup_nil)
      (fun x hx => by
        rw [show (NETSERVICE.init type).clients = VECTOR.init from rfl,
          VECTOR.init_contents] at hx
        cases hx)).1
    obtain ⟨sc, hsc, -⟩ := hO.parent S sS hS p hx
    rw [hfree] at hsc
    cases hsc
  | addService service => exact hO
  | removeService service => exact hO
  | create os this no r w1 calls h =>
    unfold NETSERVER.create at h
    dsimp only at h
    split at h
    · cases h; exact hO
    · split at h
      · cases h; exact hO
      · split at h
        · cases h; exact hO
        · split at h
          · cases h
          · rename_i wa hwa
            cases h
            exact (setFD_owned this _ w _ hO hwa).1
  | connect os this addr r w1 calls h =>
    unfold NETCLIENT.connect at h
    dsimp only at h
    split at h
    · cases h; exact hO
    · split at h
      · cases h; exact hO
      · split at h
        · cases h
        · rename_i wa hwa
          cases h
          exact (setFD_owned this _ w _ hO hwa).1
  | accept os addr fuel this client r w1 calls hplace h =>
    exact accept_owned os addr fuel this client r w w1 calls hO hplace h
  | close fuel this w1 h => exact ((close_owned fuel).1 this w w1 hO h).1
  | delete fuel this w1 h => exact ((close_owned fuel).2.2 this w w1 hO h).1

theorem handler_owned (incoming : Ptr → World → World) (hh : Handler incoming) (p : Ptr)
    (w : World) (hO : Owned w.heap) : Owned (incoming p w).heap := by
  have h := hh p w
  generalize incoming p w = w1 at h
  induction h with
  | refl => exact hO
  | tail _ hstep ih => exact call_owned _ _ ih hstep

theorem peek_heap (recvPeek : Int → Int) (this : Ptr) (w w1 : World) (r : Int)
    (h : NETSERVICE.peek recvPeek this w = some (r, w1)) : w1.heap = w.heap := by
  unfold NETSERVICE.peek at h
  split at h
  · cases h
  · split at h <;> (cases h; rfl)

theorem scanClients_owned (incoming : Ptr → World → World) (recvPeek : Int → Int)
    (ready : List Int) (hh : Handler incoming) (fuel : Nat) :
    ∀ service j w w1, Owned w.heap →
      NETWORK.scanClients incoming recvPeek ready fuel service j w = some w1 →
      Owned w1.heap := by
  induction fuel with
  | zero => intro _ _ _ _ _ h; simp [NETWORK.scanClients] at h
  | succ fuel ih =>
    intro service j w w1 hO h
    simp only [NETWORK.scanClients] at h
    split at h
    · cases h
    · split at h
      · split at h
        · cases h
        · split at h
          · split at h
            · split at h
              · cases h
              · rename_i r wa hpk
                have hha := peek_heap recvPeek _ w wa r hpk
                split at h
                · exact ih _ _ _ w1 (handler_owned incoming hh _ _ (by
                    rw [World.log_heap, hha]; exact hO)) h
                · split at h
                  · cases h
                  · rename_i wb hwb
                    have hb := ((close_owned fuel).2.2 _ wa wb (by rw [hha]; exact hO) hwb).1
                    unfold NETSERVICE.removeClient at h
                    split at h
                    · cases h
                    · rename_i wc hwc
                      split at hwc
                      · cases hwc
                      · rename_i sb hsb
                        cases hwc
                        exact ih _ _ _ w1 (owned_remove wb service _ sb hb hsb).1 h
            · exact ih _ _ _ w1 hO h
          · exact ih _ _ _ w1 hO h
      · cases h
        exact hO

theorem dispatchService_owned (incoming : Ptr → World → World) (recvPeek : Int → Int)
    (ready : List Int) (hh : Handler incoming) (fuel : Nat) (service : Ptr) (w w1 : World)
    (hO : Owned w.heap)
    (h : NETWORK.dispatchService incoming recvPeek ready fuel service w = some w1) :
    Owned w1.heap := by
  unfold NETWORK.dispatchService at h
  split at h
  · cases h
  · rename_i s hs
    split at h
    · dsimp only at h
      split at h
      · cases h
      · rename_i service1 wa hr
        have ha : Owned wa.heap := by
          split at hr
          · split at hr
            · cases hr
              exact handler_owned incoming hh _ _ (by rw [World.log_heap]; exact hO)
            · split at hr
              · cases hr
              · rename_i r wp hpk
                have hhp := peek_heap recvPeek _ w wp r hpk
                split at hr
                · cases hr
                  exact handler_owned incoming hh _ _ (by rw [World.log_heap, hhp]; exact hO)
                · split at hr
                  · cases hr
                  · rename_i wf hwf
                    have hf := (setFD_owned service (-1) wp wf (by rw [hhp]; exact hO) hwf).1
                    cases hr
                    exact hf
          · cases hr
            exact hO
        split at h
        · exact scanClients_owned incoming recvPeek ready hh fuel _ _ _ w1 ha h
        · cases h
          exact ha
    · cases h
      exact hO

theorem dispatch_owned (incoming : Ptr → World → World) (recvPeek : Int → Int)
    (ready : List Int) (hh : Handler incoming) (fuel : Nat) :
    ∀ i w w1, Owned w.heap → NETWORK.dispatch incoming recvPeek ready fuel i w = some w1 →
      Owned w1.heap := by
  induction fuel with
  | zero => intro _ _ _ _ h; simp [NETWORK.dispatch] at h
  | succ fuel ih =>
    intro i w w1 hO h
    simp only [NETWORK.dispatch] at h
    split at h
    · split at h
      · cases h
      · rename_i wa hwa
        exact ih _ wa w1
          (dispatchService_owned incoming recvPeek ready hh fuel _ w wa hO hwa) h
    · cases h
      exact hO

theorem run_owned (incoming : Ptr → World → World) (select : List Int → Option (List Int))
    (recvPeek : Int → Int) (hh : Handler incoming) (fuel : Nat) (w w1 : World)
    (hO : Owned w.heap) (h : NETWORK.run incoming select recvPeek fuel w = some w1) :
    Owned w1.heap := by
  unfold NETWORK.run at h
  split at h
  · cases h
  · split at h
    · cases h
      exact hO
    · exact dispatch_owned incoming recvPeek _ hh fuel 0 w w1 hO h

theorem reachable_owned (w : World) (hw : Reachable w) : Owned w.heap := by
  induction hw with
  | start =>
    exact ⟨rfl, fun _ _ h => (by cases h), fun _ _ h => (by cases h),
      fun _ _ h => (by cases h)⟩
  | call w w1 _ h ih => exact call_owned w w1 ih h
  | cycle w w1 incoming select recvPeek fuel _ hh h ih =>
    exact run_owned incoming select recvPeek hh fuel w w1 ih h

theorem adoptedWorld_reachable : Reachable adoptedWorld := by
  have h0 := Reachable.start
  have h1 := Reachable.call _ _ h0 (Call.construct 1 NETSERVICE_SERVER (by decide) rfl)
  have h2 := Reachable.call _ _ h1 (Call.create workingOS 1 8080 1 _ _ rfl)
  have h3 := Reachable.call _ _ h2 (Call.construct 5 NETSERVICE_CLIENT (by decide) rfl)
  have hu : Unowned ((({ net := NETWORK.init, heap := fun _ => none, trace := [] } :
      World).store 1 (NETSERVICE.init NETSERVICE_SERVER)).store 1
        { NETSERVICE.init NETSERVICE_SERVER with fd := 7, filp := some 7 } |>.store 5
        (NETSERVICE.init NETSERVICE_CLIENT)).heap 5 := by
    intro S sS hS
    by_cases h5 : S = 5
    · subst h5
      simp only [World.store_heap, if_true, Option.some.injEq] at hS
      subst hS
      decide
    · by_cases h1 : S = 1
      · subst h1
        simp only [World.store_heap, if_true, Option.some.injEq] at hS
        have hS2 : sS = { NETSERVICE.init NETSERVICE_SERVER with fd := 7, filp := some 7 } := by
          simpa using hS.symm
        subst hS2
        decide
      · simp [World.store_heap, h5, h1] at hS
  exact Reachable.call _ _ h3 (Call.accept workingOS 15 3 1 5 1 _ _ hu rfl)

/-- C16 (as stated, refuted): when the client `5`, which server `1` has accepted, is handed to
`accept` of server `2` as well, both calls succeed and `5` stays in the child collection of
`1` although its parent is now `2`. -/
theorem C16_second_accept_breaks_parent_link :
    ((NETSERVER.accept workingOS 15 3 1 5 twoServersWithPlaceholder).bind
      (fun r => NETSERVER.accept workingOS 16 3 2 5 r.2.1)).map
        (fun r => (r.1, r.2.1.view [1, 2], (r.2.1.heap 5).map (fun s => s.parent))) =
      some (1, ([], [], [some (3, [5]), some (4, [5])]), some 2) := by
  rfl

/-- C16 (amended): in every world reached from the start by constructing services, registering them,
`create`, `connect`, `accept` with a placeholder that is in no child collection, `close`,
`delete` and dispatch cycles whose handlers make such calls, every service stored in the child
collection of a living service lives and has exactly that service as its parent. -/
theorem C16_children_point_to_owner (w : World) (hw : Reachable w) (S : Ptr) (sS : NETSERVICE)
    (hS : w.heap S = some sS) (c : Ptr) (hc : c ∈ sS.clients.contents) :
    ∃ sc, w.heap c = some sc ∧ sc.parent = S :=
  (reachable_owned w hw).parent S sS hS c hc

theorem C16_children_point_to_owner_witness :
    ∃ sS, adoptedWorld.heap 1 = some sS ∧ 5 ∈ sS.clients.contents ∧
      ∃ sc, adoptedWorld.heap 5 = some sc ∧ sc.parent = 1 :=
  ⟨_, rfl, by decide,
    C16_children_point_to_owner adoptedWorld adoptedWorld_reachable 1 _ rfl 5 (by decide)⟩

/-! ## VECTOR: removal, growth and bounds -/

/-- C24: on a vector whose used cells lie inside its block, `removeElement (e)` with `i` the
first index that holds `e` makes the count one less, puts the former last element in
position `i` (when `i` was not the last index) and leaves every other position below the new
count, and the capacity, as they were; when no used cell holds `e`, the vector is unchanged. -/
theorem C24_removeElement_swaps_with_last (v : VECTOR) (e : Ptr)
    (hs : v.numElements ≤ v.elements.length) :
    (∀ i, i < v.count → v.elementAt i = e → (∀ j, j < i → v.elementAt j ≠ e) →
      (v.removeElement e).count = v.count - 1 ∧
      (i ≠ v.count - 1 → (v.removeElement e).elementAt i = v.elementAt (v.count - 1)) ∧
      (∀ j, j < v.count - 1 → j ≠ i → (v.removeElement e).elementAt j = v.elementAt j) ∧
      (v.removeElement e).maxElements = v.maxElements) ∧
    ((∀ j, j < v.count → v.elementAt j ≠ e) → v.removeElement e = v) := by
  constructor
  · intro i hi hie hfirst
    have hrem := VECTOR.removeFrom_found v e v.numElements 0 i (Nat.zero_le _)
      (by unfold VECTOR.count at hi; omega) hie (fun m _ hm => hfirst m hm)
    unfold VECTOR.removeElement
    rw [hrem]
    unfold VECTOR.count VECTOR.elementAt at *
    refine ⟨rfl, fun hne => ?_, fun j hj hji => ?_, rfl⟩
    · simp only [ne_eq, hne, not_false_eq_true, if_true]
      rw [List.getD_eq_getElem?_getD, List.getElem?_set_self (by omega)]
      rfl
    · dsimp only
      split
      · rw [List.getD_eq_getElem?_getD, List.getElem?_set_ne (Ne.symm hji),
          ← List.getD_eq_getElem?_getD]
      · rfl
  · intro h
    unfold VECTOR.removeElement
    exact VECTOR.removeFrom_not_found v e v.numElements 0 (fun j _ hj => h j (by
      unfold VECTOR.count; omega))

theorem C24_removeElement_swaps_with_last_witness :
    (∀ i, i < nineElements.count → nineElements.elementAt i = 3 →
      (∀ j, j < i → nineElements.elementAt j ≠ 3) →
      (nineElements.removeElement 3).count = nineElements.count - 1 ∧
      (i ≠ nineElements.count - 1 →
        (nineElements.removeElement 3).elementAt i =
          nineElements.elementAt (nineElements.count - 1)) ∧
      (∀ j, j < nineElements.count - 1 → j ≠ i →
        (nineElements.removeElement 3).elementAt j = nineElements.elementAt j) ∧
      (nineElements.removeElement 3).maxElements = nineElements.maxElements) ∧
    ((∀ j, j < nineElements.count → nineElements.elementAt j ≠ 3) →
      nineElements.removeElement 3 = nineElements) :=
  C24_removeElement_swaps_with_last nineElements 3 (by decide)

theorem steps_capacity (ops : List VecOp) (v : VECTOR) (h : ∃ k, v.maxElements = 10 * 2 ^ k) :
    ∃ k, (ops.foldl VECTOR.step v).maxElements = 10 * 2 ^ k := by
  induction ops generalizing v with
  | nil => exact h
  | cons op ops ih =>
    apply ih
    obtain ⟨k, hk⟩ := h
    cases op with
    | add e =>
      show ∃ k, (v.addElement e).maxElements = 10 * 2 ^ k
      unfold VECTOR.addElement
      split
      · exact ⟨k + 1, by dsimp only; rw [hk, Nat.pow_succ, Nat.mul_assoc]⟩
      · exact ⟨k, hk⟩
    | remove e =>
      show ∃ k, (v.removeElement e).maxElements = 10 * 2 ^ k
      unfold VECTOR.removeElement
      rw [(VECTOR.removeFrom_shape v e v.numElements 0).1]
      exact ⟨k, hk⟩

/-- With unbounded counters and an allocator that never fails, every vector reached from the
constructor by `addElement` and `removeElement` calls has `numElements < maxElements`, a
capacity `10 * 2 ^ k` and a block of exactly that many cells; so the cell the next
`addElement` writes lies inside the block that call leaves, and every index below `count ()`
lies inside the block. -/
theorem steps_in_bounds (ops : List VecOp) :
    (VECTOR.steps ops).numElements < (VECTOR.steps ops).maxElements ∧
    (∃ k, (VECTOR.steps ops).maxElements = 10 * 2 ^ k) ∧
    (VECTOR.steps ops).elements.length = (VECTOR.steps ops).maxElements ∧
    (∀ e, (VECTOR.steps ops).numElements <
      ((VECTOR.steps ops).addElement e).elements.length) ∧
    (∀ i, i < (VECTOR.steps ops).count → i < (VECTOR.steps ops).elements.length) := by
  obtain ⟨hs, -, -⟩ := steps_from ops VECTOR.init [] VECTOR.init_sound
    (by rw [VECTOR.init_contents])
  have hs2 : (VECTOR.steps ops).Sound := hs
  refine ⟨hs2.2, steps_capacity ops VECTOR.init ⟨0, rfl⟩, hs2.1, fun e => ?_, fun i hi => ?_⟩
  · have h1 := VECTOR.addElement_sound _ e hs2
    have h2 := VECTOR.addElement_numElements (VECTOR.steps ops) e
    unfold VECTOR.Sound at h1
    omega
  · unfold VECTOR.count at hi
    unfold VECTOR.Sound at hs2
    omega

/-! ## Building a query -/

theorem poke_get (o o1 : Output) (i : Nat) (ch : Char) (h : o.poke i ch = some o1) :
    o1.mem.length = o.mem.length ∧ i < o.mem.length ∧ o1.mem[i]? = some ch ∧
    ∀ j, j ≠ i → o1.mem[j]? = o.mem[j]? := by
  unfold Output.poke at h
  split at h
  · next hi =>
    cases h
    refine ⟨by simp, hi, by simp [List.getElem?_set_self hi], fun j hj => ?_⟩
    simp [List.getElem?_set_ne (Ne.symm hj)]
  · cases h

theorem pokeAll_get (l : List Char) (i : Nat) (o o1 : Output)
    (h : Output.pokeAll l i o = some o1) :
    o1.mem.length = o.mem.length ∧ (∀ j, j < l.length → o1.mem[i + j]? = l[j]?) ∧
    ∀ j, (j < i ∨ i + l.length ≤ j) → o1.mem[j]? = o.mem[j]? := by
  induction l generalizing i o with
  | nil =>
    cases h
    exact ⟨rfl, fun j hj => by simp at hj, fun _ _ => rfl⟩
  | cons ch rest ih =>
    simp only [Output.pokeAll] at h
    split at h
    · cases h
    · next oa ha =>
      obtain ⟨h1, h2, h3, h4⟩ := poke_get o oa i ch ha
      obtain ⟨h5, h6, h7⟩ := ih (i + 1) oa h
      refine ⟨h5.trans h1, fun j hj => ?_, fun j hj => ?_⟩
      · cases j with
        | zero =>
          rw [Nat.add_zero, h7 i (Or.inl (Nat.lt_succ_self i)), h3]
          simp
        | succ j =>
          have := h6 j (by simpa using hj)
          rw [show i + (j + 1) = i + 1 + j by omega, this]
          simp
      · rw [h7 j (by simp only [List.length_cons] at hj; omega),
          h4 j (by simp only [List.length_cons] at hj; omega)]

theorem indexOf_drop_zero (m : List Char) (dst : Nat) (hz : m[dst]? = some NUL) :
    NUL ∈ m.drop dst ∧ (m.drop dst).indexOf NUL = 0 := by
  have hlt : dst < m.length := by
    by_contra hge
    rw [List.getElem?_eq_none (by omega)] at hz
    cases hz
  have hd : m.drop dst = NUL :: m.drop (dst + 1) := by
    rw [List.drop_eq_getElem_cons hlt]
    congr 1
    rw [List.getElem?_eq_getElem hlt] at hz
    exact Option.some.inj hz
  rw [hd]
  exact ⟨List.mem_cons_self _ _, by simp [List.indexOf_cons_self]⟩

/-- `strcat` onto an empty C string stores the source and a terminator right there. -/
theorem strcat_get (o o1 : Output) (dst : Nat) (src : List Char)
    (h : o.strcat dst src = some o1) (hz : o.mem[dst]? = some NUL) :
    o1.mem.length = o.mem.length ∧ (∀ j, j < src.length → o1.mem[dst + j]? = src[j]?) ∧
    o1.mem[dst + src.length]? = some NUL ∧
    ∀ j, (j < dst ∨ dst + src.length + 1 ≤ j) → o1.mem[j]? = o.mem[j]? := by
  obtain ⟨hm, hi⟩ := indexOf_drop_zero o.mem dst hz
  unfold Output.strcat at h
  rw [if_pos hm, hi, Nat.add_zero] at h
  obtain ⟨h1, h2, h3⟩ := pokeAll_get _ dst o o1 h
  refine ⟨h1, fun j hj => ?_, ?_, fun j hj => ?_⟩
  · rw [h2 j (by simp; omega)]
    exact List.getElem?_append_left hj
  · rw [h2 src.length (by simp), List.getElem?_append_right (Nat.le_refl _)]
    simp
  · exact h3 j (by simp only [List.length_append, List.length_singleton]; omega)

/-- `strcat` of the empty string changes no byte. -/
theorem strcat_nil_get (o o1 : Output) (dst : Nat) (h : o.strcat dst [] = some o1) :
    ∀ j : Nat, o1.mem[j]? = o.mem[j]? := by
  unfold Output.strcat at h
  split at h
  · next hm =>
    have hlt := List.indexOf_lt_length.mpr hm
    have hget : (o.mem.drop dst)[(o.mem.drop dst).indexOf NUL]? = some NUL := by
      rw [List.getElem?_eq_getElem hlt]
      simp
    rw [List.getElem?_drop] at hget
    obtain ⟨-, h2, h3⟩ := pokeAll_get _ _ o o1 h
    intro j
    by_cases hj : j = dst + (o.mem.drop dst).indexOf NUL
    · have := h2 0 (by simp)
      rw [Nat.add_zero] at this
      rw [hj, this, hget]
      rfl
    · exact h3 j (by simp only [List.nil_append, List.length_singleton]; omega)
  · cases h

theorem agree_append (m pre x : List Char) (n : Nat) (hn : pre.length = n)
    (h1 : ∀ j, j < n → m[j]? = pre[j]?) (h2 : ∀ k, k < x.length → m[n + k]? = x[k]?) :
    ∀ j, j < n + x.length → m[j]? = (pre ++ x)[j]? := by
  intro j hj
  by_cases hjn : j < n
  · rw [h1 j hjn, List.getElem?_append_left (by omega)]
  · have := h2 (j - n) (by omega)
    rw [show n + (j - n) = j by omega] at this
    rw [this, List.getElem?_append_right (by omega), hn]

theorem agree_single (m pre : List Char) (n : Nat) (ch : Char) (hn : pre.length = n)
    (h1 : ∀ j, j < n → m[j]? = pre[j]?) (h2 : m[n]? = some ch) :
    ∀ j, j < n + 1 → m[j]? = (pre ++ [ch])[j]? := by
  apply agree_append m pre [ch] n hn h1
  intro k hk
  have hk0 : k = 0 := by simpa using hk
  subst hk0
  simpa using h2

/-- The bytes after the three stores `'`, `strcat`, `'` of the `?` and `#` branches. -/
theorem quoted_get (o o1 o2 o3 : Output) (outlen n : Nat) (R : List Char)
    (hzero : ∀ j, n ≤ j → j < outlen → o.mem[j]? = some NUL)
    (hfit : n + R.length < outlen)
    (h1 : o.poke n QUOTE = some o1) (h2 : o1.strcat (n + 1) R = some o2)
    (h3 : o2.poke (n + 1 + R.length) QUOTE = some o3) :
    (∀ j, j < n → o3.mem[j]? = o.mem[j]?) ∧ o3.mem[n]? = some QUOTE ∧
    (∀ k, k < R.length → o3.mem[n + 1 + k]? = R[k]?) ∧
    o3.mem[n + 1 + R.length]? = some QUOTE ∧
    ∀ j, n + 1 + R.length + 1 ≤ j → j < outlen → o3.mem[j]? = some NUL := by
  obtain ⟨-, -, a1, a2⟩ := poke_get o o1 n QUOTE h1
  obtain ⟨-, -, c1, c2⟩ := poke_get o2 o3 _ QUOTE h3
  by_cases hR : R = []
  · subst hR
    have b := strcat_nil_get o1 o2 (n + 1) h2
    refine ⟨fun j hj => ?_, ?_, fun k hk => by simp at hk, c1, fun j hj hjo => ?_⟩
    · rw [c2 j (by simp; omega), b j, a2 j (by omega)]
    · rw [c2 n (by simp), b n, a1]
    · simp only [List.length_nil, Nat.add_zero] at hj
      rw [c2 j (by simp; omega), b j, a2 j (by omega)]
      exact hzero j (by omega) hjo
  · have hpos : 0 < R.length := List.length_pos.mpr hR
    have hz1 : o1.mem[n + 1]? = some NUL := by
      rw [a2 (n + 1) (by omega)]
      exact hzero (n + 1) (by omega) (by omega)
    obtain ⟨-, b1, -, b3⟩ := strcat_get o1 o2 (n + 1) R h2 hz1
    refine ⟨fun j hj => ?_, ?_, fun k hk => ?_, c1, fun j hj hjo => ?_⟩
    · rw [c2 j (by omega), b3 j (by omega), a2 j (by omega)]
    · rw [c2 n (by omega), b3 n (by omega), a1]
    · rw [c2 _ (by omega), b1 k hk]
    · rw [c2 j (by omega), b3 j (by omega), a2 j (by omega)]
      exact hzero j (by omega) hjo

theorem build_queryLoop_spec (escape : List Char → List Char) (outlen : Nat)
    (ptr : List Char) :
    ∀ (va : List QueryArg) (n : Nat) (o : Output) (pre : List Char) (r : Int) (o1 : Output),
      pre.length = n → (∀ j, j < n → o.mem[j]? = pre[j]?) →
      (∀ j, n ≤ j → j < outlen → o.mem[j]? = some NUL) →
      build_queryLoop escape outlen ptr va n o = some (r, o1) → r ≠ 0 →
      ∃ t, expandQuery escape ptr va = some t ∧
        (∀ j, j < n + t.length → o1.mem[j]? = (pre ++ t)[j]?) ∧
        o1.mem[n + t.length]? = some NUL := by
  induction ptr with
  | nil =>
    intro va n o pre r o1 hn hpre _ h _
    simp only [build_queryLoop] at h
    split at h
    · cases h
    · next oa ha =>
      obtain ⟨-, -, a1, a2⟩ := poke_get o oa n NUL ha
      cases h
      refine ⟨[], rfl, fun j hj => ?_, by simpa using a1⟩
      simp only [List.length_nil, Nat.add_zero] at hj
      rw [a2 j (by omega), hpre j hj, List.append_nil]
  | cons ch ptr ih =>
    intro va n o pre r o1 hn hpre hzero h hr
    simp only [build_queryLoop] at h
    simp only [expandQuery]
    by_cases hq : ch = '?'
    · rw [if_pos hq] at h ⊢
      split at h
      · next tmp_ptr va1 =>
        split at h
        · cases h
        · split at h
          · cases h; exact absurd rfl hr
          · next hfit =>
            split at h
            · cases h
            · next oa ha =>
              split at h
              · cases h
              · next ob hb =>
                split at h
                · cases h
                · next oc hc =>
                  obtain ⟨q1, q2, q3, q4, q5⟩ := quoted_get o oa ob oc outlen n _ hzero
                    (by omega) ha hb hc
                  have g1 := agree_single oc.mem pre n QUOTE hn
                    (fun j hj => (q1 j hj).trans (hpre j hj)) q2
                  have g2 := agree_append oc.mem (pre ++ [QUOTE]) (cstr (escape tmp_ptr))
                    (n + 1) (by simp [hn]) g1 q3
                  have g3 := agree_single oc.mem ((pre ++ [QUOTE]) ++ cstr (escape tmp_ptr))
                    (n + 1 + (cstr (escape tmp_ptr)).length) QUOTE (by simp [hn]; omega) g2 q4
                  obtain ⟨t, ht, t1, t2⟩ := ih va1 _ oc _ r o1 (by simp [hn]; omega) g3 q5 h hr
                  refine ⟨QUOTE :: (cstr (escape tmp_ptr) ++ QUOTE :: t), by simp [ht],
                    fun j hj => ?_, ?_⟩
                  · have := t1 j (by simp at hj ⊢; omega)
                    rw [this]
                    simp
                  · rw [← t2]
                    congr 1
                    simp
                    omega
      · cases h
    · rw [if_neg hq] at h ⊢
      by_cases hh : ch = '#'
      · rw [if_pos hh] at h ⊢
        split at h
        · next i va1 =>
          split at h
          · cases h; exact absurd rfl hr
          · next hfit =>
            split at h
            · cases h
            · next oa ha =>
              split at h
              · cases h
              · next ob hb =>
                split at h
                · cases h
                · next oc hc =>
                  obtain ⟨q1, q2, q3, q4, q5⟩ := quoted_get o oa ob oc outlen n _ hzero
                    (by omega) ha hb hc
                  have g1 := agree_single oc.mem pre n QUOTE hn
                    (fun j hj => (q1 j hj).trans (hpre j hj)) q2
                  have g2 := agree_append oc.mem (pre ++ [QUOTE]) (formatUnsigned i)
                    (n + 1) (by simp [hn]) g1 q3
                  have g3 := agree_single oc.mem ((pre ++ [QUOTE]) ++ formatUnsigned i)
                    (n + 1 + (formatUnsigned i).length) QUOTE (by simp [hn]; omega) g2 q4
                  obtain ⟨t, ht, t1, t2⟩ := ih va1 _ oc _ r o1 (by simp [hn]; omega) g3 q5 h hr
                  refine ⟨QUOTE :: (formatUnsigned i ++ QUOTE :: t), by simp [ht],
                    fun j hj => ?_, ?_⟩
                  · have := t1 j (by simp at hj ⊢; omega)
                    rw [this]
                    simp
                  · rw [← t2]
                    congr 1
                    simp
                    omega
        · cases h
      · rw [if_neg hh] at h ⊢
        by_cases ha : ch = '@'
        · rw [if_pos ha] at h ⊢
          split at h
          · next i va1 =>
            split at h
            · cases h; exact absurd rfl hr
            · next hfit =>
              split at h
              · cases h
              · next oa hoa =>
                obtain ⟨-, b1, b2, b3⟩ := strcat_get o oa n (formatUnsigned i) hoa
                  (hzero n (Nat.le_refl _) (by omega))
                have g1 := agree_append oa.mem pre (formatUnsigned i) n hn
                  (fun j hj => (b3 j (Or.inl hj)).trans (hpre j hj)) b1
                have g2 : ∀ j, n + (formatUnsigned i).length ≤ j → j < outlen →
                    oa.mem[j]? = some NUL := by
                  intro j hj hjo
                  by_cases hje : j = n + (formatUnsigned i).length
                  · rw [hje]; exact b2
                  · rw [b3 j (by omega)]
                    exact hzero j (by omega) hjo
                obtain ⟨t, ht, t1, t2⟩ := ih va1 _ oa _ r o1 (by simp [hn]) g1 g2 h hr
                refine ⟨formatUnsigned i ++ t, by simp [ht], fun j hj => ?_, ?_⟩
                · have := t1 j (by simp at hj ⊢; omega)
                  rw [this]
                  simp
                · rw [← t2]
                  congr 1
                  simp
                  omega
          · cases h
        · rw [if_neg ha] at h ⊢
          split at h
          · cases h; exact absurd rfl hr
          · next hfit =>
            split at h
            · cases h
            · next oa hoa =>
              obtain ⟨-, -, a1, a2⟩ := poke_get o oa n ch hoa
              have g1 := agree_single oa.mem pre n ch hn
                (fun j hj => (a2 j (by omega)).trans (hpre j hj)) a1
              obtain ⟨t, ht, t1, t2⟩ := ih va _ oa _ r o1 (by simp [hn]) g1
                (fun j hj hjo => (a2 j (by omega)).trans (hzero j (by omega) hjo)) h hr
              refine ⟨ch :: t, by simp [ht], fun j hj => ?_, ?_⟩
              · have := t1 j (by simp at hj ⊢; omega)
                rw [this]
                simp
              · rw [← t2]
                congr 1
                simp
                omega

/-- C27 (code defect): with `outlen` 3, the query `?` and a string argument of two characters,
`build_query` returns 1 after storing the closing quote at index 3 and the terminator at
index 4, while on the query `#` with a two-digit number it returns 0 after the `memset`
alone. -/
theorem C27_string_argument_overruns_output :
    (build_query doubleQuotes eightBytes 3 "?".toList [.str "ab".toList]).map
        (fun r => (r.1, r.2.mem, r.2.written)) =
      some (1, [QUOTE, 'a', 'b', QUOTE, NUL, 'x', 'x', 'x'], [0, 1, 2, 0, 1, 2, 3, 3, 4]) ∧
    (build_query doubleQuotes eightBytes 3 "#".toList [.num 12]).map
        (fun r => (r.1, r.2.written)) = some (0, [0, 1, 2]) := by
  decide

/-- C28 (as stated, refuted): for the `int` argument -1 the queries `@` and `#` expand to
`4294967295` and to that text in single quotes, not to the decimal text of -1. -/
theorem C28_negative_number_printed_unsigned :
    (build_query doubleQuotes (List.replicate 16 'x') 14 "@".toList [.num (-1)]).map
        (fun r => (r.1, cstr r.2.mem)) = some (1, "4294967295".toList) ∧
    (build_query doubleQuotes (List.replicate 16 'x') 14 "#".toList [.num (-1)]).map
        (fun r => (r.1, cstr r.2.mem)) =
      some (1, QUOTE :: ("4294967295".toList ++ [QUOTE])) := by
  decide

/-- C28 (amended): whenever `build_query` returns non-zero, the arguments sufficed, and the
output holds the expanded query (every `?` replaced by the escaped string argument in single
quotes, every `#` by the decimal text of the number argument read as an unsigned 32-bit
number, in single quotes, every `@` by that text without quotes, every other character
copied, arguments consumed from left to right) followed by a terminator. -/
theorem C28_output_is_expanded_query (escape : List Char → List Char) (mem : List Char)
    (outlen : Nat) (query : List Char) (va : List QueryArg) (r : Int) (o : Output)
    (h : build_query escape mem outlen query va = some (r, o)) (hr : r ≠ 0) :
    ∃ t, expandQuery escape (cstr query) va = some t ∧ o.mem.take t.length = t ∧
      o.mem[t.length]? = some NUL := by
  unfold build_query at h
  split at h
  · cases h
  · next oz hz =>
    obtain ⟨-, z1, -⟩ := pokeAll_get _ 0 _ oz hz
    have hzero : ∀ j, 0 ≤ j → j < outlen → oz.mem[j]? = some NUL := by
      intro j _ hj
      have := z1 j (by simpa using hj)
      rw [Nat.zero_add] at this
      rw [this]
      simp [hj]
    obtain ⟨t, ht, t1, t2⟩ := build_queryLoop_spec escape outlen (cstr query) va 0 oz [] r o
      rfl (fun j hj => absurd hj (Nat.not_lt_zero j)) hzero h hr
    rw [Nat.zero_add] at t2
    refine ⟨t, ht, ?_, t2⟩
    apply List.ext_getElem?
    intro j
    by_cases hj : j < t.length
    · rw [List.getElem?_take_of_lt hj, t1 j (by omega)]
      rfl
    · rw [List.getElem?_eq_none (by simp; omega), List.getElem?_eq_none (by omega)]

theorem C28_output_is_expanded_query_witness :
    ∃ t, expandQuery doubleQuotes (cstr "n=? i=@".toList) [.str "a".toList, .num 7] = some t ∧
      ((smallQuery.getD (0, { mem := [], written := [] })).2.mem.take t.length = t) ∧
      (smallQuery.getD (0, { mem := [], written := [] })).2.mem[t.length]? = some NUL :=
  C28_output_is_expanded_query doubleQuotes (List.replicate 16 'x') 14 "n=? i=@".toList
    [.str "a".toList, .num 7] 1 (smallQuery.getD (0, { mem := [], written := [] })).2
    (by decide) (by decide)

/-! ## Facts about the configuration buffer -/

theorem nosection_ne_ok : CONFIGFILE_ERROR_NOSECTION ≠ CONFIGFILE_OK := by decide

theorem novalue_ne_ok : CONFIGFILE_ERROR_NOVALUE ≠ CONFIGFILE_OK := by decide

theorem takeWhile_drop_of_le {α : Type} (p : α → Bool) :
    ∀ (l : List α) (k : Nat), k ≤ (l.takeWhile p).length →
      (l.drop k).takeWhile p = (l.takeWhile p).drop k
  | _, 0, _ => rfl
  | [], _ + 1, _ => by simp
  | a :: l, k + 1, h => by
    by_cases hp : p a = true
    · rw [List.takeWhile_cons_of_pos hp] at h ⊢
      simp only [List.drop_succ_cons]
      exact takeWhile_drop_of_le p l k (by simpa using h)
    · rw [List.takeWhile_cons_of_neg hp] at h
      simp at h

theorem drop_takeWhile_length {α : Type} (p : α → Bool) :
    ∀ l : List α, l.drop (l.takeWhile p).length = l.dropWhile p
  | [] => rfl
  | a :: l => by
    by_cases hp : p a = true
    · rw [List.takeWhile_cons_of_pos hp, List.dropWhile_cons_of_pos hp]
      exact drop_takeWhile_length p l
    · rw [List.takeWhile_cons_of_neg hp, List.dropWhile_cons_of_neg hp]
      rfl

theorem take_takeWhile_length {α : Type} (p : α → Bool) :
    ∀ l : List α, l.take (l.takeWhile p).length = l.takeWhile p
  | [] => rfl
  | a :: l => by
    by_cases hp : p a = true
    · rw [List.takeWhile_cons_of_pos hp]
      simp only [List.length_cons, List.take_succ_cons]
      rw [take_takeWhile_length p l]
    · rw [List.takeWhile_cons_of_neg hp]
      rfl

theorem takeWhile_length_le {α : Type} (p : α → Bool) :
    ∀ l : List α, (l.takeWhile p).length ≤ l.length
  | [] => le_refl _
  | a :: l => by
    by_cases hp : p a = true
    · rw [List.takeWhile_cons_of_pos hp]
      simp only [List.length_cons]
      have := takeWhile_length_le p l
      omega
    · rw [List.takeWhile_cons_of_neg hp]
      simp

theorem first_split {α : Type} (p : α → Bool) :
    ∀ ls : List α, (∀ l ∈ ls, p l = false) ∨
      ∃ pre hd post, ls = pre ++ hd :: post ∧ (∀ l ∈ pre, p l = false) ∧ p hd = true
  | [] => Or.inl (by simp)
  | a :: ls => by
    by_cases ha : p a = true
    · exact Or.inr ⟨[], a, ls, rfl, by simp, ha⟩
    · rcases first_split p ls with h | ⟨pre, hd, post, h1, h2, h3⟩
      · left
        intro l hl
        rcases List.mem_cons.1 hl with rfl | hl
        · simpa using ha
        · exact h l hl
      · right
        refine ⟨a :: pre, hd, post, by rw [h1]; rfl, ?_, h3⟩
        intro l hl
        rcases List.mem_cons.1 hl with rfl | hl
        · simpa using ha
        · exact h2 l hl

namespace CONFIGFILE

theorem str_add (c : CONFIGFILE) (p k : Nat) (h : k ≤ (c.str p).length) :
    c.str (p + k) = (c.str p).drop k := by
  unfold str cstr at *
  rw [← List.drop_drop]
  exact takeWhile_drop_of_le _ _ k h

theorem str_blanks (c : CONFIGFILE) (p : Nat) :
    c.str (p + ((c.str p).takeWhile isBlank).length) = (c.str p).dropWhile isBlank := by
  rw [str_add c p _ (takeWhile_length_le isBlank (c.str p)), drop_takeWhile_length]

theorem walk_append (c : CONFIGFILE) :
    ∀ (pre : List (List Char)) (ofs : Nat) (post : List (List Char)),
      c.Walk ofs (pre ++ post) → ∃ o, ofs ≤ o ∧ c.Walk o post
  | [], ofs, _, h => ⟨ofs, le_refl _, h⟩
  | l :: pre, ofs, post, h => by
    obtain ⟨_, _, h3⟩ := h
    obtain ⟨o, ho, hw⟩ := walk_append c pre _ post h3
    exact ⟨o, by omega, hw⟩

theorem walk_linesFrom (c : CONFIGFILE) :
    ∀ (fuel ofs : Nat), c.buf_length ≤ ofs + fuel → c.Walk ofs (c.linesFrom fuel ofs)
  | 0, ofs, h => by
    simpa [linesFrom, Walk] using h
  | fuel + 1, ofs, h => by
    unfold linesFrom
    by_cases ho : ofs ≥ c.buf_length
    · rw [if_pos ho]
      exact ho
    · rw [if_neg ho]
      exact ⟨by omega, rfl, walk_linesFrom c fuel _ (by omega)⟩

theorem walk_lines (c : CONFIGFILE) : c.Walk 0 c.lines :=
  walk_linesFrom c c.buf_length 0 (by omega)

theorem walk_length (c : CONFIGFILE) :
    ∀ (ls : List (List Char)) (ofs : Nat), c.Walk ofs ls → ofs + ls.length ≤ max ofs c.buf_length
  | [], ofs, _ => by simp
  | l :: ls, ofs, h => by
    obtain ⟨h1, _, h3⟩ := h
    have := walk_length c ls _ h3
    simp only [List.length_cons]
    omega

theorem lines_length (c : CONFIGFILE) : c.lines.length ≤ c.buf_length := by
  have := walk_length c c.lines 0 (walk_lines c)
  omega

theorem scan_sectionLoop_step (c : CONFIGFILE) (offset fuel ofs : Nat)
    (h : ofs < c.buf_length) :
    c.scan_sectionLoop offset (fuel + 1) ofs =
      if isHeader (c.str ofs) then
        some (CONFIGFILE_OK, some (ofs + 1), ofs + (c.str ofs).length + 1)
      else c.scan_sectionLoop offset fuel (ofs + (c.str ofs).length + 1) := by
  rw [scan_sectionLoop, if_neg (by omega)]
  rfl

theorem scan_sectionLoop_none (c : CONFIGFILE) (offset : Nat) :
    ∀ (ls : List (List Char)) (ofs fuel : Nat), c.Walk ofs ls → ls.length < fuel →
      (∀ l ∈ ls, isHeader l = false) →
      c.scan_sectionLoop offset fuel ofs = some (CONFIGFILE_ERROR_NOSECTION, none, offset)
  | _, _, 0, _, hf, _ => by omega
  | [], ofs, fuel + 1, hw, _, _ => by
    have hw1 : ofs ≥ c.buf_length := hw
    rw [scan_sectionLoop, if_pos hw1]
  | l :: ls, ofs, fuel + 1, hw, hf, hn => by
    obtain ⟨h1, h2, h3⟩ := hw
    rw [scan_sectionLoop_step c offset fuel ofs h1, h2, hn l (List.mem_cons_self _ _)]
    simp only [Bool.false_eq_true, if_false]
    exact scan_sectionLoop_none c offset ls _ fuel h3 (by simpa using hf)
      (fun x hx => hn x (List.mem_cons_of_mem _ hx))

theorem scan_sectionLoop_found (c : CONFIGFILE) (offset : Nat) (hd : List Char)
    (post : List (List Char)) (hh : isHeader hd = true) :
    ∀ (pre : List (List Char)) (ofs fuel : Nat), c.Walk ofs (pre ++ hd :: post) →
      pre.length < fuel → (∀ l ∈ pre, isHeader l = false) →
      ∃ oh, ofs ≤ oh ∧ c.str oh = hd ∧ c.Walk (oh + hd.length + 1) post ∧
        c.scan_sectionLoop offset fuel ofs =
          some (CONFIGFILE_OK, some (oh + 1), oh + hd.length + 1)
  | _, _, 0, _, hf, _ => by omega
  | [], ofs, fuel + 1, hw, _, _ => by
    obtain ⟨h1, h2, h3⟩ := hw
    refine ⟨ofs, le_refl _, h2, h3, ?_⟩
    rw [scan_sectionLoop_step c offset fuel ofs h1, h2, hh]
    rfl
  | l :: pre, ofs, fuel + 1, hw, hf, hn => by
    obtain ⟨h1, h2, h3⟩ := hw
    obtain ⟨oh, ho, hs, hp, hr⟩ := scan_sectionLoop_found c offset hd post hh pre _ fuel h3
      (by simpa using hf) (fun x hx => hn x (List.mem_cons_of_mem _ hx))
    refine ⟨oh, by omega, hs, hp, ?_⟩
    rw [scan_sectionLoop_step c offset fuel ofs h1, h2, hn l (List.mem_cons_self _ _)]
    simpa using hr

theorem scan_valueLoop_break (c : CONFIGFILE) (offset fuel ofs : Nat)
    (h : ofs < c.buf_length) (hb : isBreak (c.str ofs) = true) :
    c.scan_valueLoop offset (fuel + 1) ofs = some (CONFIGFILE_ERROR_NOVALUE, none, offset) := by
  rw [scan_valueLoop, if_neg (by omega)]
  simp only [str_blanks]
  rw [if_pos (by simpa [isBreak] using hb)]

theorem scan_valueLoop_value (c : CONFIGFILE) (offset fuel ofs : Nat)
    (h : ofs < c.buf_length) (hv : isValueLine (c.str ofs) = true) :
    ∃ x_name x_val, c.str x_name = (c.str ofs).dropWhile isBlank ∧
      c.str x_val = lineValue (c.str ofs) ∧
      c.scan_valueLoop offset (fuel + 1) ofs =
        some (CONFIGFILE_OK, some (x_name, x_val), ofs + (c.str ofs).length + 1) := by
  simp only [isValueLine, Bool.and_eq_true, decide_eq_true_eq] at hv
  obtain ⟨hv1, hv2, hv3⟩ := hv
  have hk : (List.dropWhile isBlank (c.str ofs)).indexOf '=' + 1 ≤
      (List.dropWhile isBlank (c.str ofs)).length := List.indexOf_lt_length.2 hv3
  refine ⟨ofs + ((c.str ofs).takeWhile isBlank).length,
    ofs + ((c.str ofs).takeWhile isBlank).length +
      ((c.str ofs).dropWhile isBlank).indexOf '=' + 1 +
      ((c.str (ofs + ((c.str ofs).takeWhile isBlank).length +
        ((c.str ofs).dropWhile isBlank).indexOf '=' + 1)).takeWhile isBlank).length,
    str_blanks c ofs, ?_, ?_⟩
  · rw [str_blanks]
    unfold lineValue
    congr 1
    rw [Nat.add_assoc, str_add c _ _ (by rw [str_blanks]; exact hk), str_blanks]
  · rw [scan_valueLoop, if_neg (by omega)]
    simp only [str_blanks]
    rw [if_neg hv1, if_pos hv2]
    simp only [strchr, if_pos hv3]

theorem scan_valueLoop_skip (c : CONFIGFILE) (offset fuel ofs : Nat)
    (h : ofs < c.buf_length) (hb : isBreak (c.str ofs) = false)
    (hv : isValueLine (c.str ofs) = false) :
    c.scan_valueLoop offset (fuel + 1) ofs =
      c.scan_valueLoop offset fuel (ofs + (c.str ofs).length + 1) := by
  have hb1 : ¬ (List.dropWhile isBlank (c.str ofs)).head? = some '[' := by
    simpa [isBreak] using hb
  rw [scan_valueLoop, if_neg (by omega)]
  simp only [str_blanks]
  rw [if_neg hb1]
  by_cases h2 : (List.dropWhile isBlank (c.str ofs)).head? = some '#'
  · rw [if_neg (by simpa using h2)]
  · rw [if_pos h2]
    have h3 : '=' ∉ List.dropWhile isBlank (c.str ofs) := by
      intro h3
      simp [isValueLine, hb1, h2, h3] at hv
    simp only [strchr, if_neg h3]

/-- A line that `scan_value` neither stops at nor returns. -/
theorem scan_valueLoop_none (c : CONFIGFILE) (offset : Nat) :
    ∀ (ls : List (List Char)) (ofs fuel : Nat), c.Walk ofs ls → ls.length < fuel →
      (∀ l ∈ ls, (isBreak l || isValueLine l) = false) →
      c.scan_valueLoop offset fuel ofs = some (CONFIGFILE_ERROR_NOVALUE, none, offset)
  | _, _, 0, _, hf, _ => by omega
  | [], ofs, fuel + 1, hw, _, _ => by
    have hw1 : ofs ≥ c.buf_length := hw
    rw [scan_valueLoop, if_pos hw1]
  | l :: ls, ofs, fuel + 1, hw, hf, hn => by
    obtain ⟨h1, h2, h3⟩ := hw
    have hl := hn l (List.mem_cons_self _ _)
    rw [Bool.or_eq_false_iff] at hl
    rw [scan_valueLoop_skip c offset fuel ofs h1 (by rw [h2]; exact hl.1)
      (by rw [h2]; exact hl.2), h2]
    exact scan_valueLoop_none c offset ls _ fuel h3 (by simpa using hf)
      (fun x hx => hn x (List.mem_cons_of_mem _ hx))

theorem scan_valueLoop_first (c : CONFIGFILE) (offset : Nat) (hd : List Char)
    (post : List (List Char)) :
    ∀ (pre : List (List Char)) (ofs fuel : Nat), c.Walk ofs (pre ++ hd :: post) →
      pre.length < fuel → (∀ l ∈ pre, (isBreak l || isValueLine l) = false) →
      (isBreak hd = true →
        c.scan_valueLoop offset fuel ofs = some (CONFIGFILE_ERROR_NOVALUE, none, offset)) ∧
      (isBreak hd = false → isValueLine hd = true →
        ∃ x_name x_val o1, ofs < o1 ∧ c.Walk o1 post ∧
          c.str x_name = hd.dropWhile isBlank ∧ c.str x_val = lineValue hd ∧
          c.scan_valueLoop offset fuel ofs = some (CONFIGFILE_OK, some (x_name, x_val), o1))
  | _, _, 0, _, hf, _ => by omega
  | [], ofs, fuel + 1, hw, _, _ => by
    obtain ⟨h1, h2, h3⟩ := hw
    constructor
    · intro hb
      exact scan_valueLoop_break c offset fuel ofs h1 (by rw [h2]; exact hb)
    · intro _ hv
      obtain ⟨xn, xv, e1, e2, e3⟩ := scan_valueLoop_value c offset fuel ofs h1
        (by rw [h2]; exact hv)
      rw [h2] at e1 e2 e3
      exact ⟨xn, xv, _, by omega, h3, e1, e2, e3⟩
  | l :: pre, ofs, fuel + 1, hw, hf, hn => by
    obtain ⟨h1, h2, h3⟩ := hw
    have hl := hn l (List.mem_cons_self _ _)
    rw [Bool.or_eq_false_iff] at hl
    have ih := scan_valueLoop_first c offset hd post pre _ fuel h3
      (by simpa using hf) (fun x hx => hn x (List.mem_cons_of_mem _ hx))
    rw [scan_valueLoop_skip c offset fuel ofs h1 (by rw [h2]; exact hl.1)
      (by rw [h2]; exact hl.2), h2]
    refine ⟨ih.1, fun hb hv => ?_⟩
    obtain ⟨xn, xv, o1, e0, e1, e2, e3, e4⟩ := ih.2 hb hv
    exact ⟨xn, xv, o1, by omega, e1, e2, e3, e4⟩

end CONFIGFILE

/-! ### The line-by-line description -/

theorem header_break (l : List Char) (h : isHeader l = true) : isBreak l = true := by
  unfold isHeader at h
  by_cases h1 : l.head? = some '['
  · cases l with
    | nil => simp at h1
    | cons a t =>
      simp only [List.head?_cons, Option.some.injEq] at h1
      subst h1
      rfl
  · rw [if_neg h1] at h
    cases h

theorem headerMatches_break (sectionName l : List Char)
    (h : headerMatches sectionName l = true) : isBreak l = true := by
  unfold headerMatches at h
  rw [Bool.and_eq_true] at h
  exact header_break l h.1

theorem lookupFrom_quiet (sectionName name : List Char) (inside : Bool)
    (rest : List (List Char)) :
    ∀ pre : List (List Char),
      (∀ l ∈ pre, isBreak l = false ∧ (inside && answers name l) = false) →
      lookupFrom sectionName name inside (pre ++ rest) = lookupFrom sectionName name inside rest
  | [], _ => rfl
  | l :: pre, h => by
    obtain ⟨h1, h2⟩ := h l (List.mem_cons_self _ _)
    have h0 : headerMatches sectionName l = false := by
      cases hm : headerMatches sectionName l
      · rfl
      · rw [headerMatches_break sectionName l hm] at h1
        cases h1
    show lookupFrom sectionName name inside (l :: (pre ++ rest)) = _
    rw [lookupFrom, h0, h1, h2]
    simp only [Bool.false_eq_true, if_false]
    exact lookupFrom_quiet sectionName name inside rest pre
      (fun x hx => h x (List.mem_cons_of_mem _ hx))

theorem lookupFrom_break (sectionName name : List Char) (l : List Char)
    (post : List (List Char)) (h : isBreak l = true) :
    lookupFrom sectionName name true (l :: post) =
      lookupFrom sectionName name false (l :: post) := by
  rw [lookupFrom, lookupFrom, h]
  simp

theorem lookupFrom_outside (sectionName name : List Char) (rest : List (List Char)) :
    ∀ pre : List (List Char), (∀ l ∈ pre, headerMatches sectionName l = false) →
      lookupFrom sectionName name false (pre ++ rest) = lookupFrom sectionName name false rest
  | [], _ => rfl
  | l :: pre, h => by
    show lookupFrom sectionName name false (l :: (pre ++ rest)) = _
    rw [lookupFrom, h l (List.mem_cons_self _ _)]
    simp only [Bool.false_eq_true, if_false, Bool.false_and, ite_self]
    exact lookupFrom_outside sectionName name rest pre
      (fun x hx => h x (List.mem_cons_of_mem _ hx))

theorem name_condition (s name : List Char) :
    (strncasecmp s name name.length = 0 ∧
      (s.takeWhile (fun ch => ch ≠ ' ' ∧ ch ≠ Char.ofNat 9 ∧ ch ≠ '=')).length = name.length) ↔
    (s.takeWhile (fun ch => ch ≠ ' ' ∧ ch ≠ Char.ofNat 9 ∧ ch ≠ '=')).map tolower =
      name.map tolower := by
  constructor
  · rintro ⟨h1, h2⟩
    unfold strncasecmp at h1
    by_cases h3 : (s.take name.length).map tolower = (name.take name.length).map tolower
    · rw [← h2, take_takeWhile_length, h2, List.take_length] at h3
      exact h3
    · rw [if_neg h3] at h1
      cases h1
  · intro h
    have hl : (s.takeWhile (fun ch => ch ≠ ' ' ∧ ch ≠ Char.ofNat 9 ∧ ch ≠ '=')).length =
        name.length := by
      have := congrArg List.length h
      simpa using this
    refine ⟨?_, hl⟩
    unfold strncasecmp
    rw [if_pos]
    rw [← hl, take_takeWhile_length, hl, List.take_length]
    exact h

namespace CONFIGFILE

theorem header_nonempty (l : List Char) (h : isHeader l = true) : 1 ≤ l.length := by
  cases l with
  | nil => simp [isHeader] at h
  | cons a t => simp

theorem not_header_not_matches (sectionName l : List Char) (h : isHeader l = false) :
    headerMatches sectionName l = false := by
  unfold headerMatches
  rw [h]
  rfl

theorem find_section_eq (c : CONFIGFILE) (F : Nat) (sectionName : List Char) (offset : Nat) :
    c.find_section F sectionName offset =
      c.find_sectionLoop F sectionName (sectionLength sectionName) F offset := rfl

theorem find_sectionLoop_spec (c : CONFIGFILE) (F : Nat) (sectionName : List Char) :
    ∀ (n : Nat) (ls : List (List Char)) (ofs fuel : Nat), ls.length ≤ n → c.Walk ofs ls →
      ls.length < fuel → ls.length < F →
      ((∀ l ∈ ls, headerMatches sectionName l = false) ∧
        ∃ o1, ofs ≤ o1 ∧ c.find_sectionLoop F sectionName (sectionLength sectionName) fuel ofs =
          some (CONFIGFILE_ERROR_NOSECTION, o1)) ∨
      (∃ pre hd post o1, ls = pre ++ hd :: post ∧
        (∀ l ∈ pre, headerMatches sectionName l = false) ∧
        headerMatches sectionName hd = true ∧ ofs < o1 ∧ c.Walk o1 post ∧
        c.find_sectionLoop F sectionName (sectionLength sectionName) fuel ofs =
          some (CONFIGFILE_OK, o1)) := by
  intro n
  induction n with
  | zero =>
    intro ls ofs fuel hn hw hf hF
    cases fuel with
    | zero => omega
    | succ fuel =>
      have hnil : ls = [] := List.length_eq_zero.1 (by omega)
      subst hnil
      left
      refine ⟨by simp, ofs, le_refl _, ?_⟩
      rw [find_sectionLoop, scan_section,
        scan_sectionLoop_none c ofs [] ofs F hw hF (by simp)]
      rfl
  | succ n ih =>
    intro ls ofs fuel hn hw hf hF
    cases fuel with
    | zero => omega
    | succ fuel =>
      rcases first_split isHeader ls with hno | ⟨pre, hd, post, e, hpre, hhd⟩
      · left
        refine ⟨fun l hl => not_header_not_matches sectionName l (hno l hl), ofs, le_refl _, ?_⟩
        rw [find_sectionLoop, scan_section, scan_sectionLoop_none c ofs ls ofs F hw hF hno]
        rfl
      · subst e
        obtain ⟨oh, ho, hs, hp, hr⟩ := scan_sectionLoop_found c ofs hd post hhd pre ofs F hw
          (by simp at hF; omega) hpre
        have hstr : c.str (oh + 1) = hd.drop 1 := by
          rw [str_add c oh 1 (by rw [hs]; exact header_nonempty hd hhd), hs]
        have hlen : (pre ++ hd :: post).length = pre.length + post.length + 1 := by
          simp; omega
        rw [hlen] at hn hf hF
        by_cases hm : headerMatches sectionName hd = true
        · right
          refine ⟨pre, hd, post, _, rfl,
            fun l hl => not_header_not_matches sectionName l (hpre l hl), hm, ?_, hp, ?_⟩
          · omega
          · rw [find_sectionLoop, scan_section, hr]
            simp only [ne_eq, not_true_eq_false, if_false, hstr]
            unfold headerMatches at hm
            rw [Bool.and_eq_true, decide_eq_true_eq] at hm
            rw [if_pos hm.2]
        · have hm0 : headerMatches sectionName hd = false := by simpa using hm
          have hstep : c.find_sectionLoop F sectionName (sectionLength sectionName) (fuel + 1)
              ofs = c.find_sectionLoop F sectionName (sectionLength sectionName) fuel
                (oh + hd.length + 1) := by
            rw [find_sectionLoop, scan_section, hr]
            simp only [ne_eq, not_true_eq_false, if_false, hstr]
            unfold headerMatches at hm0
            rw [hhd, Bool.true_and, decide_eq_false_iff_not] at hm0
            rw [if_neg hm0]
          rw [hstep]
          rcases ih post _ fuel (by omega) hp (by omega) (by omega) with
            ⟨h1, o1, h2, h3⟩ | ⟨pre2, hd2, post2, o1, e2, h1, h2, h3, h4, h5⟩
          · left
            refine ⟨?_, o1, by omega, h3⟩
            intro l hl
            rcases List.mem_append.1 hl with hl | hl
            · exact not_header_not_matches sectionName l (hpre l hl)
            · rcases List.mem_cons.1 hl with rfl | hl
              · exact hm0
              · exact h1 l hl
          · right
            refine ⟨pre ++ hd :: pre2, hd2, post2, o1, by rw [e2]; simp, ?_, h2, by omega,
              h4, h5⟩
            intro l hl
            rcases List.mem_append.1 hl with hl | hl
            · exact not_header_not_matches sectionName l (hpre l hl)
            · rcases List.mem_cons.1 hl with rfl | hl
              · exact hm0
              · exact h1 l hl

theorem answers_iff (name l : List Char) (hv : isValueLine l = true) :
    answers name l = true ↔
      (strncasecmp (l.dropWhile isBlank) name name.length = 0 ∧
        ((l.dropWhile isBlank).takeWhile
          (fun ch => ch ≠ ' ' ∧ ch ≠ Char.ofNat 9 ∧ ch ≠ '=')).length = name.length) := by
  rw [name_condition]
  unfold answers lineName
  rw [hv, Bool.true_and, decide_eq_true_eq]

theorem get_stringValues_spec (c : CONFIGFILE) (F : Nat) (sectionName name : List Char) :
    ∀ (n : Nat) (ls : List (List Char)) (ofs fuel : Nat), ls.length ≤ n → c.Walk ofs ls →
      ls.length < fuel → ls.length < F →
      (∃ x o1, c.get_stringValues F name fuel ofs = some (CONFIGFILE_OK, some x, o1) ∧
        ofs ≤ o1 ∧ lookupFrom sectionName name true ls = some (c.str x)) ∨
      (∃ o2 ls2, c.get_stringValues F name fuel ofs =
          some (CONFIGFILE_ERROR_NOVALUE, none, o2) ∧ ofs ≤ o2 ∧
        c.Walk o2 ls2 ∧ ls2.length ≤ ls.length ∧
        lookupFrom sectionName name true ls = lookupFrom sectionName name false ls2) := by
  intro n
  induction n with
  | zero =>
    intro ls ofs fuel hn hw hf hF
    cases fuel with
    | zero => omega
    | succ fuel =>
      have hnil : ls = [] := List.length_eq_zero.1 (by omega)
      subst hnil
      right
      refine ⟨ofs, [], ?_, le_refl _, hw, le_refl _, rfl⟩
      rw [get_stringValues, scan_value, scan_valueLoop_none c ofs [] ofs F hw hF (by simp)]
      rfl
  | succ n ih =>
    intro ls ofs fuel hn hw hf hF
    cases fuel with
    | zero => omega
    | succ fuel =>
      rcases first_split (fun l => isBreak l || isValueLine l) ls with
        hno | ⟨pre, hd, post, e, hpre, hhd⟩
      · right
        refine ⟨ofs, ls, ?_, le_refl _, hw, le_refl _, ?_⟩
        · rw [get_stringValues, scan_value, scan_valueLoop_none c ofs ls ofs F hw hF hno]
          rfl
        · have q : ∀ b : Bool, ∀ l ∈ ls, isBreak l = false ∧ (b && answers name l) = false := by
            intro b l hl
            have := hno l hl
            simp only [Bool.or_eq_false_iff] at this
            refine ⟨this.1, ?_⟩
            unfold answers
            rw [this.2]
            simp
          have e1 := lookupFrom_quiet sectionName name true [] ls (q true)
          have e2 := lookupFrom_quiet sectionName name false [] ls (q false)
          rw [List.append_nil] at e1 e2
          rw [e1, e2]
          rfl
      · subst e
        have q : ∀ b : Bool, ∀ l ∈ pre, isBreak l = false ∧ (b && answers name l) = false := by
          intro b l hl
          have := hpre l hl
          simp only [Bool.or_eq_false_iff] at this
          refine ⟨this.1, ?_⟩
          unfold answers
          rw [this.2]
          simp
        have hlen : (pre ++ hd :: post).length = pre.length + post.length + 1 := by
          simp; omega
        have hfirst := scan_valueLoop_first c ofs hd post pre ofs F hw (by rw [hlen] at hF; omega)
          hpre
        rw [lookupFrom_quiet sectionName name true (hd :: post) pre (q true)]
        by_cases hb : isBreak hd = true
        · right
          refine ⟨ofs, pre ++ hd :: post, ?_, le_refl _, hw, le_refl _, ?_⟩
          · rw [get_stringValues, scan_value, hfirst.1 hb]
            rfl
          · rw [lookupFrom_quiet sectionName name false (hd :: post) pre (q false)]
            exact lookupFrom_break sectionName name hd post hb
        · have hb0 : isBreak hd = false := by simpa using hb
          have hv : isValueLine hd = true := by
            simp only [hb0, Bool.false_or] at hhd
            exact hhd
          have hm0 : headerMatches sectionName hd = false := by
            cases hm : headerMatches sectionName hd
            · rfl
            · rw [headerMatches_break sectionName hd hm] at hb0
              cases hb0
          obtain ⟨xn, xv, o1, e0, e1, e2, e3, e4⟩ := hfirst.2 hb0 hv
          rw [hlen] at hn hf hF
          by_cases ha : answers name hd = true
          · left
            refine ⟨xv, o1, ?_, le_of_lt e0, ?_⟩
            · rw [get_stringValues, scan_value, e4]
              simp only [ne_eq, not_true_eq_false, if_false, e2]
              rw [if_pos ((answers_iff name hd hv).1 ha)]
            · rw [lookupFrom, hm0, hb0, ha, e3]
              rfl
          · have ha0 : answers name hd = false := by simpa using ha
            have hstep : c.get_stringValues F name (fuel + 1) ofs =
                c.get_stringValues F name fuel o1 := by
              rw [get_stringValues, scan_value, e4]
              simp only [ne_eq, not_true_eq_false, if_false, e2]
              rw [if_neg (fun h => ha ((answers_iff name hd hv).2 h))]
            have hl : lookupFrom sectionName name true (hd :: post) =
                lookupFrom sectionName name true post := by
              rw [lookupFrom, hm0, hb0, ha0]
              rfl
            rw [hstep, hl]
            rcases ih post o1 fuel (by omega) e1 (by omega) (by omega) with
              ⟨x, o3, h1, h0, h2⟩ | ⟨o2, ls2, h1, h2, h3, h4, h5⟩
            · exact Or.inl ⟨x, o3, h1, by omega, h2⟩
            · exact Or.inr ⟨o2, ls2, h1, by omega, h3, by omega, h5⟩

theorem get_stringLoop_spec (c : CONFIGFILE) (F : Nat) (sectionName name : List Char) :
    ∀ (n : Nat) (ls : List (List Char)) (ofs fuel : Nat), ls.length ≤ n → c.Walk ofs ls →
      ls.length < fuel → ls.length < F →
      (∃ x, c.get_stringLoop F sectionName name fuel ofs = some (CONFIGFILE_OK, some x) ∧
        lookupFrom sectionName name false ls = some (c.str x)) ∨
      (∃ i, i ≠ CONFIGFILE_OK ∧
        c.get_stringLoop F sectionName name fuel ofs = some (i, none) ∧
        lookupFrom sectionName name false ls = none) := by
  intro n
  induction n with
  | zero =>
    intro ls ofs fuel hn hw hf hF
    cases fuel with
    | zero => omega
    | succ fuel =>
      have hnil : ls = [] := List.length_eq_zero.1 (by omega)
      subst hnil
      right
      rcases find_sectionLoop_spec c F sectionName 0 [] ofs F (le_refl _) hw hF hF with
        ⟨_, o1, _, h3⟩ | ⟨pre, hd, post, _, e, _⟩
      · refine ⟨_, ?_, by rw [get_stringLoop, find_section_eq, h3]; rfl, rfl⟩
        split <;> decide
      · simp at e
  | succ n ih =>
    intro ls ofs fuel hn hw hf hF
    cases fuel with
    | zero => omega
    | succ fuel =>
      rcases find_sectionLoop_spec c F sectionName ls.length ls ofs F (le_refl _) hw hF hF with
        ⟨h1, o1, _, h3⟩ | ⟨pre, hd, post, o1, e, h1, h2, h3, h4, h5⟩
      · right
        refine ⟨_, ?_, by rw [get_stringLoop, find_section_eq, h3]; rfl, ?_⟩
        · split <;> decide
        · have := lookupFrom_outside sectionName name [] ls h1
          rw [List.append_nil] at this
          rw [this]
          rfl
      · subst e
        have hlen : (pre ++ hd :: post).length = pre.length + post.length + 1 := by
          simp; omega
        rw [hlen] at hn hf hF
        have hl : lookupFrom sectionName name false (pre ++ hd :: post) =
            lookupFrom sectionName name true post := by
          rw [lookupFrom_outside sectionName name (hd :: post) pre h1, lookupFrom, h2]
          rfl
        rw [hl]
        rcases get_stringValues_spec c F sectionName name post.length post o1 F (le_refl _) h4
            (by omega) (by omega) with
          ⟨x, o3, g1, _, g2⟩ | ⟨o2, ls2, g1, g2, g3, g4, g5⟩
        · left
          refine ⟨x, ?_, g2⟩
          rw [get_stringLoop, find_section_eq, h5]
          simp only [ne_eq, not_true_eq_false, if_false, g1, if_true]
        · have hstep : c.get_stringLoop F sectionName name (fuel + 1) ofs =
              c.get_stringLoop F sectionName name fuel o2 := by
            rw [get_stringLoop, find_section_eq, h5]
            simp only [ne_eq, not_true_eq_false, if_false, g1]
            rfl
          rw [hstep, g5]
          exact ih ls2 o2 fuel (by omega) g3 (by omega) (by omega)

/-- With fuel beyond the buffer length `get_string` returns, and it returns `CONFIGFILE_OK`
with the value that the line-by-line description finds, or an error when that finds none. -/
theorem get_string_spec (c : CONFIGFILE) (F : Nat) (sectionName name : List Char)
    (hF : c.buf_length < F) :
    (∃ x, c.get_string F sectionName name = some (CONFIGFILE_OK, some x) ∧
      lookupFrom sectionName name false c.lines = some (c.str x)) ∨
    (∃ i, i ≠ CONFIGFILE_OK ∧ c.get_string F sectionName name = some (i, none) ∧
      lookupFrom sectionName name false c.lines = none) :=
  get_stringLoop_spec c F sectionName name c.lines.length c.lines 0 F (le_refl _)
    (walk_lines c) (by have := lines_length c; omega) (by have := lines_length c; omega)

end CONFIGFILE

theorem answers_valueLine (name l : List Char) (h : answers name l = true) :
    isValueLine l = true ∧ (lineName l).map tolower = name.map tolower := by
  unfold answers at h
  rw [Bool.and_eq_true, decide_eq_true_eq] at h
  exact h

theorem valueLine_not_break (l : List Char) (h : isValueLine l = true) : isBreak l = false := by
  unfold isValueLine at h
  rw [Bool.and_eq_true, decide_eq_true_eq] at h
  unfold isBreak
  exact decide_eq_false h.1

theorem answers_not_break (name l : List Char) (h : answers name l = true) :
    isBreak l = false :=
  valueLine_not_break l (answers_valueLine name l h).1

theorem insideAfter_cons (sectionName : List Char) (inside : Bool) (x : List Char)
    (pre : List (List Char)) :
    insideAfter sectionName inside (x :: pre) =
      insideAfter sectionName (insideAfter sectionName inside [x]) pre := rfl

theorem insideAfter_append (sectionName : List Char) (inside : Bool)
    (p q : List (List Char)) :
    insideAfter sectionName inside (p ++ q) =
      insideAfter sectionName (insideAfter sectionName inside p) q := by
  unfold insideAfter
  rw [List.foldl_append]

theorem insideAfter_quiet (sectionName : List Char) :
    ∀ mid : List (List Char), (∀ m ∈ mid, isBreak m = false) →
      insideAfter sectionName true mid = true
  | [], _ => rfl
  | x :: mid, h => by
    have hb := h x (List.mem_cons_self _ _)
    have hm : headerMatches sectionName x = false := by
      cases hm : headerMatches sectionName x
      · rfl
      · rw [headerMatches_break sectionName x hm] at hb
        cases hb
    rw [insideAfter_cons]
    have : insideAfter sectionName true [x] = true := by
      simp [insideAfter, hm, hb]
    rw [this]
    exact insideAfter_quiet sectionName mid (fun m hm => h m (List.mem_cons_of_mem _ hm))

theorem insideAfter_of_header (sectionName : List Char) (inside : Bool)
    (a : List (List Char)) (hd : List Char) (mid : List (List Char))
    (hh : headerMatches sectionName hd = true) (hq : ∀ m ∈ mid, isBreak m = false) :
    insideAfter sectionName inside (a ++ hd :: mid) = true := by
  rw [insideAfter_append, insideAfter_cons]
  have : insideAfter sectionName (insideAfter sectionName inside a) [hd] = true := by
    simp [insideAfter, hh]
  rw [this]
  exact insideAfter_quiet sectionName mid hq

theorem header_of_insideAfter (sectionName : List Char) (pre : List (List Char)) :
    insideAfter sectionName false pre = true →
      ∃ a hd mid, pre = a ++ hd :: mid ∧ headerMatches sectionName hd = true ∧
        ∀ m ∈ mid, isBreak m = false := by
  induction pre using List.reverseRecOn with
  | nil =>
    intro h
    cases h
  | append_singleton pre x ih =>
    intro h
    rw [insideAfter_append] at h
    by_cases hm : headerMatches sectionName x = true
    · exact ⟨pre, x, [], rfl, hm, by simp⟩
    · have hm0 : headerMatches sectionName x = false := by simpa using hm
      by_cases hb : isBreak x = true
      · simp [insideAfter, hm0, hb] at h
      · have hb0 : isBreak x = false := by simpa using hb
        have h1 : insideAfter sectionName false pre = true := by
          simpa [insideAfter, hm0, hb0] using h
        obtain ⟨a, hd, mid, e, h2, h3⟩ := ih h1
        refine ⟨a, hd, mid ++ [x], by rw [e]; simp, h2, ?_⟩
        intro m hmem
        rcases List.mem_append.1 hmem with hmem | hmem
        · exact h3 m hmem
        · rw [List.mem_singleton.1 hmem]
          exact hb0

theorem lookupFrom_first (sectionName name : List Char) :
    ∀ (ls : List (List Char)) (inside : Bool) (v : List Char),
      lookupFrom sectionName name inside ls = some v →
      ∃ pre l post, ls = pre ++ l :: post ∧ insideAfter sectionName inside pre = true ∧
        answers name l = true ∧ v = lineValue l ∧
        ∀ pre2 l2 post2, ls = pre2 ++ l2 :: post2 →
          insideAfter sectionName inside pre2 = true → answers name l2 = true →
          pre.length ≤ pre2.length
  | [], _, _, h => by cases h
  | x :: xs, inside, v, h => by
    by_cases ha : inside = true ∧ answers name x = true
    · have hb := answers_not_break name x ha.2
      have hm : headerMatches sectionName x = false := by
        cases hm : headerMatches sectionName x
        · rfl
        · rw [headerMatches_break sectionName x hm] at hb
          cases hb
      rw [lookupFrom, hm, hb, ha.1, ha.2] at h
      simp only [Bool.false_eq_true, if_false, Bool.and_self, if_true, Option.some.injEq] at h
      refine ⟨[], x, xs, rfl, ?_, ha.2, h.symm, fun _ _ _ _ _ _ => Nat.zero_le _⟩
      rw [ha.1]
      rfl
    · have hstep : lookupFrom sectionName name inside (x :: xs) =
          lookupFrom sectionName name (insideAfter sectionName inside [x]) xs := by
        rw [lookupFrom]
        by_cases hm : headerMatches sectionName x = true
        · simp [insideAfter, hm]
        · have hm0 : headerMatches sectionName x = false := by simpa using hm
          by_cases hb : isBreak x = true
          · simp [insideAfter, hm0, hb]
          · have hb0 : isBreak x = false := by simpa using hb
            have : (inside && answers name x) = false := by
              cases hi : inside
              · rfl
              · cases hx : answers name x
                · rfl
                · exact absurd ⟨hi, hx⟩ ha
            simp [insideAfter, hm0, hb0, this]
      rw [hstep] at h
      obtain ⟨pre, l, post, e, h1, h2, h3, h4⟩ := lookupFrom_first sectionName name xs _ v h
      refine ⟨x :: pre, l, post, by rw [e]; rfl, by rw [insideAfter_cons]; exact h1, h2, h3, ?_⟩
      intro pre2 l2 post2 e2 i2 a2
      cases pre2 with
      | nil =>
        simp only [List.nil_append, List.cons.injEq] at e2
        rw [← e2.1] at a2
        exact absurd ⟨i2, a2⟩ ha
      | cons y pre2 =>
        simp only [List.cons_append, List.cons.injEq] at e2
        rw [← e2.1, insideAfter_cons] at i2
        have := h4 pre2 l2 post2 e2.2 i2 a2
        simp only [List.length_cons]
        omega

theorem bracket_last (t : List Char) :
    ']' ∈ t → t.drop (t.indexOf ']' + 1) = [] →
      ∃ nm, t = nm ++ [']'] ∧ ']' ∉ nm ∧ t.indexOf ']' = nm.length := by
  induction t with
  | nil =>
    intro h
    cases h
  | cons x t ih =>
    intro hmem hdrop
    by_cases hx : x = ']'
    · subst hx
      rw [List.indexOf_cons_self] at hdrop
      simp only [zero_add, List.drop_succ_cons, List.drop_zero] at hdrop
      subst hdrop
      exact ⟨[], rfl, by simp, by simp⟩
    · have hmem1 : ']' ∈ t := by
        rcases List.mem_cons.1 hmem with h | h
        · exact absurd h.symm hx
        · exact h
      have hidx : (x :: t).indexOf ']' = t.indexOf ']' + 1 :=
        List.indexOf_cons_ne _ hx
      rw [hidx] at hdrop
      obtain ⟨nm, e1, e2, e3⟩ := ih hmem1 (by simpa using hdrop)
      refine ⟨x :: nm, by rw [e1]; rfl, ?_, by rw [hidx, e3]; rfl⟩
      intro h
      rcases List.mem_cons.1 h with h | h
      · exact hx h.symm
      · exact e2 h

theorem indexOf_bracket (nm rest : List Char) (h : ']' ∉ nm) :
    (nm ++ ']' :: rest).indexOf ']' = nm.length := by
  induction nm with
  | nil => simp
  | cons x nm ih =>
    have hx : x ≠ ']' := fun e => h (by rw [e]; exact List.mem_cons_self _ _)
    have h1 : ']' ∉ nm := fun e => h (List.mem_cons_of_mem _ e)
    show (x :: (nm ++ ']' :: rest)).indexOf ']' = _
    rw [List.indexOf_cons_ne _ hx, ih h1]
    rfl

theorem sectionLength_le (sectionName : List Char) :
    sectionLength sectionName ≤ sectionName.length := by
  unfold sectionLength
  split <;> omega

/-- The header lines that `find_section` takes for `sectionName`: `[`, a name without `]` that
agrees up to case with the first `sectionLength sectionName` characters of `sectionName`, and
`]`. -/
theorem headerMatches_iff (sectionName l : List Char) :
    headerMatches sectionName l = true ↔
      ∃ nm, l = '[' :: (nm ++ [']']) ∧ ']' ∉ nm ∧
        nm.map tolower = (sectionName.take (sectionLength sectionName)).map tolower := by
  constructor
  · intro h
    unfold headerMatches at h
    rw [Bool.and_eq_true, decide_eq_true_eq] at h
    obtain ⟨h1, h2, h3⟩ := h
    cases l with
    | nil => simp [isHeader] at h1
    | cons a t =>
      unfold isHeader at h1
      by_cases ha : (a :: t).head? = some '['
      · rw [if_pos ha] at h1
        simp only [List.head?_cons, Option.some.injEq] at ha
        subst ha
        simp only [List.drop_succ_cons, List.drop_zero] at h2 h3
        unfold strchr at h1 h2
        by_cases hm : ']' ∈ t
        · rw [if_pos hm] at h2
          rw [if_pos (List.mem_cons_of_mem _ hm)] at h1
          simp only [decide_eq_true_eq] at h1
          rw [List.indexOf_cons_ne _ (by decide)] at h1
          simp only [List.drop_succ_cons] at h1
          obtain ⟨nm, e1, e2, e3⟩ := bracket_last t hm h1
          refine ⟨nm, by rw [e1], e2, ?_⟩
          simp only [Option.some.injEq] at h2
          unfold strncasecmp at h3
          by_cases hc : (t.take (sectionLength sectionName)).map tolower =
              (sectionName.take (sectionLength sectionName)).map tolower
          · rw [← hc, ← h2, e3, e1, List.take_left]
          · rw [if_neg hc] at h3
            cases h3
        · rw [if_neg hm] at h2
          cases h2
      · rw [if_neg ha] at h1
        cases h1
  · rintro ⟨nm, e1, e2, e3⟩
    subst e1
    have hlen : nm.length = sectionLength sectionName := by
      have := congrArg List.length e3
      simp only [List.length_map, List.length_take] at this
      have := sectionLength_le sectionName
      omega
    have hmem : ']' ∈ nm ++ [']'] := by simp
    unfold headerMatches
    rw [Bool.and_eq_true, decide_eq_true_eq]
    refine ⟨?_, ?_, ?_⟩
    · unfold isHeader
      rw [if_pos (by rfl)]
      unfold strchr
      rw [if_pos (List.mem_cons_of_mem _ hmem)]
      simp only [decide_eq_true_eq]
      rw [List.indexOf_cons_ne _ (by decide), indexOf_bracket nm [] e2]
      simp
    · simp only [List.drop_succ_cons, List.drop_zero]
      unfold strchr
      rw [if_pos hmem, indexOf_bracket nm [] e2, hlen]
    · simp only [List.drop_succ_cons, List.drop_zero]
      unfold strncasecmp
      rw [if_pos]
      rw [← hlen, List.take_left, hlen]
      exact e3

namespace CONFIGFILE

theorem exists_walk (c : CONFIGFILE) (ofs : Nat) :
    ∃ ls, c.Walk ofs ls ∧ ls.length ≤ c.buf_length := by
  refine ⟨c.linesFrom c.buf_length ofs, walk_linesFrom c _ ofs (by omega), ?_⟩
  have := walk_length c _ ofs (walk_linesFrom c c.buf_length ofs (by omega))
  omega

theorem scan_section_total (c : CONFIGFILE) (F offset : Nat) (hF : c.buf_length < F) :
    ∃ r, c.scan_section F offset = some r ∧ (r.1 = CONFIGFILE_OK → offset < r.2.2) ∧
      (r.1 ≠ CONFIGFILE_OK → r.2.2 = offset) := by
  obtain ⟨ls, hw, hl⟩ := exists_walk c offset
  rcases first_split isHeader ls with hno | ⟨pre, hd, post, e, hpre, hhd⟩
  · exact ⟨_, scan_sectionLoop_none c offset ls offset F hw (by omega) hno,
      fun h => absurd h nosection_ne_ok, fun _ => rfl⟩
  · subst e
    obtain ⟨oh, ho, _, _, hr⟩ := scan_sectionLoop_found c offset hd post hhd pre offset F hw
      (by simp at hl; omega) hpre
    exact ⟨_, hr, fun _ => by show offset < oh + hd.length + 1; omega,
      fun h => absurd rfl h⟩

theorem scan_value_total (c : CONFIGFILE) (F offset : Nat) (hF : c.buf_length < F) :
    ∃ r, c.scan_value F offset = some r ∧ (r.1 = CONFIGFILE_OK → offset < r.2.2) ∧
      (r.1 ≠ CONFIGFILE_OK → r.2.2 = offset) := by
  obtain ⟨ls, hw, hl⟩ := exists_walk c offset
  rcases first_split (fun l => isBreak l || isValueLine l) ls with
    hno | ⟨pre, hd, post, e, hpre, hhd⟩
  · exact ⟨_, scan_valueLoop_none c offset ls offset F hw (by omega) hno,
      fun h => absurd h novalue_ne_ok, fun _ => rfl⟩
  · subst e
    have hfirst := scan_valueLoop_first c offset hd post pre offset F hw
      (by simp at hl; omega) hpre
    by_cases hb : isBreak hd = true
    · exact ⟨_, hfirst.1 hb, fun h => absurd h novalue_ne_ok, fun _ => rfl⟩
    · have hb0 : isBreak hd = false := by simpa using hb
      have hv : isValueLine hd = true := by
        simp only [hb0, Bool.false_or] at hhd
        exact hhd
      obtain ⟨xn, xv, o1, e0, _, _, _, e4⟩ := hfirst.2 hb0 hv
      exact ⟨_, e4, fun _ => e0, fun h => absurd rfl h⟩

theorem find_section_total (c : CONFIGFILE) (F : Nat) (sectionName : List Char) (offset : Nat)
    (hF : c.buf_length < F) :
    ∃ r, c.find_section F sectionName offset = some r ∧ (r.1 = CONFIGFILE_OK → offset < r.2) ∧
      offset ≤ r.2 := by
  obtain ⟨ls, hw, hl⟩ := exists_walk c offset
  rcases find_sectionLoop_spec c F sectionName ls.length ls offset F (le_refl _) hw
      (by omega) (by omega) with ⟨_, o1, h2, h3⟩ | ⟨pre, hd, post, o1, _, _, _, h3, _, h5⟩
  · exact ⟨_, h3, fun h => absurd h nosection_ne_ok, h2⟩
  · exact ⟨_, h5, fun _ => h3, le_of_lt h3⟩

theorem get_stringValues_total (c : CONFIGFILE) (F : Nat) (name : List Char) (offset : Nat)
    (hF : c.buf_length < F) :
    ∃ r, c.get_stringValues F name F offset = some r ∧ offset ≤ r.2.2 := by
  obtain ⟨ls, hw, hl⟩ := exists_walk c offset
  rcases get_stringValues_spec c F [] name ls.length ls offset F (le_refl _) hw
      (by omega) (by omega) with ⟨x, o1, h1, h2, _⟩ | ⟨o2, ls2, h1, h2, _⟩
  · exact ⟨_, h1, h2⟩
  · exact ⟨_, h1, h2⟩

end CONFIGFILE

/-! ## What get_string and get_value return -/

/-- C21 (code defect): on the buffer whose only section header is `[other]`, `get_string` for
the section `main` returns `CONFIGFILE_ERROR_NOVALUE` although no header line of the buffer
matches `main`; `CONFIGFILE_ERROR_NOSECTION` comes back on the buffer without any header
line. -/
theorem C21_missing_section_reported_as_missing_value :
    otherSection.lines = ["[other]".toList, "a=1".toList] ∧
    (∀ l ∈ otherSection.lines, headerMatches "main".toList l = false) ∧
    otherSection.get_string 20 "main".toList "a".toList =
      some (CONFIGFILE_ERROR_NOVALUE, none) ∧
    noSection.get_string 20 "main".toList "a".toList =
      some (CONFIGFILE_ERROR_NOSECTION, none) := by
  decide

/-- C22 (as stated, refuted): for the value text `99999999999` the call `get_value` returns
`CONFIGFILE_OK`, and `*value` is not that number: it is 1215752191 where `long` has 64 bits
(the number that `strtol` returns, cut to 32 bits) and 2147483647 where `long` has 32 bits
(the largest `long`). -/
theorem C22_large_number_is_not_stored :
    bigNumber.str 11 = "99999999999".toList ∧
    bigNumber.get_string 30 "main".toList "big".toList = some (CONFIGFILE_OK, some 11) ∧
    strtol 64 "99999999999".toList = (99999999999, []) ∧
    bigNumber.get_value 30 64 "main".toList "big".toList 5 =
      some (CONFIGFILE_OK, 1215752191) ∧
    bigNumber.get_value 30 32 "main".toList "big".toList 5 =
      some (CONFIGFILE_OK, 2147483647) := by
  decide

/-- C22 (amended): on the buffer of a loaded file, with every loop allowed more rounds than
the file has characters, `get_value` returns. When `get_string` fails it returns that error
and leaves `*value` as it was. When `get_string` succeeds it returns
`CONFIGFILE_ERROR_INVALIDVALUE`, with `*value` as it was, for a text that is empty or has
characters left behind the number that `strtol` reads with base 0; for any other text it
returns `CONFIGFILE_OK` with `*value` the number that `strtol` returns converted to `int`,
which is that number itself when it lies in the range of `int`. -/
theorem C22_get_value_result (contents sectionName name : List Char) (k bits : Nat)
    (value : Int) :
    ∃ i dest,
      (CONFIGFILE.reload contents).get_string (contents.length + 1 + k) sectionName name =
        some (i, dest) ∧
      (i ≠ CONFIGFILE_OK →
        (CONFIGFILE.reload contents).get_value (contents.length + 1 + k) bits sectionName name
          value = some (i, value)) ∧
      (i = CONFIGFILE_OK → ∃ ptr, dest = some ptr ∧
        ((CONFIGFILE.reload contents).str ptr = [] ∨
            (strtol bits ((CONFIGFILE.reload contents).str ptr)).2 ≠ [] →
          (CONFIGFILE.reload contents).get_value (contents.length + 1 + k) bits sectionName
            name value = some (CONFIGFILE_ERROR_INVALIDVALUE, value)) ∧
        ((CONFIGFILE.reload contents).str ptr ≠ [] →
          (strtol bits ((CONFIGFILE.reload contents).str ptr)).2 = [] →
          (CONFIGFILE.reload contents).get_value (contents.length + 1 + k) bits sectionName
              name value =
            some (CONFIGFILE_OK,
              toInt32 (strtol bits ((CONFIGFILE.reload contents).str ptr)).1) ∧
          (-2147483648 ≤ (strtol bits ((CONFIGFILE.reload contents).str ptr)).1 →
            (strtol bits ((CONFIGFILE.reload contents).str ptr)).1 ≤ 2147483647 →
            toInt32 (strtol bits ((CONFIGFILE.reload contents).str ptr)).1 =
              (strtol bits ((CONFIGFILE.reload contents).str ptr)).1))) := by
  have hF : (CONFIGFILE.reload contents).buf_length < contents.length + 1 + k := by
    show contents.length < _
    omega
  rcases CONFIGFILE.get_string_spec (CONFIGFILE.reload contents) _ sectionName name hF with
    ⟨x, h1, _⟩ | ⟨i, h1, h2, _⟩
  · refine ⟨_, _, h1, fun h => absurd rfl h, fun _ => ⟨x, rfl, ?_, ?_⟩⟩
    · intro h
      unfold CONFIGFILE.get_value
      rw [h1]
      simp only [ne_eq, not_true_eq_false, if_false]
      rw [if_pos h]
    · intro ha hb
      refine ⟨?_, ?_⟩
      · unfold CONFIGFILE.get_value
        rw [h1]
        simp only [ne_eq, not_true_eq_false, if_false]
        rw [if_neg (by
          rintro (h | h)
          · exact ha h
          · exact h hb)]
      · intro hlo hhi
        unfold toInt32
        omega
  · refine ⟨_, _, h2, fun _ => ?_, fun h => absurd h h1⟩
    unfold CONFIGFILE.get_value
    rw [h2]
    simp only [ne_eq, h1, not_false_eq_true, if_true]

/-- C23 (as stated, refuted): asked for the section `main]`, `get_string` returns the value
of `q` from the section with the header `[main]`; and asked for `main` and `q` on the buffer
with the lines `[main]`, ` [x`, `q=1`, `[main]`, `q=2` it returns `2`, not the `1` of the
line `q=1`, which follows the first header `[main]` with no line between them whose first
character is `[`. -/
theorem C23_section_ends_at_indented_bracket :
    (mainSection.lines = ["[main]".toList, "q = 1".toList] ∧
      mainSection.get_string 20 "main]".toList "q".toList = some (CONFIGFILE_OK, some 11) ∧
      mainSection.str 11 = "1".toList) ∧
    (indentedBracket.lines =
        ["[main]".toList, " [x".toList, "q=1".toList, "[main]".toList, "q=2".toList] ∧
      indentedBracket.get_string 40 "main".toList "q".toList =
        some (CONFIGFILE_OK, some 24) ∧
      indentedBracket.str 24 = "2".toList) := by
  decide

/-- C23 (amended): whenever `get_string` returns `CONFIGFILE_OK` on the buffer of a loaded
file, `*dest` is the text behind the first `=`, leading spaces and tabs skipped, of a line `l`
of the buffer such that: a header line `[nm]` stands before `l`, where `nm` holds no `]` and
agrees up to case with `section` (less its last character when `section` holds a `]`); no
line between that header and `l` begins with `[` after leading spaces and tabs; `l` begins
neither with `[` nor with `#` after leading spaces and tabs and holds a `=`; and the name of
`l`, from its first character that is no space or tab up to the first space, tab or `=`,
agrees with `name` up to case. It is the first line of the buffer of which all that holds. -/
theorem C23_get_string_returns_first_answer (contents sectionName name : List Char) (F : Nat)
    (dest : Option Nat) (hF : contents.length < F)
    (h : (CONFIGFILE.reload contents).get_string F sectionName name =
      some (CONFIGFILE_OK, dest)) :
    ∃ ptr pre hd mid l post,
      dest = some ptr ∧
      (CONFIGFILE.reload contents).lines = pre ++ hd :: (mid ++ l :: post) ∧
      (∃ nm, hd = '[' :: (nm ++ [']']) ∧ ']' ∉ nm ∧
        nm.map tolower = (sectionName.take (sectionLength sectionName)).map tolower ∧
        (']' ∉ sectionName → nm.map tolower = sectionName.map tolower)) ∧
      (∀ m ∈ mid, isBreak m = false) ∧
      isValueLine l = true ∧ (lineName l).map tolower = name.map tolower ∧
      (CONFIGFILE.reload contents).str ptr = lineValue l ∧
      (∀ pre2 hd2 mid2 l2 post2,
        (CONFIGFILE.reload contents).lines = pre2 ++ hd2 :: (mid2 ++ l2 :: post2) →
        headerMatches sectionName hd2 = true → (∀ m ∈ mid2, isBreak m = false) →
        answers name l2 = true →
        (pre ++ hd :: mid).length ≤ (pre2 ++ hd2 :: mid2).length) := by
  rcases CONFIGFILE.get_string_spec (CONFIGFILE.reload contents) F sectionName name hF with
    ⟨x, h1, h2⟩ | ⟨i, h1, h2, _⟩
  · rw [h1] at h
    simp only [Option.some.injEq, Prod.mk.injEq, true_and] at h
    obtain ⟨pre0, l, post, e, g1, g2, g3, g4⟩ := lookupFrom_first sectionName name _ _ _ h2
    obtain ⟨a, hd, mid, e2, g5, g6⟩ := header_of_insideAfter sectionName pre0 g1
    obtain ⟨nm, n1, n2, n3⟩ := (headerMatches_iff sectionName hd).1 g5
    obtain ⟨v1, v2⟩ := answers_valueLine name l g2
    subst e2
    refine ⟨x, a, hd, mid, l, post, h.symm, by rw [e]; simp, ⟨nm, n1, n2, n3, ?_⟩, g6, v1, v2,
      g3, ?_⟩
    · intro hn
      rw [n3]
      have : sectionLength sectionName = sectionName.length := by
        unfold sectionLength strchr
        rw [if_neg hn]
        simp
      rw [this, List.take_length]
    · intro pre2 hd2 mid2 l2 post2 e3 m1 m2 m3
      exact g4 (pre2 ++ hd2 :: mid2) l2 post2 (by rw [e3]; simp)
        (insideAfter_of_header sectionName false pre2 hd2 mid2 m1 m2) m3
  · rw [h2] at h
    simp only [Option.some.injEq, Prod.mk.injEq] at h
    exact absurd h.1 h1

theorem C23_get_string_returns_first_answer_witness :
    ∃ ptr l, mainSection.get_string 20 "main".toList "q".toList =
        some (CONFIGFILE_OK, some ptr) ∧
      l ∈ mainSection.lines ∧ answers "q".toList l = true ∧
      mainSection.str ptr = lineValue l ∧ mainSection.str ptr = "1".toList := by
  obtain ⟨ptr, pre, hd, mid, l, post, h1, h2, _, _, h5, h6, h7, _⟩ :=
    C23_get_string_returns_first_answer "[main]\nq = 1\n".toList "main".toList "q".toList 20
      (some 11) (by decide) (by decide)
  cases h1
  refine ⟨11, l, by decide, ?_, ?_, h7, by decide⟩
  · show l ∈ (CONFIGFILE.reload "[main]\nq = 1\n".toList).lines
    rw [h2]
    simp
  · unfold answers
    rw [h5, Bool.true_and, decide_eq_true_eq]
    exact h6

/-- C30: on the buffer of every loaded file `get_string` returns, for every section and name,
once each of its loops may run more often than the file has characters. Every successful
`scan_section`, `scan_value` and `find_section` moves the offset forward, a failing
`scan_section` or `scan_value` leaves it where it was, the inner loop of `get_string` never
moves it back, and from the end of the buffer on `scan_section` and `scan_value` fail at
once. -/
theorem C30_get_string_terminates (contents sectionName name : List Char) (k : Nat) :
    (∃ r, (CONFIGFILE.reload contents).get_string (contents.length + 1 + k) sectionName name =
      some r) ∧
    (∀ offset, ∃ r,
      (CONFIGFILE.reload contents).scan_section (contents.length + 1 + k) offset = some r ∧
      (r.1 = CONFIGFILE_OK → offset < r.2.2) ∧ (r.1 ≠ CONFIGFILE_OK → r.2.2 = offset)) ∧
    (∀ offset, ∃ r,
      (CONFIGFILE.reload contents).scan_value (contents.length + 1 + k) offset = some r ∧
      (r.1 = CONFIGFILE_OK → offset < r.2.2) ∧ (r.1 ≠ CONFIGFILE_OK → r.2.2 = offset)) ∧
    (∀ offset, ∃ r,
      (CONFIGFILE.reload contents).find_section (contents.length + 1 + k) sectionName offset =
        some r ∧
      (r.1 = CONFIGFILE_OK → offset < r.2) ∧ offset ≤ r.2) ∧
    (∀ offset, ∃ r,
      (CONFIGFILE.reload contents).get_stringValues (contents.length + 1 + k) name
        (contents.length + 1 + k) offset = some r ∧ offset ≤ r.2.2) ∧
    (∀ offset, contents.length ≤ offset →
      (CONFIGFILE.reload contents).scan_section (contents.length + 1 + k) offset =
        some (CONFIGFILE_ERROR_NOSECTION, none, offset) ∧
      (CONFIGFILE.reload contents).scan_value (contents.length + 1 + k) offset =
        some (CONFIGFILE_ERROR_NOVALUE, none, offset)) := by
  have hF : (CONFIGFILE.reload contents).buf_length < contents.length + 1 + k := by
    show contents.length < _
    omega
  refine ⟨?_, fun offset => CONFIGFILE.scan_section_total _ _ offset hF,
    fun offset => CONFIGFILE.scan_value_total _ _ offset hF,
    fun offset => CONFIGFILE.find_section_total _ _ sectionName offset hF,
    fun offset => CONFIGFILE.get_stringValues_total _ _ name offset hF, ?_⟩
  · rcases CONFIGFILE.get_string_spec (CONFIGFILE.reload contents) _ sectionName name hF with
      ⟨x, h1, _⟩ | ⟨i, _, h2, _⟩
    · exact ⟨_, h1⟩
    · exact ⟨_, h2⟩
  · intro offset ho
    have hw : (CONFIGFILE.reload contents).Walk offset [] := ho
    exact ⟨CONFIGFILE.scan_sectionLoop_none _ offset [] offset _ hw (by simp) (by simp),
      CONFIGFILE.scan_valueLoop_none _ offset [] offset _ hw (by simp) (by simp)⟩

/-! ## How often the scan probes a client -/

namespace Machine

end Machine

end LibPlusPlus
